import Mathlib

/-!
Shallow embedding of the bit-vector invertibility-condition kernel of the
repository: the invertibility oracles of `src/bzlainvutils.c` and the
bit-vector domain module (domain construction, fixed-bit queries, the domain
value generator, the wheel factorizer and the `to_str` printer).

A bit-vector of width `w` is a natural number `< 2 ^ w`; all wrap-around
arithmetic is explicit `% 2 ^ w`.  A bit-vector domain is a pair `(lo, hi)`
of same-width bit-vectors; a concrete value `b` belongs to the domain iff
`lo &&& b = lo` and `b ||| hi = hi`.
-/

namespace Bzla

/-- All-ones bit-vector of width `w` (`bzla_bv_ones`). -/
def ones (w : Nat) : Nat := 2 ^ w - 1

/-- Bitwise complement within width `w` (`bzla_bv_not`). -/
def bv_not (w a : Nat) : Nat := a ^^^ ones w

/-- `bzla_bv_xnor`. -/
def bv_xnor (w a b : Nat) : Nat := bv_not w (a ^^^ b)

/-- Addition with wrap-around (`bzla_bv_add`). -/
def bv_add (w a b : Nat) : Nat := (a + b) % 2 ^ w

/-- Two's-complement negation (`bzla_bv_neg`). -/
def bv_neg (w a : Nat) : Nat := (2 ^ w - a % 2 ^ w) % 2 ^ w

/-- Subtraction with wrap-around (`bzla_bv_sub`). -/
def bv_sub (w a b : Nat) : Nat := (a + (2 ^ w - b % 2 ^ w)) % 2 ^ w

/-- Multiplication with wrap-around (`bzla_bv_mul`). -/
def bv_mul (w a b : Nat) : Nat := a * b % 2 ^ w

/-- Unsigned division; division by zero yields all-ones (`bzla_bv_udiv`). -/
def bv_udiv (w a b : Nat) : Nat := if b = 0 then ones w else a / b

/-- Unsigned remainder; remainder by zero yields the dividend
(`bzla_bv_urem`). -/
def bv_urem (a b : Nat) : Nat := if b = 0 then a else a % b

/-- Logical shift left by the value `b` (`bzla_bv_sll`); shifting by at
least the width gives `0`, which `% 2 ^ w` produces automatically. -/
def bv_sll (w a b : Nat) : Nat := a * 2 ^ b % 2 ^ w

/-- Logical shift right by the value `b` (`bzla_bv_srl`). -/
def bv_srl (a b : Nat) : Nat := a / 2 ^ b

/-- Slice of bits `u` down to `l` (`bzla_bv_slice`); result width
`u - l + 1`. -/
def bv_slice (t u l : Nat) : Nat := t / 2 ^ l % 2 ^ (u - l + 1)

/-- Increment (`bzla_bv_inc`). -/
def bv_inc (w a : Nat) : Nat := (a + 1) % 2 ^ w

/-- Decrement (`bzla_bv_dec`). -/
def bv_dec (w a : Nat) : Nat := bv_sub w a 1

/-- Concatenation `x ∘ s` where `s` has width `ws`
(`bzla_bv_concat`). -/
def bv_concat (ws x s : Nat) : Nat := x * 2 ^ ws + s

/-- Set bit `pos` of a width-`w` bit-vector to `value`
(`bzla_bv_set_bit`). -/
def bv_set_bit (w a pos : Nat) (value : Bool) : Nat :=
  if value then a ||| 2 ^ pos else a &&& (ones w ^^^ 2 ^ pos)

/-- `bzla_bv_uint64_to_bv`: truncate a value to width `w`. -/
def bv_uint64_to_bv (w val : Nat) : Nat := val % 2 ^ w

/-- Membership of a concrete value in a domain (the concretization
`γ(lo, hi)`). -/
def mem_dom (lo hi b : Nat) : Prop := lo &&& b = lo ∧ b ||| hi = hi

instance (lo hi b : Nat) : Decidable (mem_dom lo hi b) := by
  unfold mem_dom; infer_instance

/-- `bzla_bvdomain_is_valid`: `~lo | hi = ones`. -/
def bzla_bvdomain_is_valid (w lo hi : Nat) : Bool :=
  bv_not w lo ||| hi == ones w

/-- `bzla_bvdomain_is_fixed_bit`: bit `i` has the same value in `lo` and
`hi`. -/
def is_fixed_bit (lo hi i : Nat) : Bool := lo.testBit i == hi.testBit i

/-- `bzla_bvdomain_check_fixed_bits` (also the static `check_const_bits` of
`bzlainvutils.c`): `((b & hi) | lo) = b`. -/
def check_fixed_bits (lo hi b : Nat) : Bool := (b &&& hi ||| lo) == b

/-- `bzla_bvdomain_is_consistent`: the bit-by-bit loop. -/
def bzla_bvdomain_is_consistent (w lo hi b : Nat) : Bool :=
  (List.range w).all fun i =>
    !(is_fixed_bit lo hi i) || (lo.testBit i == b.testBit i)

/-- `bzla_bvdomain_has_fixed_bits`: `redor (xnor lo hi)`. -/
def bzla_bvdomain_has_fixed_bits (w lo hi : Nat) : Bool :=
  bv_xnor w lo hi != 0

/-- `check_const_bits_val` of `bzlainvutils.c`: compare against the
all-zero or all-ones vector. -/
def check_const_bits_val (w lo hi : Nat) (val : Bool) : Bool :=
  check_fixed_bits lo hi (if val then ones w else 0)

/-- `check_const_domain_bits` of `bzlainvutils.c`: the two domains agree on
every bit position fixed in both. -/
def check_const_domain_bits (w lo1 hi1 lo2 hi2 : Nat) : Bool :=
  bv_xnor w lo1 hi1 &&& bv_xnor w lo2 hi2 &&& lo1
    == bv_xnor w lo1 hi1 &&& bv_xnor w lo2 hi2 &&& lo2

/-- Well-formed valid domain of width `w`: both bounds are width-`w`
bit-vectors and no position has `lo = 1, hi = 0`. -/
def ValidDom (w lo hi : Nat) : Prop :=
  lo < 2 ^ w ∧ hi < 2 ^ w ∧ bzla_bvdomain_is_valid w lo hi = true

/-! ### Domain constructors (C9) -/

/-- One position of a ternary string: `0`, `1` or `x`. -/
inductive Trit where
  | t0 : Trit
  | t1 : Trit
  | tx : Trit

/-- The bit a ternary character contributes when `x` is replaced by
`bit` (the loop body of `char_to_bv`). -/
def trit_to_bit (c : Trit) (bit : Bool) : Bool :=
  match c with
  | .t0 => false
  | .t1 => true
  | .tx => bit

/-- `char_to_bv` of `bzlabvdomain.c`: build a bit-vector from a ternary
string (MSB first), replacing `x` by `bit`. -/
def char_to_bv : List Trit → Bool → Nat
  | [], _ => 0
  | c :: cs, bit => (if trit_to_bit c bit then 2 ^ cs.length else 0) + char_to_bv cs bit

/-- `bzla_bvdomain_new_init`: fully unknown domain of width `w`. -/
def bzla_bvdomain_new_init (w : Nat) : Nat × Nat := (0, ones w)

/-- `bzla_bvdomain_new_from_char`: `lo` replaces `x` with `0`, `hi` with
`1`. -/
def bzla_bvdomain_new_from_char (cs : List Trit) : Nat × Nat :=
  (char_to_bv cs false, char_to_bv cs true)

/-- `bzla_bvdomain_new_fixed`: singleton domain. -/
def bzla_bvdomain_new_fixed (bv : Nat) : Nat × Nat := (bv, bv)

/-- `bzla_bvdomain_new_fixed_uint64`. -/
def bzla_bvdomain_new_fixed_uint64 (w val : Nat) : Nat × Nat :=
  (bv_uint64_to_bv w val, bv_uint64_to_bv w val)

/-- `bzla_bvdomain_fix_bit`: set bit `pos` of both bounds to `value`. -/
def bzla_bvdomain_fix_bit (w lo hi pos : Nat) (value : Bool) : Nat × Nat :=
  (bv_set_bit w lo pos value, bv_set_bit w hi pos value)

/-! ### The shift oracles (domain-oblivious, C7) -/

/-- `bzla_is_inv_sll`: `pos_x = 0` uses the IC `(t >> s) << s = t`;
`pos_x = 1` iterates `i = 0 .. w` inclusive (as width-`w` bit-vectors) and
accepts iff some `s << i = t`. -/
def bzla_is_inv_sll (w t s pos_x : Nat) : Bool :=
  if pos_x = 0 then bv_sll w (bv_srl t s) s == t
  else (List.range (w + 1)).any fun i => bv_sll w s (bv_uint64_to_bv w i) == t

/-- `bzla_is_inv_srl`: mirror image of `bzla_is_inv_sll`. -/
def bzla_is_inv_srl (w t s pos_x : Nat) : Bool :=
  if pos_x = 0 then bv_srl (bv_sll w t s) s == t
  else (List.range (w + 1)).any fun i => bv_srl s (bv_uint64_to_bv w i) == t

/-! ### The rotating print buffer of `bzla_bvdomain_to_str` (C4) -/

/-- The size of the static rotating buffer used by
`bzla_bvdomain_to_str`. -/
def PRINT_BUFFER_SIZE : Nat := 1024

/-- The character printed for bit `i` of a domain (the loop body of
`bzla_bvdomain_to_str`). -/
def dom_char (lo hi : Nat) (i : Nat) : Char :=
  if lo.testBit i = hi.testBit i then (if lo.testBit i then '1' else '0')
  else if lo.testBit i = false then 'x' else '?'

/-- The characters `bzla_bvdomain_to_str` emits for a domain of width `w`:
`w` characters MSB first, truncated to `w - 3` characters followed by
`"..."` when `w + 1 ≥ PRINT_BUFFER_SIZE`. -/
def bzla_bvdomain_to_str_chars (w lo hi : Nat) : List Char :=
  ((List.range (if PRINT_BUFFER_SIZE ≤ w + 1 then w - 3 else w)).map
      fun i => dom_char lo hi (w - (i + 1)))
    ++ (if PRINT_BUFFER_SIZE ≤ w + 1 then ['.', '.', '.'] else [])

/-- The post-rotation buffer cursor of `bzla_bvdomain_to_str`: the cursor
resets to `0` when `w + 1 ≥ PRINT_BUFFER_SIZE - start`. -/
def to_str_start (w start : Nat) : Nat :=
  if PRINT_BUFFER_SIZE - start ≤ w + 1 then 0 else start

/-- The conjunction of the buffer-bound assertions executed by
`bzla_bvdomain_to_str` on a domain of width `w` when the rotating buffer
cursor is at `start`: every character write is followed by
`assert(s_buf_pos < PRINT_BUFFER_SIZE - 1)`, and the `"..."` suffix is
guarded by `assert(s_buf_pos < PRINT_BUFFER_SIZE - 4)`. -/
def bzla_bvdomain_to_str_asserts (w start : Nat) : Bool :=
  ((List.range (if PRINT_BUFFER_SIZE ≤ w + 1 then w - 3 else w)).all fun k =>
      decide (to_str_start w start + (k + 1) < PRINT_BUFFER_SIZE - 1)) &&
    (if PRINT_BUFFER_SIZE ≤ w + 1 then
      decide (to_str_start w start +
        (if PRINT_BUFFER_SIZE ≤ w + 1 then w - 3 else w) < PRINT_BUFFER_SIZE - 4)
    else true)

/-- The index of the last buffer cell written by `bzla_bvdomain_to_str`
(the terminating `0` byte): `print_width` characters, plus three dots when
truncating, starting at the post-rotation cursor. -/
def to_str_max_write_index (w start : Nat) : Nat :=
  to_str_start w start + (if PRINT_BUFFER_SIZE ≤ w + 1 then w - 3 else w)
    + (if PRINT_BUFFER_SIZE ≤ w + 1 then 3 else 0)

/-! ### The wheel factorizer (C8, C10) -/

/-- Increment table of the mod-30 wheel (`wf->inc`), as width-`w`
bit-vectors. -/
def wf_inc (w pos : Nat) : Nat :=
  bv_uint64_to_bv w
    (match pos with
      | 0 => 1 | 1 => 2 | 2 => 2 | 3 => 4 | 4 => 2 | 5 => 4 | 6 => 2
      | 7 => 4 | 8 => 6 | 9 => 2 | _ => 6)

/-- State of the wheel factorizer (`struct WheelFactorizer`). -/
structure WFact where
  done : Bool
  num : Nat
  fact : Nat
  pos : Nat
  limit : Nat
  w : Nat

/-- `wfact_init`. -/
def wfact_init (w n limit : Nat) : WFact :=
  { done := false
    num := n
    fact := bv_uint64_to_bv w 2
    pos := 0
    limit := limit
    w := w }

/-- How one call of `wfact_next` returned: a proper factor (`num` was
divided), the final residual (`fact * fact > num`), or null (limit
exceeded, increment overflow, or the factorizer was already done). -/
inductive WfRes where
  | factor : Nat → WfRes
  | residual : Nat → WfRes
  | exhausted : WfRes

/-- The trial-division loop of `wfact_next`; `fuel` bounds the number of
iterations of the `while (true)` loop. -/
def wfact_next_go (st : WFact) (num_iterations : Nat) : Nat → WfRes × WFact
  | 0 => (.exhausted, st)
  | fuel + 1 =>
    if st.limit ≠ 0 ∧ st.limit < num_iterations + 1 then
      (.exhausted, { st with done := true })
    else if st.num < bv_mul st.w st.fact st.fact then
      (.residual st.num, { st with done := true })
    else if bv_urem st.num st.fact = 0 then
      (.factor st.fact, { st with num := bv_udiv st.w st.num st.fact })
    else
      if bv_add st.w st.fact (wf_inc st.w st.pos) ≤ st.fact then
        (.exhausted,
          { st with
            fact := bv_add st.w st.fact (wf_inc st.w st.pos)
            pos := if st.pos = 10 then 3 else st.pos + 1
            done := true })
      else
        wfact_next_go
          { st with
            fact := bv_add st.w st.fact (wf_inc st.w st.pos)
            pos := if st.pos = 10 then 3 else st.pos + 1 }
          (num_iterations + 1) fuel

/-- `wfact_next`: returns null immediately when done, else runs the
trial-division loop. -/
def wfact_next (st : WFact) (fuel : Nat) : WfRes × WFact :=
  if st.done then (.exhausted, st) else wfact_next_go st 0 fuel

/-- Draining the factorizer: call `wfact_next` until it returns null,
collecting the returned factors.  The second component records whether the
final residual was emitted during the drain. -/
def wfact_drain (st : WFact) (inner : Nat) : Nat → List Nat × Bool
  | 0 => ([], false)
  | fuel + 1 =>
    match wfact_next st inner with
    | (.exhausted, _) => ([], false)
    | (.factor f, st') =>
      (f :: (wfact_drain st' inner fuel).1, (wfact_drain st' inner fuel).2)
    | (.residual f, st') =>
      (f :: (wfact_drain st' inner fuel).1, true)

/-! ### `bzla_bvdomain_get_factor` (C10) -/

/-- The acceptance test of the `bzla_bvdomain_get_factor` loop: the factor
must exceed `excl_min_val` (when given) and match the fixed bits of the
domain `x` (when given). -/
def get_factor_accept (x : Option (Nat × Nat)) (excl : Option Nat)
    (f : Nat) : Bool :=
  (match excl with
    | none => true
    | some e => decide (e < f)) &&
  (match x with
    | none => true
    | some d => check_fixed_bits d.1 d.2 f)

/-- The `while (true)` loop of `bzla_bvdomain_get_factor`: draw factors
from the wheel factorizer until one passes the acceptance test or the
factorizer is exhausted. -/
def bzla_bvdomain_get_factor_go (x : Option (Nat × Nat)) (excl : Option Nat)
    (inner : Nat) : WFact → Nat → Option Nat
  | _, 0 => none
  | st, fuel + 1 =>
    match wfact_next st inner with
    | (.exhausted, _) => none
    | (.factor f, st') =>
      if get_factor_accept x excl f then some f
      else bzla_bvdomain_get_factor_go x excl inner st' fuel
    | (.residual f, st') =>
      if get_factor_accept x excl f then some f
      else bzla_bvdomain_get_factor_go x excl inner st' fuel

/-- `bzla_bvdomain_get_factor`. -/
def bzla_bvdomain_get_factor (w num : Nat) (x : Option (Nat × Nat))
    (excl : Option Nat) (limit fuel inner : Nat) : Option Nat :=
  bzla_bvdomain_get_factor_go x excl inner (wfact_init w num limit) fuel

/-! ### The domain value generator (C3, C1) -/

/-- The unfixed bit positions of a domain, in ascending order.  The
generator's compact counter has one bit per entry of this list. -/
def free_pos (w lo hi : Nat) : List Nat :=
  (List.range w).filter fun i => !(is_fixed_bit lo hi i)

/-- `cnt` of `bzla_bvdomain_gen_init_range`: the number of unfixed bits. -/
def gen_cnt (w lo hi : Nat) : Nat := (free_pos w lo hi).length

/-- The composition loop of `gen_next_bits`: overwrite the unfixed
positions of `lo` (listed in `ps`) with the bits of the compact counter
`bits`, low counter bit to low free position. -/
def compose_go (w bits : Nat) : List Nat → Nat → Nat → Nat
  | [], _, res => res
  | p :: ps, j, res => compose_go w bits ps (j + 1) (bv_set_bit w res p (bits.testBit j))

/-- The value emitted by `gen_next_bits` for counter value `bits`. -/
def gen_compose (w lo hi bits : Nat) : Nat :=
  compose_go w bits (free_pos w lo hi) 0 lo

/-- Inverse of `gen_compose`: read the unfixed positions of a concrete
value back into a compact counter. -/
def extract_go (b : Nat) : List Nat → Nat → Nat → Nat
  | [], _, acc => acc
  | p :: ps, j, acc => extract_go b ps (j + 1) (if b.testBit p then acc ||| 2 ^ j else acc)

/-- Inverse of `gen_compose` on the concretization of the domain. -/
def gen_extract (w lo hi b : Nat) : Nat := extract_go b (free_pos w lo hi) 0 0

/-- The repair step of the `bits_min` scan: set the counter bit at index
`cnt - 1 - j0` to `1` and clear every lower counter bit. -/
def bm_bump_min (cnt bm j0 : Nat) : Nat :=
  ((List.range cnt).drop (j0 + 1)).foldl
    (fun acc k => bv_set_bit cnt acc (cnt - 1 - k) false)
    (bv_set_bit cnt bm (cnt - 1 - j0) true)

/-- The repair step of the `bits_max` scan: set the counter bit at index
`cnt - 1 - j0` to `0` and raise every lower counter bit. -/
def bm_bump_max (cnt bm j0 : Nat) : Nat :=
  ((List.range cnt).drop (j0 + 1)).foldl
    (fun acc k => bv_set_bit cnt acc (cnt - 1 - k) true)
    (bv_set_bit cnt bm (cnt - 1 - j0) false)

/-- The `bits_min` scan of `bzla_bvdomain_gen_init_range`: process the
positions MSB to LSB (`ps` is the descending position list), copying bits
of the lower range bound `m` into the counter at the unfixed positions
(`j` counts them, `j0` remembers the last one that received a `0`); a
fixed `1` above a `0` of `m` makes every lower counter bit `0`; a fixed
`0` below a `1` of `m` is repaired by bumping the counter bit at `j0` and
zeroing the lower ones. -/
def bits_min_go (lo hi m cnt : Nat) : List Nat → Nat → Nat → Nat → Nat
  | [], bm, _, _ => bm
  | p :: ps, bm, j, j0 =>
    if !(is_fixed_bit lo hi p) then
      bits_min_go lo hi m cnt ps
        (bv_set_bit cnt bm (cnt - 1 - j) (m.testBit p))
        (j + 1) (if m.testBit p then j0 else j)
    else if lo.testBit p && !(m.testBit p) then bm
    else if !(lo.testBit p) && m.testBit p then bm_bump_min cnt bm j0
    else bits_min_go lo hi m cnt ps bm j j0

/-- `bits_min` for the effective lower bound `m`. -/
def bzla_bvdomain_gen_bits_min (w lo hi m : Nat) : Nat :=
  bits_min_go lo hi m (gen_cnt w lo hi) ((List.range w).reverse) 0 0 0

/-- The `bits_max` scan of `bzla_bvdomain_gen_init_range` (dual to
`bits_min_go`, starting from the all-ones counter). -/
def bits_max_go (lo hi m cnt : Nat) : List Nat → Nat → Nat → Nat → Nat
  | [], bm, _, _ => bm
  | p :: ps, bm, j, j0 =>
    if !(is_fixed_bit lo hi p) then
      bits_max_go lo hi m cnt ps
        (bv_set_bit cnt bm (cnt - 1 - j) (m.testBit p))
        (j + 1) (if m.testBit p then j else j0)
    else if lo.testBit p && !(m.testBit p) then bm_bump_max cnt bm j0
    else if !(lo.testBit p) && m.testBit p then bm
    else bits_max_go lo hi m cnt ps bm j j0

/-- `bits_max` for the effective upper bound `m`. -/
def bzla_bvdomain_gen_bits_max (w lo hi m : Nat) : Nat :=
  bits_max_go lo hi m (gen_cnt w lo hi) ((List.range w).reverse)
    (ones (gen_cnt w lo hi)) 0 0

/-- The effective lower bound: `min` is raised to `lo` when absent or
smaller (`if (!min || compare(d->lo, min) > 0) min = d->lo`). -/
def gen_eff_min (lo : Nat) (minO : Option Nat) : Nat :=
  match minO with
  | none => lo
  | some mn => if mn < lo then lo else mn

/-- The effective upper bound: `max` is lowered to `hi` when absent or
larger. -/
def gen_eff_max (hi : Nat) (maxO : Option Nat) : Nat :=
  match maxO with
  | none => hi
  | some mx => if hi < mx then hi else mx

/-- `bzla_bvdomain_gen_init_range`: the generator state is the current
counter (`none` when the generator is empty or exhausted) together with
`bits_min` and `bits_max`. -/
def bzla_bvdomain_gen_init_range (w lo hi : Nat) (minO maxO : Option Nat) :
    Option Nat × Nat × Nat :=
  if gen_cnt w lo hi ≠ 0 ∧ gen_eff_min lo minO ≤ hi ∧
      lo ≤ gen_eff_max hi maxO then
    (if bzla_bvdomain_gen_bits_min w lo hi (gen_eff_min lo minO) ≤
        bzla_bvdomain_gen_bits_max w lo hi (gen_eff_max hi maxO) then
      some (bzla_bvdomain_gen_bits_min w lo hi (gen_eff_min lo minO))
    else none,
      bzla_bvdomain_gen_bits_min w lo hi (gen_eff_min lo minO),
      bzla_bvdomain_gen_bits_max w lo hi (gen_eff_max hi maxO))
  else (none, 0, 0)

/-- `bzla_bvdomain_gen_has_next`: a counter is loaded and has not passed
`bits_max`. -/
def bzla_bvdomain_gen_has_next (g : Option Nat × Nat × Nat) : Bool :=
  match g.1 with
  | none => false
  | some bits => decide (bits ≤ g.2.2)

/-- `bzla_bvdomain_gen_next` (via `gen_next_bits` with `random = false`):
emit the composition of the current counter; the counter becomes `none`
when it has reached `bits_max` and is incremented otherwise. -/
def bzla_bvdomain_gen_next (w lo hi : Nat) (g : Option Nat × Nat × Nat) :
    Nat × (Option Nat × Nat × Nat) :=
  match g.1 with
  | none => (0, g)
  | some bits =>
    (gen_compose w lo hi bits,
      ((if bits = g.2.2 then none
        else some (bv_inc (gen_cnt w lo hi) bits)), g.2))

/-- Drain the generator: `bzla_bvdomain_gen_next` while
`bzla_bvdomain_gen_has_next`. -/
def gen_drain_go (w lo hi : Nat) (g : Option Nat × Nat × Nat) :
    Nat → List Nat
  | 0 => []
  | fuel + 1 =>
    if bzla_bvdomain_gen_has_next g then
      (bzla_bvdomain_gen_next w lo hi g).1 ::
        gen_drain_go w lo hi (bzla_bvdomain_gen_next w lo hi g).2 fuel
    else []

/-- Initialize the generator on range `[minO, maxO]` and drain it. -/
def bzla_bvdomain_gen_drain (w lo hi : Nat) (minO maxO : Option Nat)
    (fuel : Nat) : List Nat :=
  gen_drain_go w lo hi (bzla_bvdomain_gen_init_range w lo hi minO maxO) fuel

/-! ### Characterizing the `bits_min` / `bits_max` scans -/

/-- Number of unfixed positions in a position list. -/
def fcnt (lo hi : Nat) (ps : List Nat) : Nat :=
  (ps.filter fun p => !(is_fixed_bit lo hi p)).length

/-- Partial composition over a descending suffix of positions: fixed
positions contribute their `lo` bit, the `j`-th unfixed position (from the
LSB) contributes bit `j` of the counter `c`. -/
def scompose (lo hi c : Nat) : List Nat → Nat
  | [] => 0
  | p :: ps =>
    (if !(is_fixed_bit lo hi p) then
      (if c.testBit (fcnt lo hi ps) then 2 ^ p else 0)
    else (if lo.testBit p then 2 ^ p else 0)) + scompose lo hi c ps

/-- The bound `m` restricted to a position list. -/
def mrestrict (m : Nat) : List Nat → Nat
  | [] => 0
  | p :: ps => (if m.testBit p then 2 ^ p else 0) + mrestrict m ps

/-- The least counter value whose partial composition is `≥ m` on a
descending suffix of positions (`none` when no counter value achieves
it). -/
def leastC (lo hi m : Nat) : List Nat → Option Nat
  | [] => some 0
  | p :: ps =>
    if !(is_fixed_bit lo hi p) then
      (if m.testBit p then
        (match leastC lo hi m ps with
          | some c => some (2 ^ fcnt lo hi ps + c)
          | none => none)
      else
        (match leastC lo hi m ps with
          | some c => some c
          | none => some (2 ^ fcnt lo hi ps)))
    else
      if lo.testBit p = m.testBit p then leastC lo hi m ps
      else if lo.testBit p then some 0
      else none

/-! ### The invertibility oracles of `bzlainvutils.c` (C1, C2, C5) -/

/-- `bzla_is_inv_add`: IC true. -/
def bzla_is_inv_add (w t s pos_x : Nat) : Bool := true

/-- `bzla_is_inv_and`: IC `t & s = t`. -/
def bzla_is_inv_and (t s pos_x : Nat) : Bool := t &&& s == t

/-- `bzla_is_inv_concat`: `s` equals the matching slice of `t` (`x` has
width `wx`, `s` width `ws`, `t` width `wx + ws`). -/
def bzla_is_inv_concat (wx ws t s pos_x : Nat) : Bool :=
  if pos_x = 0 then s == bv_slice t (ws - 1) 0
  else s == bv_slice t (wx + ws - 1) (wx + ws - ws)

/-- `bzla_is_inv_eq`: IC true. -/
def bzla_is_inv_eq (t s pos_x : Nat) : Bool := true

/-- `bzla_is_inv_mul`: IC `(-s | s) & t = t`. -/
def bzla_is_inv_mul (w t s pos_x : Nat) : Bool := (bv_neg w s ||| s) &&& t == t

/-- `bzla_is_inv_ult`. -/
def bzla_is_inv_ult (w t s pos_x : Nat) : Bool :=
  if pos_x = 0 then t == 0 || !(s == 0)
  else t == 0 || !(s == ones w)

/-- `bzla_is_inv_udiv`. -/
def bzla_is_inv_udiv (w t s pos_x : Nat) : Bool :=
  if pos_x = 0 then bv_udiv w (bv_mul w s t) s == t
  else bv_udiv w s (bv_udiv w s t) == t

/-- `bzla_is_inv_urem`: `~(-s) >= t` for `pos_x = 0`,
`(t + t - s) & s >= t` for `pos_x = 1`. -/
def bzla_is_inv_urem (w t s pos_x : Nat) : Bool :=
  if pos_x = 0 then decide (t ≤ bv_not w (bv_neg w s))
  else decide (t ≤ bv_add w (bv_add w t t) (bv_neg w s) &&& s)

/-- `bzla_is_inv_add_const`: the unique preimage `t - s` must match the
fixed bits. -/
def bzla_is_inv_add_const (w lo hi t s pos_x : Nat) : Bool :=
  check_fixed_bits lo hi (bv_sub w t s)

/-- `bzla_is_inv_and_const`. -/
def bzla_is_inv_and_const (w lo hi t s pos_x : Nat) : Bool :=
  if !(bzla_is_inv_and t s pos_x) then false
  else s &&& hi &&& bv_xnor w lo hi == t &&& bv_xnor w lo hi

/-- `bzla_is_inv_concat_const`. -/
def bzla_is_inv_concat_const (wx ws lo hi t s pos_x : Nat) : Bool :=
  if pos_x = 0 then
    (bv_slice t (wx + ws - 1) ws &&& hi ||| lo == bv_slice t (wx + ws - 1) ws)
      && (s == bv_slice t (ws - 1) 0)
  else
    (bv_slice t (wx - 1) 0 &&& hi ||| lo == bv_slice t (wx - 1) 0)
      && (s == bv_slice t (wx + ws - 1) wx)

/-- `bzla_is_inv_eq_const`. -/
def bzla_is_inv_eq_const (w lo hi t s pos_x : Nat) : Bool :=
  if t == 0 then !(hi == lo) || !(hi == s)
  else check_fixed_bits lo hi s

/-- `bzla_bvdomain_is_fixed`: `lo = hi`. -/
def bzla_bvdomain_is_fixed (lo hi : Nat) : Bool := lo == hi

/-- `bzla_bv_get_num_trailing_zeros` for a width-`w` vector. -/
def bzla_bv_get_num_trailing_zeros (w s : Nat) : Nat :=
  match (List.range w).find? (fun i => s.testBit i) with
  | some i => i
  | none => w

/-- `bzla_bv_mod_inverse` of an odd `s` modulo `2^w`, computed as
`s ^ (2^(w-1) - 1) mod 2^w` (the inverse is unique, so this agrees with
the extended-euclid computation of the C code). -/
def bzla_bv_mod_inverse (w s : Nat) : Nat := s ^ (2 ^ (w - 1) - 1) % 2 ^ w

/-- `tz_s` of the even-`s` branch of `bzla_is_inv_mul_const`. -/
def mul_const_tz (w s : Nat) : Nat := bzla_bv_get_num_trailing_zeros w s

/-- `tmp_x = (t >> tz(s)) * (s >> tz(s))^-1` of `bzla_is_inv_mul_const`. -/
def mul_const_tmp_x (w t s : Nat) : Nat :=
  bv_mul w (bzla_bv_mod_inverse w (bv_srl s (mul_const_tz w s)))
    (bv_srl t (mul_const_tz w s))

/-- `mask_lo = ones >> tz(s)` of `bzla_is_inv_mul_const`. -/
def mul_const_mask_lo (w s : Nat) : Nat := bv_srl (ones w) (mul_const_tz w s)

/-- `bzla_is_inv_mul_const`. -/
def bzla_is_inv_mul_const (w lo hi t s pos_x : Nat) : Bool :=
  if bzla_is_inv_mul w t s pos_x then
    if !(s == 0) && bzla_bvdomain_has_fixed_bits w lo hi then
      if bzla_bvdomain_is_fixed lo hi then bv_mul w lo s == t
      else if s.testBit 0 then
        check_fixed_bits lo hi (bv_mul w (bzla_bv_mod_inverse w s) t)
      else
        check_const_domain_bits w
          (mul_const_mask_lo w s &&& mul_const_tmp_x w t s)
          (bv_not w (mul_const_mask_lo w s) ||| mul_const_tmp_x w t s)
          lo hi
    else true
  else false

/-- `bzla_is_inv_sll_const`. -/
def bzla_is_inv_sll_const (w lo hi t s pos_x : Nat) : Bool :=
  if pos_x = 0 then
    if !(bzla_is_inv_sll w t s 0) then false
    else (bv_sll w hi s &&& t == t) && (bv_sll w lo s ||| t == t)
  else
    (decide (bv_uint64_to_bv w w ≤ hi) && (t == 0)) ||
      ((List.range (w + 1)).any fun i =>
        (bv_uint64_to_bv w i ||| lo == bv_uint64_to_bv w i) &&
        (bv_uint64_to_bv w i &&& hi == bv_uint64_to_bv w i) &&
        (bv_sll w s (bv_uint64_to_bv w i) == t))

/-- `bzla_is_inv_srl_const`. -/
def bzla_is_inv_srl_const (w lo hi t s pos_x : Nat) : Bool :=
  if pos_x = 0 then
    if !(bzla_is_inv_srl w t s 0) then false
    else (bv_srl hi s &&& t == t) && (bv_srl lo s ||| t == t)
  else
    (decide (bv_uint64_to_bv w w ≤ hi) && (t == 0)) ||
      ((List.range (w + 1)).any fun i =>
        (bv_uint64_to_bv w i ||| lo == bv_uint64_to_bv w i) &&
        (bv_uint64_to_bv w i &&& hi == bv_uint64_to_bv w i) &&
        (bv_srl s (bv_uint64_to_bv w i) == t))

/-- `bzla_is_inv_udiv_const`: the code returns `true` unconditionally. -/
def bzla_is_inv_udiv_const (w lo hi t s pos_x : Nat) : Bool := true

/-- `bzla_is_inv_ult_const`. -/
def bzla_is_inv_ult_const (w lo hi t s pos_x : Nat) : Bool :=
  if pos_x = 0 then
    if !(t == 0) then !(s == 0) && decide (lo < s)
    else decide (s ≤ hi)
  else
    if !(t == 0) then !(s == ones w) && decide (s < hi)
    else decide (lo ≤ s)

/-- `hi_x` of the `s > t` branch of `bzla_is_inv_urem_const`, `pos_x = 1`. -/
def urem_hi_x (w s t : Nat) : Nat :=
  if t = 0 then s
  else if bv_urem (bv_sub w s t) t = 0 then bv_dec w (bv_udiv w (bv_sub w s t) t)
  else bv_udiv w (bv_sub w s t) t

/-- The candidate stack of `bzla_is_inv_urem_const`, `pos_x = 1`, `s > t`:
drain the domain generator on `[1, hi_x]` and keep the values whose
remainder is `t` and matches the fixed bits. -/
def urem_candidates (w lo hi s t fuel : Nat) : List Nat :=
  (bzla_bvdomain_gen_drain w lo hi (some 1) (some (urem_hi_x w s t)) fuel).filter
    fun bv => bv_urem s bv == t && check_fixed_bits lo hi (bv_urem s bv)

/-- `bzla_is_inv_urem_const` (the `res = BZLA_EMPTY_STACK(candidates)`
of the code is modelled verbatim as `candidates = []`). -/
def bzla_is_inv_urem_const (w lo hi t s pos_x fuel : Nat) : Bool :=
  if bzla_is_inv_urem w t s pos_x then
    if pos_x = 1 then
      if t == ones w then check_const_bits_val w lo hi false
      else if s == t then decide (t ≤ hi)
      else decide (urem_candidates w lo hi s t fuel = [])
    else
      if s == 0 || t == ones w then check_fixed_bits lo hi t
      else if check_fixed_bits lo hi t then true
      else if bv_sub w (ones w) s < t then false
      else true
  else false

/-- The binary operators whose invertibility oracles take the
`(D, s, t, pos_x)` signature. -/
inductive BvOp
  | add
  | and
  | concat
  | eq
  | mul
  | sll
  | srl
  | udiv
  | urem
  | ult
deriving DecidableEq

/-- Width of `s` (`x` has width `w`; only concatenation mixes widths). -/
def op_s_width (op : BvOp) (w ws : Nat) : Nat :=
  match op with
  | .concat => ws
  | _ => w

/-- Width of `t`. -/
def op_t_width (op : BvOp) (w ws : Nat) : Nat :=
  match op with
  | .concat => w + ws
  | .eq => 1
  | .ult => 1
  | _ => w

/-- Dispatch to the domain-oblivious oracle `bzla_is_inv_<op>`. -/
def is_inv (op : BvOp) (w ws t s pos_x : Nat) : Bool :=
  match op with
  | .add => bzla_is_inv_add w t s pos_x
  | .and => bzla_is_inv_and t s pos_x
  | .concat => bzla_is_inv_concat w ws t s pos_x
  | .eq => bzla_is_inv_eq t s pos_x
  | .mul => bzla_is_inv_mul w t s pos_x
  | .sll => bzla_is_inv_sll w t s pos_x
  | .srl => bzla_is_inv_srl w t s pos_x
  | .udiv => bzla_is_inv_udiv w t s pos_x
  | .urem => bzla_is_inv_urem w t s pos_x
  | .ult => bzla_is_inv_ult w t s pos_x

/-- Dispatch to the domain-aware oracle `bzla_is_inv_<op>_const`. -/
def is_inv_const (op : BvOp) (w ws lo hi t s pos_x fuel : Nat) : Bool :=
  match op with
  | .add => bzla_is_inv_add_const w lo hi t s pos_x
  | .and => bzla_is_inv_and_const w lo hi t s pos_x
  | .concat => bzla_is_inv_concat_const w ws lo hi t s pos_x
  | .eq => bzla_is_inv_eq_const w lo hi t s pos_x
  | .mul => bzla_is_inv_mul_const w lo hi t s pos_x
  | .sll => bzla_is_inv_sll_const w lo hi t s pos_x
  | .srl => bzla_is_inv_srl_const w lo hi t s pos_x
  | .udiv => bzla_is_inv_udiv_const w lo hi t s pos_x
  | .urem => bzla_is_inv_urem_const w lo hi t s pos_x fuel
  | .ult => bzla_is_inv_ult_const w lo hi t s pos_x

/-- The concrete result of applying `op` with `x` at position `pos_x` and
`s` at the other position. -/
def op_result (op : BvOp) (w ws x s pos_x : Nat) : Nat :=
  match op with
  | .add => bv_add w x s
  | .and => x &&& s
  | .concat => if pos_x = 0 then bv_concat ws x s else bv_concat w s x
  | .eq => if x = s then 1 else 0
  | .mul => bv_mul w x s
  | .sll => if pos_x = 0 then bv_sll w x s else bv_sll w s x
  | .srl => if pos_x = 0 then bv_srl x s else bv_srl s x
  | .udiv => if pos_x = 0 then bv_udiv w x s else bv_udiv w s x
  | .urem => if pos_x = 0 then bv_urem x s else bv_urem s x
  | .ult => if pos_x = 0 then (if x < s then 1 else 0)
            else (if s < x then 1 else 0)

/-! ### Basic bit-level facts -/

theorem testBit_ones (w i : Nat) : (ones w).testBit i = decide (i < w) := by
  simp [ones, Nat.testBit_two_pow_sub_one]

theorem testBit_high {a w i : Nat} (ha : a < 2 ^ w) (hi : w ≤ i) :
    a.testBit i = false :=
  Nat.testBit_lt_two_pow (lt_of_lt_of_le ha (Nat.pow_le_pow_right (by norm_num) hi))

theorem land_eq_left_iff {a b : Nat} :
    a &&& b = a ↔ ∀ i, a.testBit i = true → b.testBit i = true := by
  constructor
  · intro h i hi
    have := congrArg (fun x => x.testBit i) h
    simp only [Nat.testBit_land] at this
    cases hb : b.testBit i
    · rw [hi, hb] at this; simp at this
    · rfl
  · intro h
    apply Nat.eq_of_testBit_eq
    intro i
    simp only [Nat.testBit_land]
    cases ha : a.testBit i
    · simp
    · simp [h i ha]

theorem lor_eq_right_iff {a b : Nat} :
    a ||| b = b ↔ ∀ i, a.testBit i = true → b.testBit i = true := by
  constructor
  · intro h i hi
    have := congrArg (fun x => x.testBit i) h
    simp only [Nat.testBit_lor] at this
    rw [hi] at this; simpa using this.symm
  · intro h
    apply Nat.eq_of_testBit_eq
    intro i
    simp only [Nat.testBit_lor]
    cases ha : a.testBit i
    · simp
    · simp [h i ha]

theorem mem_dom_iff {lo hi b : Nat} :
    mem_dom lo hi b ↔
      (∀ i, lo.testBit i = true → b.testBit i = true) ∧
      (∀ i, b.testBit i = true → hi.testBit i = true) := by
  unfold mem_dom
  rw [land_eq_left_iff, lor_eq_right_iff]

theorem le_of_bit_subset {a b : Nat}
    (h : ∀ i, a.testBit i = true → b.testBit i = true) : a ≤ b := by
  have : a &&& b = a := land_eq_left_iff.mpr h
  calc a = a &&& b := this.symm
    _ ≤ b := Nat.and_le_right

theorem mem_dom_lo_le {lo hi b : Nat} (h : mem_dom lo hi b) : lo ≤ b :=
  le_of_bit_subset (mem_dom_iff.mp h).1

theorem mem_dom_le_hi {lo hi b : Nat} (h : mem_dom lo hi b) : b ≤ hi :=
  le_of_bit_subset (mem_dom_iff.mp h).2

theorem mem_dom_lt {w lo hi b : Nat} (hhi : hi < 2 ^ w)
    (h : mem_dom lo hi b) : b < 2 ^ w :=
  lt_of_le_of_lt (mem_dom_le_hi h) hhi

theorem valid_iff {w lo hi : Nat} (hlo : lo < 2 ^ w) (hhi : hi < 2 ^ w) :
    bzla_bvdomain_is_valid w lo hi = true ↔
      ∀ i, lo.testBit i = true → hi.testBit i = true := by
  unfold bzla_bvdomain_is_valid bv_not
  rw [beq_iff_eq]
  constructor
  · intro h i hli
    have hiw : i < w := by
      by_contra hge
      exact absurd hli (by simp [testBit_high hlo (le_of_not_lt hge)])
    have := congrArg (fun x => x.testBit i) h
    simp only [Nat.testBit_lor, Nat.testBit_xor, testBit_ones] at this
    rw [hli] at this
    simpa [hiw] using this
  · intro h
    apply Nat.eq_of_testBit_eq
    intro i
    simp only [Nat.testBit_lor, Nat.testBit_xor, testBit_ones]
    by_cases hiw : i < w
    · cases hl : lo.testBit i
      · simp [hiw]
      · simp [hiw, h i hl]
    · simp [hiw, testBit_high hlo (le_of_not_lt hiw),
        testBit_high hhi (le_of_not_lt hiw)]

theorem valid_dom_iff {w lo hi : Nat} (hlo : lo < 2 ^ w) (hhi : hi < 2 ^ w) :
    ValidDom w lo hi ↔
      ∀ i, lo.testBit i = true → hi.testBit i = true := by
  unfold ValidDom
  rw [valid_iff hlo hhi]
  tauto

theorem mem_dom_lo {w lo hi : Nat} (h : ValidDom w lo hi) :
    mem_dom lo hi lo := by
  obtain ⟨hlo, hhi, hv⟩ := h
  rw [mem_dom_iff]
  exact ⟨fun i hi => hi, (valid_iff hlo hhi).mp hv⟩

theorem mem_dom_hi {w lo hi : Nat} (h : ValidDom w lo hi) :
    mem_dom lo hi hi := by
  obtain ⟨hlo, hhi, hv⟩ := h
  rw [mem_dom_iff]
  exact ⟨(valid_iff hlo hhi).mp hv, fun i hi => hi⟩

/-- For a valid domain, `check_fixed_bits` decides exactly membership in
the concretization. -/
theorem check_fixed_bits_iff_mem {w lo hi b : Nat} (h : ValidDom w lo hi) :
    check_fixed_bits lo hi b = true ↔ mem_dom lo hi b := by
  obtain ⟨hlo, hhi, hv⟩ := h
  have hsub := (valid_iff hlo hhi).mp hv
  unfold check_fixed_bits
  rw [beq_iff_eq, mem_dom_iff]
  constructor
  · intro h
    constructor
    · intro i hli
      have := congrArg (fun x => x.testBit i) h
      simp only [Nat.testBit_lor, Nat.testBit_land] at this
      rw [hli] at this; simpa using this.symm
    · intro i hbi
      have := congrArg (fun x => x.testBit i) h
      simp only [Nat.testBit_lor, Nat.testBit_land] at this
      rw [hbi] at this
      cases hh : hi.testBit i
      · cases hl : lo.testBit i
        · rw [hh, hl] at this; simp at this
        · exact absurd (hsub i hl) (by simp [hh])
      · rfl
  · rintro ⟨h1, h2⟩
    apply Nat.eq_of_testBit_eq
    intro i
    simp only [Nat.testBit_lor, Nat.testBit_land]
    cases hbi : b.testBit i
    · cases hl : lo.testBit i
      · simp
      · exact absurd (h1 i hl) (by simp [hbi])
    · simp [h2 i hbi]

/-- `check_fixed_bits` always forces agreement on the bits that are fixed
in the domain (no validity needed for this direction). -/
theorem check_fixed_bits_fixed_agree {lo hi b : Nat}
    (h : check_fixed_bits lo hi b = true) :
    ∀ i, lo.testBit i = hi.testBit i → b.testBit i = lo.testBit i := by
  intro i hfix
  unfold check_fixed_bits at h
  rw [beq_iff_eq] at h
  have := congrArg (fun x => x.testBit i) h
  simp only [Nat.testBit_lor, Nat.testBit_land] at this
  cases hl : lo.testBit i
  · rw [hl] at hfix
    rw [hl, hfix.symm, Bool.and_false, Bool.or_false] at this
    exact this.symm
  · rw [hl, Bool.or_true] at this
    exact this.symm

/-! ### Bit-by-bit consistency (`bzla_bvdomain_is_consistent`) -/

theorem is_consistent_iff {w lo hi b : Nat} :
    bzla_bvdomain_is_consistent w lo hi b = true ↔
      ∀ i, i < w → lo.testBit i = hi.testBit i → b.testBit i = lo.testBit i := by
  unfold bzla_bvdomain_is_consistent is_fixed_bit
  rw [List.all_eq_true]
  constructor
  · intro h i hiw hfix
    have := h i (List.mem_range.mpr hiw)
    rw [hfix] at this
    simp at this
    rw [hfix]
    exact this.symm
  · intro h i hmem
    have hiw := List.mem_range.mp hmem
    cases hfix : (lo.testBit i == hi.testBit i)
    · simp [hfix]
    · have hfix2 : lo.testBit i = hi.testBit i := by simpa using hfix
      have := h i hiw hfix2
      simp [hfix, this]

theorem mem_dom_iff_fixed_agree {w lo hi b : Nat} (h : ValidDom w lo hi) :
    mem_dom lo hi b ↔
      ∀ i, lo.testBit i = hi.testBit i → b.testBit i = lo.testBit i := by
  obtain ⟨hlo, hhi, hv⟩ := h
  have hsub := (valid_iff hlo hhi).mp hv
  rw [mem_dom_iff]
  constructor
  · rintro ⟨h1, h2⟩ i hfix
    cases hl : lo.testBit i
    · cases hbi : b.testBit i
      · rfl
      · rw [hfix] at hl
        exact absurd (h2 i hbi) (by simp [hl])
    · exact h1 i hl
  · intro hagree
    constructor
    · intro i hl
      by_cases hfix : lo.testBit i = hi.testBit i
      · rw [hagree i hfix, hl]
      · exact absurd (hsub i hl) (fun hh => hfix (by rw [hl, hh]))
    · intro i hbi
      cases hh : hi.testBit i
      · cases hl : lo.testBit i
        · rw [hagree i (by rw [hl, hh])] at hbi
          rw [hl] at hbi; exact hbi
        · exact absurd (hsub i hl) (by simp [hh])
      · rfl

/-- C6 (amended with domain validity): for every *valid* domain `(lo, hi)`
of width `w` and bit-vector `b` of the same width, the mask computation
`check_fixed_bits` (`((b & hi) | lo) = b`) decides exactly the bit-by-bit
property that every fixed bit of the domain agrees with `b`, i.e. it
coincides with the loop `bzla_bvdomain_is_consistent`. -/
theorem check_fixed_bits_iff_consistent (w lo hi b : Nat) (hlo : lo < 2 ^ w)
    (hhi : hi < 2 ^ w) (hb : b < 2 ^ w)
    (hv : bzla_bvdomain_is_valid w lo hi = true) :
    check_fixed_bits lo hi b = bzla_bvdomain_is_consistent w lo hi b ∧
      (check_fixed_bits lo hi b = true ↔
        ∀ i, is_fixed_bit lo hi i = true → b.testBit i = lo.testBit i) := by
  have hvd : ValidDom w lo hi := ⟨hlo, hhi, hv⟩
  have hmask : check_fixed_bits lo hi b = true ↔
      ∀ i, lo.testBit i = hi.testBit i → b.testBit i = lo.testBit i := by
    rw [check_fixed_bits_iff_mem hvd, mem_dom_iff_fixed_agree hvd]
  constructor
  · rw [Bool.eq_iff_iff, hmask, is_consistent_iff]
    constructor
    · intro h i _ hfix
      exact h i hfix
    · intro h i hfix
      by_cases hiw : i < w
      · exact h i hiw hfix
      · rw [testBit_high hb (le_of_not_lt hiw),
          testBit_high hlo (le_of_not_lt hiw)]
  · rw [hmask]
    unfold is_fixed_bit
    constructor
    · intro h i hfix
      exact h i (by simpa using hfix)
    · intro h i hfix
      exact h i (by simpa using hfix)

/-- C6 counterexample: on the invalid width-1 domain `lo = 1, hi = 0` and
the width-1 bit-vector `b = 0`, the bit-by-bit predicate holds (the single
bit is not fixed, `lo[0] ≠ hi[0]`) while `check_fixed_bits` is false, so
the claimed identity fails without the validity assumption. -/
theorem check_fixed_bits_mask_identity_fails :
    bzla_bvdomain_is_consistent 1 1 0 0 = true ∧
      (∀ i, is_fixed_bit 1 0 i = true → Nat.testBit 0 i = Nat.testBit 1 i) ∧
      check_fixed_bits 1 0 0 = false := by
  refine ⟨by decide, ?_, by decide⟩
  intro i hfix
  cases i with
  | zero => simp [is_fixed_bit] at hfix
  | succ n => simp [Nat.testBit_add_one]

theorem char_to_bv_lt (cs : List Trit) (bit : Bool) :
    char_to_bv cs bit < 2 ^ cs.length := by
  induction cs with
  | nil => simp [char_to_bv]
  | cons c cs ih =>
    unfold char_to_bv
    simp only [List.length_cons, pow_succ]
    cases trit_to_bit c bit <;> simp <;> omega

theorem testBit_pow_add {n r : Nat} (b : Bool) (hr : r < 2 ^ n) (i : Nat) :
    ((if b then 2 ^ n else 0) + r).testBit i =
      if i = n then b else if i < n then r.testBit i else false := by
  rcases Nat.lt_trichotomy i n with hlt | heq | hgt
  · rw [if_neg (show ¬ i = n by omega), if_pos hlt]
    cases b
    · simp
    · exact Nat.testBit_two_pow_add_gt hlt r
  · subst heq
    rw [if_pos rfl]
    cases b
    · simp [Nat.testBit_lt_two_pow hr]
    · simp only [if_true]
      rw [Nat.testBit_two_pow_add_eq, Nat.testBit_lt_two_pow hr]
      rfl
  · rw [if_neg (show ¬ i = n by omega), if_neg (show ¬ i < n by omega)]
    have h3 : 2 ^ n + 2 ^ n ≤ 2 ^ i := by
      calc 2 ^ n + 2 ^ n = 2 ^ (n + 1) := by ring
      _ ≤ 2 ^ i := Nat.pow_le_pow_right (by norm_num) (by omega)
    have hbound : (if b then 2 ^ n else 0) + r < 2 ^ i := by
      cases b
      · show 0 + r < 2 ^ i
        omega
      · show 2 ^ n + r < 2 ^ i
        omega
    exact Nat.testBit_lt_two_pow hbound

theorem char_to_bv_subset (cs : List Trit) (i : Nat) :
    (char_to_bv cs false).testBit i = true →
      (char_to_bv cs true).testBit i = true := by
  induction cs with
  | nil => intro h; simp [char_to_bv] at h
  | cons c cs ih =>
    intro h
    rw [char_to_bv, testBit_pow_add _ (char_to_bv_lt cs false) i] at h
    rw [char_to_bv, testBit_pow_add _ (char_to_bv_lt cs true) i]
    by_cases h1 : i = cs.length
    · rw [if_pos h1] at h ⊢
      cases c
      · simp [trit_to_bit] at h
      · rfl
      · simp [trit_to_bit] at h
    · rw [if_neg h1] at h ⊢
      by_cases h2 : i < cs.length
      · rw [if_pos h2] at h ⊢
        exact ih h
      · rw [if_neg h2] at h
        exact absurd h (by simp)

theorem bv_set_bit_testBit {w a pos : Nat} (ha : a < 2 ^ w) (hpos : pos < w)
    (v : Bool) (i : Nat) :
    (bv_set_bit w a pos v).testBit i = if i = pos then v else a.testBit i := by
  unfold bv_set_bit
  cases v with
  | true =>
    simp only [if_true, Nat.testBit_lor]
    by_cases h1 : i = pos
    · subst h1; simp [Nat.testBit_two_pow_self]
    · simp [h1, Nat.testBit_two_pow_of_ne (fun h => h1 h.symm)]
  | false =>
    show (a &&& (ones w ^^^ 2 ^ pos)).testBit i = if i = pos then false else a.testBit i
    simp only [Nat.testBit_land, Nat.testBit_xor, testBit_ones]
    by_cases h1 : i = pos
    · subst h1
      simp [hpos, Nat.testBit_two_pow_self]
    · by_cases h2 : i < w
      · simp [h1, h2, Nat.testBit_two_pow_of_ne (fun h => h1 h.symm)]
      · simp [h1, h2, Nat.testBit_two_pow_of_ne (fun h => h1 h.symm),
          testBit_high ha (le_of_not_lt h2)]

theorem bv_set_bit_lt {w a pos : Nat} (ha : a < 2 ^ w) (hpos : pos < w)
    (v : Bool) : bv_set_bit w a pos v < 2 ^ w := by
  unfold bv_set_bit
  cases v with
  | true =>
    simp only [if_true]
    exact Nat.or_lt_two_pow ha (Nat.pow_lt_pow_right (by norm_num) hpos)
  | false =>
    show a &&& (ones w ^^^ 2 ^ pos) < 2 ^ w
    exact lt_of_le_of_lt Nat.and_le_left ha

/-- C9: every domain produced by `bzla_bvdomain_new_init`,
`bzla_bvdomain_new_from_char`, `bzla_bvdomain_new_fixed` and
`bzla_bvdomain_new_fixed_uint64` satisfies the validity invariant
`~lo | hi = ones`, and `bzla_bvdomain_fix_bit` applied to a valid domain at
an in-range position yields a valid domain. -/
theorem domain_constructors_valid (w val pos b lo hi : Nat) (v : Bool)
    (cs : List Trit) (hb : b < 2 ^ w) (hlo : lo < 2 ^ w) (hhi : hi < 2 ^ w)
    (hv : bzla_bvdomain_is_valid w lo hi = true) (hpos : pos < w) :
    bzla_bvdomain_is_valid w (bzla_bvdomain_new_init w).1
        (bzla_bvdomain_new_init w).2 = true ∧
      bzla_bvdomain_is_valid cs.length (bzla_bvdomain_new_from_char cs).1
        (bzla_bvdomain_new_from_char cs).2 = true ∧
      bzla_bvdomain_is_valid w (bzla_bvdomain_new_fixed b).1
        (bzla_bvdomain_new_fixed b).2 = true ∧
      bzla_bvdomain_is_valid w (bzla_bvdomain_new_fixed_uint64 w val).1
        (bzla_bvdomain_new_fixed_uint64 w val).2 = true ∧
      bzla_bvdomain_is_valid w (bzla_bvdomain_fix_bit w lo hi pos v).1
        (bzla_bvdomain_fix_bit w lo hi pos v).2 = true := by
  have hone : 0 < 2 ^ w := Nat.pos_pow_of_pos w (by norm_num)
  refine ⟨?_, ?_, ?_, ?_, ?_⟩
  · show bzla_bvdomain_is_valid w 0 (ones w) = true
    refine (valid_iff hone ?_).mpr (by simp)
    have := hone
    unfold ones
    omega
  · exact (valid_iff (char_to_bv_lt cs false) (char_to_bv_lt cs true)).mpr
      (char_to_bv_subset cs)
  · exact (valid_iff hb hb).mpr (fun i h => h)
  · exact (valid_iff (Nat.mod_lt _ hone) (Nat.mod_lt _ hone)).mpr (fun i h => h)
  · refine (valid_iff (bv_set_bit_lt hlo hpos v) (bv_set_bit_lt hhi hpos v)).mpr ?_
    intro i h
    rw [bv_set_bit_testBit hlo hpos v i] at h
    rw [bv_set_bit_testBit hhi hpos v i]
    by_cases h1 : i = pos
    · simpa [h1] using h
    · rw [if_neg h1] at h ⊢
      exact (valid_iff hlo hhi).mp hv i h

/-- C9 witness: the invariant instantiated at width 2, `b = 2`, `val = 5`,
the ternary string `1x`, and fixing bit 1 of the domain `xx` to `1`. -/
theorem domain_constructors_valid_witness :
    (2 : Nat) < 2 ^ 2 ∧ (0 : Nat) < 2 ^ 2 ∧ (3 : Nat) < 2 ^ 2 ∧
      bzla_bvdomain_is_valid 2 0 3 = true ∧ (1 : Nat) < 2 ∧
      (bzla_bvdomain_is_valid 2 (bzla_bvdomain_new_init 2).1
          (bzla_bvdomain_new_init 2).2 = true ∧
        bzla_bvdomain_is_valid (List.length [Trit.t1, Trit.tx])
          (bzla_bvdomain_new_from_char [Trit.t1, Trit.tx]).1
          (bzla_bvdomain_new_from_char [Trit.t1, Trit.tx]).2 = true ∧
        bzla_bvdomain_is_valid 2 (bzla_bvdomain_new_fixed 2).1
          (bzla_bvdomain_new_fixed 2).2 = true ∧
        bzla_bvdomain_is_valid 2 (bzla_bvdomain_new_fixed_uint64 2 5).1
          (bzla_bvdomain_new_fixed_uint64 2 5).2 = true ∧
        bzla_bvdomain_is_valid 2 (bzla_bvdomain_fix_bit 2 0 3 1 true).1
          (bzla_bvdomain_fix_bit 2 0 3 1 true).2 = true) :=
  ⟨by decide, by decide, by decide, by decide, by decide,
    domain_constructors_valid 2 5 1 2 0 3 true [Trit.t1, Trit.tx]
      (by decide) (by decide) (by decide) (by decide) (by decide)⟩

theorem le_lt_two_pow {w i : Nat} (h : i ≤ w) : i < 2 ^ w :=
  lt_of_le_of_lt h (Nat.lt_two_pow w)

theorem uint64_id {w i : Nat} (h : i ≤ w) : bv_uint64_to_bv w i = i :=
  Nat.mod_eq_of_lt (le_lt_two_pow h)

/-- C7: the domain-oblivious `sll` oracle with `pos_x = 1` accepts iff
there exists a shift amount `i` with `0 ≤ i ≤ w` (representable as a
width-`w` bit-vector) such that `s << i = t`; the inclusive upper bound
`i = w` covers the total shift-out case `s << w = 0`. -/
theorem inv_sll_pos1_exists_shift (w t s : Nat) :
    (bzla_is_inv_sll w t s 1 = true ↔ ∃ i, i ≤ w ∧ bv_sll w s i = t) ∧
      bv_sll w s w = 0 := by
  constructor
  · unfold bzla_is_inv_sll
    rw [if_neg (by norm_num), List.any_eq_true]
    constructor
    · rintro ⟨i, hmem, hbeq⟩
      have hle : i ≤ w := Nat.lt_succ_iff.mp (List.mem_range.mp hmem)
      rw [uint64_id hle] at hbeq
      exact ⟨i, hle, by simpa using hbeq⟩
    · rintro ⟨i, hle, heq⟩
      exact ⟨i, List.mem_range.mpr (Nat.lt_succ_iff.mpr hle),
        by rw [uint64_id hle]; simpa using heq⟩
  · show s * 2 ^ w % 2 ^ w = 0
    exact Nat.mul_mod_left s (2 ^ w)

/-- C6 witness: the amended equivalence instantiated at the valid width-4
domain `lo = 8, hi = 13` (`1x0x`) and `b = 9`. -/
theorem check_fixed_bits_iff_consistent_witness :
    (8 : Nat) < 2 ^ 4 ∧ (13 : Nat) < 2 ^ 4 ∧ (9 : Nat) < 2 ^ 4 ∧
      bzla_bvdomain_is_valid 4 8 13 = true ∧
      (check_fixed_bits 8 13 9 = bzla_bvdomain_is_consistent 4 8 13 9 ∧
        (check_fixed_bits 8 13 9 = true ↔
          ∀ i, is_fixed_bit 8 13 i = true → Nat.testBit 9 i = Nat.testBit 8 i)) :=
  ⟨by decide, by decide, by decide, by decide,
    check_fixed_bits_iff_consistent 4 8 13 9 (by decide) (by decide)
      (by decide) (by decide)⟩

theorem to_str_asserts_false_of_too_long (w start : Nat)
    (h : PRINT_BUFFER_SIZE ≤ w + 1) :
    bzla_bvdomain_to_str_asserts w start = false := by
  unfold bzla_bvdomain_to_str_asserts
  rw [if_pos h, if_pos h]
  have hd : decide (to_str_start w start + (w - 3) < PRINT_BUFFER_SIZE - 4)
      = false := by
    rw [decide_eq_false_iff_not]
    unfold PRINT_BUFFER_SIZE at h ⊢
    omega
  rw [hd, Bool.and_false]

/-- C4 fails on the code: for every too-long width (`w + 1 ≥ 1024`, in
particular the minimal one `w = 1023`) the assertion
`assert(s_buf_pos < PRINT_BUFFER_SIZE - 4)` before the `"..."` suffix
fails, because the rendering is truncated to `w - 3` characters rather
than to what fits in the buffer; for `w = 1028` the writes additionally
run past the end of the 1024-byte buffer. -/
theorem to_str_buffer_safety_fails :
    bzla_bvdomain_to_str_asserts 1023 0 = false ∧
      bzla_bvdomain_to_str_asserts 1028 0 = false ∧
      PRINT_BUFFER_SIZE ≤ to_str_max_write_index 1028 0 ∧
      (bzla_bvdomain_to_str_chars 1023 0 (ones 1023)).length = 1020 + 3 := by
  refine ⟨to_str_asserts_false_of_too_long 1023 0 (by decide),
    to_str_asserts_false_of_too_long 1028 0 (by decide), by decide, ?_⟩
  unfold bzla_bvdomain_to_str_chars
  rw [if_pos (by decide)]
  simp only [List.length_append, List.length_map, List.length_range]
  rw [if_pos (show PRINT_BUFFER_SIZE ≤ 1024 by decide)]
  decide

theorem wfact_next_go_factor (fuel : Nat) :
    ∀ st it f st', wfact_next_go st it fuel = (.factor f, st') →
      f * st'.num = st.num ∧ st'.done = st.done := by
  induction fuel with
  | zero => intro st it f st' h; simp [wfact_next_go] at h
  | succ fuel ih =>
    intro st it f st' h
    rw [wfact_next_go] at h
    set p2 := (if st.pos = 10 then 3 else st.pos + 1) with hp2
    split_ifs at h with h1 h2 h3 h4
    · simp at h
    · simp at h
    · injection h with hf hst
      injection hf with hf
      subst hf
      subst hst
      constructor
      · show st.fact * bv_udiv st.w st.num st.fact = st.num
        by_cases hz : st.fact = 0
        · simp [bv_urem, hz] at h3
          simp [bv_udiv, hz, h3]
        · simp only [bv_urem, if_neg hz] at h3
          simp only [bv_udiv, if_neg hz]
          exact Nat.mul_div_cancel' (Nat.dvd_of_mod_eq_zero h3)
      · rfl
    · simp at h
    · have h5 := ih _ _ _ _ h
      exact ⟨h5.1, h5.2⟩

theorem wfact_next_go_residual (fuel : Nat) :
    ∀ st it f st', wfact_next_go st it fuel = (.residual f, st') →
      f = st.num ∧ st'.num = st.num ∧ st'.done = true := by
  induction fuel with
  | zero => intro st it f st' h; simp [wfact_next_go] at h
  | succ fuel ih =>
    intro st it f st' h
    rw [wfact_next_go] at h
    set p2 := (if st.pos = 10 then 3 else st.pos + 1) with hp2
    split_ifs at h with h1 h2 h3 h4
    · simp at h
    · injection h with hf hst
      injection hf with hf
      subst hf
      subst hst
      exact ⟨rfl, rfl, rfl⟩
    · simp at h
    · simp at h
    · have h5 := ih _ _ _ _ h
      exact ⟨h5.1, h5.2.1, h5.2.2⟩

theorem wfact_next_go_exhausted (fuel : Nat) :
    ∀ st it st', wfact_next_go st it fuel = (.exhausted, st') →
      st'.num = st.num := by
  induction fuel with
  | zero =>
    intro st it st' h
    rw [wfact_next_go] at h
    injection h with hf hst
    subst hst
    rfl
  | succ fuel ih =>
    intro st it st' h
    rw [wfact_next_go] at h
    set p2 := (if st.pos = 10 then 3 else st.pos + 1) with hp2
    split_ifs at h with h1 h2 h3 h4
    · injection h with hf hst
      subst hst
      rfl
    · simp at h
    · simp at h
    · injection h with hf hst
      subst hst
      rfl
    · have h5 := ih _ _ _ h
      exact h5

theorem wfact_next_factor {st : WFact} {fuel f : Nat} {st' : WFact}
    (h : wfact_next st fuel = (.factor f, st')) :
    f * st'.num = st.num ∧ st'.done = st.done := by
  unfold wfact_next at h
  split_ifs at h with hd
  · simp at h
  · exact wfact_next_go_factor fuel st 0 f st' h

theorem wfact_next_residual {st : WFact} {fuel f : Nat} {st' : WFact}
    (h : wfact_next st fuel = (.residual f, st')) :
    f = st.num ∧ st'.num = st.num ∧ st'.done = true := by
  unfold wfact_next at h
  split_ifs at h with hd
  · simp at h
  · exact wfact_next_go_residual fuel st 0 f st' h

theorem wfact_drain_of_done {st : WFact} (hd : st.done = true)
    (inner fuel : Nat) : wfact_drain st inner fuel = ([], false) := by
  cases fuel with
  | zero => rfl
  | succ fuel =>
    rw [wfact_drain]
    unfold wfact_next
    rw [if_pos hd]

theorem wfact_drain_dvd (fuel : Nat) :
    ∀ st inner n0, st.num ∣ n0 →
      ∀ f ∈ (wfact_drain st inner fuel).1, f ∣ n0 := by
  induction fuel with
  | zero => intro st inner n0 _ f hf; simp [wfact_drain] at hf
  | succ fuel ih =>
    intro st inner n0 hdvd f hf
    rw [wfact_drain] at hf
    cases hnext : wfact_next st inner with
    | mk r st' =>
      cases r with
      | exhausted => rw [hnext] at hf; simp at hf
      | factor g =>
        rw [hnext] at hf
        simp only [List.mem_cons] at hf
        have hspec := wfact_next_factor hnext
        have hgnum : g * st'.num = st.num := hspec.1
        rcases hf with rfl | hf
        · exact dvd_trans ⟨st'.num, hgnum.symm⟩ hdvd
        · exact ih st' inner n0
            (dvd_trans ⟨g, by rw [Nat.mul_comm]; exact hgnum.symm⟩ hdvd) f hf
      | residual g =>
        rw [hnext] at hf
        simp only [List.mem_cons] at hf
        have hspec := wfact_next_residual hnext
        rcases hf with rfl | hf
        · rw [hspec.1]; exact hdvd
        · exact ih st' inner n0 (hspec.2.1 ▸ hdvd) f hf

theorem wfact_drain_prod (fuel : Nat) :
    ∀ st inner, (wfact_drain st inner fuel).2 = true →
      ((wfact_drain st inner fuel).1).prod = st.num := by
  induction fuel with
  | zero => intro st inner h; simp [wfact_drain] at h
  | succ fuel ih =>
    intro st inner h
    cases hnext : wfact_next st inner with
    | mk r st' =>
      cases r with
      | exhausted =>
        rw [wfact_drain, hnext] at h
        exact Bool.noConfusion h
      | factor g =>
        rw [wfact_drain, hnext] at h
        rw [wfact_drain, hnext]
        replace h : (wfact_drain st' inner fuel).2 = true := h
        show (g :: (wfact_drain st' inner fuel).1).prod = st.num
        rw [List.prod_cons, ih st' inner h]
        exact (wfact_next_factor hnext).1
      | residual g =>
        rw [wfact_drain, hnext]
        have hspec := wfact_next_residual hnext
        show (g :: (wfact_drain st' inner fuel).1).prod = st.num
        rw [wfact_drain_of_done hspec.2.2]
        simp [hspec.1]

/-- C8 (amended): every value returned by successive `wfact_next` calls on
a factorizer initialized with `(n, limit)` divides the original `n`
unconditionally; the product of the full returned sequence equals `n`
provided the run ended by emitting the final residual via the
`fact * fact > n` check (it can instead be truncated by the step limit or
by increment overflow, in which case factors of `n` remain unreturned). -/
theorem wfact_divides_and_product (w n limit fuel inner : Nat)
    (hn : 1 ≤ n) (hw : n < 2 ^ w) :
    (∀ f ∈ (wfact_drain (wfact_init w n limit) inner fuel).1, f ∣ n) ∧
      ((wfact_drain (wfact_init w n limit) inner fuel).2 = true →
        ((wfact_drain (wfact_init w n limit) inner fuel).1).prod = n) :=
  ⟨wfact_drain_dvd fuel (wfact_init w n limit) inner n (dvd_refl n),
    fun h => wfact_drain_prod fuel (wfact_init w n limit) inner h⟩

/-- C8 witness: draining the factorizer on `n = 60` (width 6, no limit)
yields `2, 2, 3, 5` ending with the residual; the product is `60` and
every element divides `60`. -/
theorem wfact_divides_and_product_witness :
    (1 ≤ 60 ∧ 60 < 2 ^ 6) ∧
      wfact_drain (wfact_init 6 60 0) 64 8 = ([2, 2, 3, 5], true) ∧
      ((∀ f ∈ (wfact_drain (wfact_init 6 60 0) 64 8).1, f ∣ 60) ∧
        ((wfact_drain (wfact_init 6 60 0) 64 8).2 = true →
          ((wfact_drain (wfact_init 6 60 0) 64 8).1).prod = 60)) :=
  ⟨⟨by decide, by decide⟩, by decide,
    wfact_divides_and_product 6 60 0 8 64 (by decide) (by decide)⟩

/-- C8 counterexample: with `n = 9` and step limit `L = 1` the factorizer
returns no values at all (the limit interrupts the search before any
divisor is found), so the product of the returned sequence is `1 ≠ 9`,
refuting the unconditional product claim. -/
theorem wfact_limit_truncates :
    wfact_drain (wfact_init 5 9 1) 8 4 = ([], false) ∧
      ([] : List Nat).prod ≠ 9 := by
  constructor
  · decide
  · decide

theorem get_factor_go_spec (x : Option (Nat × Nat)) (excl : Option Nat)
    (inner : Nat) (fuel : Nat) :
    ∀ st n0, st.num ∣ n0 → ∀ f,
      bzla_bvdomain_get_factor_go x excl inner st fuel = some f →
        f ∣ n0 ∧ get_factor_accept x excl f = true := by
  induction fuel with
  | zero => intro st n0 _ f h; simp [bzla_bvdomain_get_factor_go] at h
  | succ fuel ih =>
    intro st n0 hdvd f h
    cases hnext : wfact_next st inner with
    | mk r st' =>
      cases r with
      | exhausted =>
        rw [bzla_bvdomain_get_factor_go, hnext] at h
        exact Option.noConfusion h
      | factor g =>
        rw [bzla_bvdomain_get_factor_go, hnext] at h
        replace h : (if get_factor_accept x excl g = true then some g
            else bzla_bvdomain_get_factor_go x excl inner st' fuel) = some f := h
        have hspec := wfact_next_factor hnext
        by_cases hacc : get_factor_accept x excl g = true
        · rw [if_pos hacc] at h
          injection h with h
          subst h
          exact ⟨dvd_trans ⟨st'.num, hspec.1.symm⟩ hdvd, hacc⟩
        · rw [if_neg hacc] at h
          exact ih st' n0
            (dvd_trans ⟨g, by rw [Nat.mul_comm]; exact hspec.1.symm⟩ hdvd) f h
      | residual g =>
        rw [bzla_bvdomain_get_factor_go, hnext] at h
        replace h : (if get_factor_accept x excl g = true then some g
            else bzla_bvdomain_get_factor_go x excl inner st' fuel) = some f := h
        have hspec := wfact_next_residual hnext
        by_cases hacc : get_factor_accept x excl g = true
        · rw [if_pos hacc] at h
          injection h with h
          subst h
          exact ⟨hspec.1 ▸ hdvd, hacc⟩
        · rw [if_neg hacc] at h
          exact ih st' n0 (hspec.2.1 ▸ hdvd) f h

/-- C10: whenever `bzla_bvdomain_get_factor` returns a non-null factor
`f`, then `f` divides `num`, `f` is strictly greater than `excl_min_val`
when that bound is given, and `f` agrees with every fixed bit of the
domain `x` when `x` is given. -/
theorem get_factor_sound (w num limit fuel inner : Nat)
    (x : Option (Nat × Nat)) (excl : Option Nat) (f : Nat)
    (hnum : 1 ≤ num) (hw : num < 2 ^ w)
    (hres : bzla_bvdomain_get_factor w num x excl limit fuel inner = some f) :
    f ∣ num ∧ (∀ e, excl = some e → e < f) ∧
      (∀ lo hi, x = some (lo, hi) → ∀ i, lo.testBit i = hi.testBit i →
        f.testBit i = lo.testBit i) := by
  have hspec := get_factor_go_spec x excl inner fuel (wfact_init w num limit)
    num (dvd_refl num) f hres
  refine ⟨hspec.1, ?_, ?_⟩
  · intro e he
    subst he
    have := hspec.2
    unfold get_factor_accept at this
    rw [Bool.and_eq_true] at this
    simpa using this.1
  · intro lo hi hx i hfix
    subst hx
    have := hspec.2
    unfold get_factor_accept at this
    rw [Bool.and_eq_true] at this
    exact check_fixed_bits_fixed_agree this.2 i hfix

/-- C10 witness: on `num = 60` with domain `x = (lo 10, hi 11)` (bit 1
fixed to 1) and exclusion bound 1, the returned factor is 2, which divides
60, exceeds 1 and has bit 1 ... in fact `f = 2` matches the fixed bit. -/
theorem get_factor_sound_witness :
    (1 ≤ 60 ∧ 60 < 2 ^ 6 ∧
      bzla_bvdomain_get_factor 6 60 (some (2, 3)) (some 1) 0 8 64 = some 2) ∧
      ((2 : Nat) ∣ 60 ∧ (∀ e, (some 1 : Option Nat) = some e → e < 2) ∧
        (∀ lo hi, (some ((2 : Nat), (3 : Nat)) : Option (Nat × Nat)) = some (lo, hi) →
          ∀ i, lo.testBit i = hi.testBit i →
            Nat.testBit 2 i = lo.testBit i)) :=
  ⟨⟨by decide, by decide, by decide⟩,
    get_factor_sound 6 60 0 8 64 (some (2, 3)) (some 1) 2 (by decide)
      (by decide) (by decide)⟩

theorem free_pos_sorted (w lo hi : Nat) :
    (free_pos w lo hi).Pairwise (· < ·) :=
  (List.pairwise_lt_range w).filter _

theorem free_pos_nodup (w lo hi : Nat) : (free_pos w lo hi).Nodup :=
  (free_pos_sorted w lo hi).imp Nat.ne_of_lt

theorem mem_free_pos {w lo hi q : Nat} :
    q ∈ free_pos w lo hi ↔ q < w ∧ is_fixed_bit lo hi q = false := by
  unfold free_pos
  rw [List.mem_filter, List.mem_range]
  simp

theorem free_pos_lt_w {w lo hi q : Nat} (h : q ∈ free_pos w lo hi) : q < w :=
  (mem_free_pos.mp h).1

theorem compose_go_testBit {w bits : Nat} :
    ∀ (ps : List Nat) (j res : Nat), (∀ p ∈ ps, p < w) → ps.Nodup →
      res < 2 ^ w → ∀ t,
      (compose_go w bits ps j res).testBit t =
        if t ∈ ps then bits.testBit (j + ps.indexOf t) else res.testBit t := by
  intro ps
  induction ps with
  | nil => intro j res _ _ _ t; simp [compose_go]
  | cons p ps ih =>
    intro j res hlt hnd hres t
    have hpw : p < w := hlt p (List.mem_cons_self p ps)
    have hres' : bv_set_bit w res p (bits.testBit j) < 2 ^ w :=
      bv_set_bit_lt hres hpw _
    have hnd' := (List.nodup_cons.mp hnd)
    rw [compose_go, ih (j + 1) _ (fun q hq => hlt q (List.mem_cons_of_mem p hq))
      hnd'.2 hres' t]
    by_cases ht : t ∈ ps
    · rw [if_pos ht, if_pos (List.mem_cons_of_mem p ht)]
      have htp : t ≠ p := fun h => hnd'.1 (h ▸ ht)
      rw [List.indexOf_cons_ne ps (fun h => htp h.symm)]
      congr 1
      omega
    · rw [if_neg ht]
      by_cases htp : t = p
      · subst htp
        rw [if_pos (List.mem_cons_self t ps),
          bv_set_bit_testBit hres hpw _ t, if_pos rfl, List.indexOf_cons_self,
          Nat.add_zero]
      · rw [if_neg (by simp [htp, ht]),
          bv_set_bit_testBit hres hpw _ t, if_neg htp]

theorem gen_compose_testBit {w lo hi bits : Nat} (hlo : lo < 2 ^ w)
    (t : Nat) :
    (gen_compose w lo hi bits).testBit t =
      if t ∈ free_pos w lo hi then
        bits.testBit ((free_pos w lo hi).indexOf t)
      else lo.testBit t := by
  unfold gen_compose
  rw [compose_go_testBit (free_pos w lo hi) 0 lo
    (fun q hq => free_pos_lt_w hq) (free_pos_nodup w lo hi) hlo t]
  simp

theorem compose_go_lt {w bits : Nat} :
    ∀ (ps : List Nat) (j res : Nat), (∀ p ∈ ps, p < w) → res < 2 ^ w →
      compose_go w bits ps j res < 2 ^ w := by
  intro ps
  induction ps with
  | nil => intro j res _ h; exact h
  | cons p ps ih =>
    intro j res hlt hres
    rw [compose_go]
    exact ih (j + 1) _ (fun q hq => hlt q (List.mem_cons_of_mem p hq))
      (bv_set_bit_lt hres (hlt p (List.mem_cons_self p ps)) _)

theorem gen_compose_lt {w lo hi bits : Nat} (hlo : lo < 2 ^ w) :
    gen_compose w lo hi bits < 2 ^ w :=
  compose_go_lt _ 0 lo (fun q hq => free_pos_lt_w hq) hlo

theorem gen_compose_mem {w lo hi bits : Nat} (hval : ValidDom w lo hi) :
    mem_dom lo hi (gen_compose w lo hi bits) := by
  rw [mem_dom_iff_fixed_agree hval]
  intro i hfix
  rw [gen_compose_testBit hval.1 i, if_neg]
  rw [mem_free_pos]
  unfold is_fixed_bit
  simp [hfix]

theorem extract_go_testBit {b : Nat} :
    ∀ (ps : List Nat) (j acc : Nat), acc < 2 ^ j → ∀ t,
      (extract_go b ps j acc).testBit t =
        if t < j then acc.testBit t
        else if hk : t - j < ps.length then b.testBit (ps.get ⟨t - j, hk⟩)
        else false := by
  intro ps
  induction ps with
  | nil =>
    intro j acc hacc t
    rw [extract_go]
    by_cases ht : t < j
    · rw [if_pos ht]
    · rw [if_neg ht, dif_neg (by simp), testBit_high hacc (by omega)]
  | cons p ps ih =>
    intro j acc hacc t
    have hset : ∀ u, (if b.testBit p then acc ||| 2 ^ j else acc).testBit u =
        if u = j then b.testBit p else acc.testBit u := by
      intro u
      cases hb : b.testBit p
      · show acc.testBit u = if u = j then false else acc.testBit u
        by_cases hu : u = j
        · rw [if_pos hu, hu, testBit_high hacc (le_refl j)]
        · rw [if_neg hu]
      · show (acc ||| 2 ^ j).testBit u = if u = j then true else acc.testBit u
        rw [Nat.testBit_lor]
        by_cases hu : u = j
        · rw [if_pos hu, hu, Nat.testBit_two_pow_self, Bool.or_true]
        · rw [if_neg hu, Nat.testBit_two_pow_of_ne (fun h => hu h.symm),
            Bool.or_false]
    have hacc' : (if b.testBit p then acc ||| 2 ^ j else acc) < 2 ^ (j + 1) := by
      apply Nat.lt_pow_two_of_testBit
      intro u hu
      rw [hset u, if_neg (by omega)]
      exact testBit_high hacc (by omega)
    rw [extract_go, ih (j + 1) _ hacc' t]
    by_cases ht : t < j
    · rw [if_pos (by omega), if_pos ht, hset t, if_neg (by omega)]
    · by_cases htj : t = j
      · subst htj
        rw [if_pos (by omega), if_neg (lt_irrefl t), hset t, if_pos rfl,
          dif_pos (show t - t < (p :: ps).length by simp)]
        simp
      · rw [if_neg (by omega), if_neg ht]
        simp only [List.length_cons]
        by_cases hk : t - (j + 1) < ps.length
        · rw [dif_pos hk, dif_pos (by omega : t - j < ps.length + 1)]
          have he : t - j = (t - (j + 1)) + 1 := by omega
          congr 1
          simp only [he, List.get_cons_succ]
        · rw [dif_neg hk, dif_neg (by omega)]

theorem gen_extract_testBit {w lo hi b : Nat} (t : Nat) :
    (gen_extract w lo hi b).testBit t =
      if hk : t < gen_cnt w lo hi then
        b.testBit ((free_pos w lo hi).get ⟨t, hk⟩)
      else false := by
  unfold gen_extract gen_cnt
  rw [extract_go_testBit (free_pos w lo hi) 0 0 (by norm_num) t]
  simp

theorem gen_extract_lt {w lo hi b : Nat} :
    gen_extract w lo hi b < 2 ^ gen_cnt w lo hi := by
  apply Nat.lt_pow_two_of_testBit
  intro i hi2
  rw [gen_extract_testBit i, dif_neg (by omega)]

theorem free_pos_get_lt_w {w lo hi : Nat} (k : Fin (free_pos w lo hi).length) :
    (free_pos w lo hi).get k < w :=
  free_pos_lt_w (List.get_mem (free_pos w lo hi) k.1 k.2)

theorem free_pos_indexOf_get {w lo hi : Nat}
    (k : Fin (free_pos w lo hi).length) :
    (free_pos w lo hi).indexOf ((free_pos w lo hi).get k) = k :=
  List.get_indexOf (free_pos_nodup w lo hi) k

theorem free_pos_get_strictMono {w lo hi : Nat}
    (k l : Fin (free_pos w lo hi).length) (h : (k : Nat) < l) :
    (free_pos w lo hi).get k < (free_pos w lo hi).get l :=
  List.pairwise_iff_get.mp (free_pos_sorted w lo hi) k l h

/-- Composing then extracting is the identity on counters. -/
theorem extract_compose {w lo hi c : Nat} (hlo : lo < 2 ^ w)
    (hc : c < 2 ^ gen_cnt w lo hi) :
    gen_extract w lo hi (gen_compose w lo hi c) = c := by
  apply Nat.eq_of_testBit_eq
  intro t
  rw [gen_extract_testBit t]
  by_cases ht : t < gen_cnt w lo hi
  · rw [dif_pos ht, gen_compose_testBit hlo,
      if_pos (List.get_mem (free_pos w lo hi) t ht), free_pos_indexOf_get]
  · rw [dif_neg ht, testBit_high hc (by omega)]

/-- Extracting then composing is the identity on members of the
concretization. -/
theorem compose_extract {w lo hi b : Nat} (hval : ValidDom w lo hi)
    (hb : mem_dom lo hi b) :
    gen_compose w lo hi (gen_extract w lo hi b) = b := by
  apply Nat.eq_of_testBit_eq
  intro t
  rw [gen_compose_testBit hval.1]
  by_cases ht : t ∈ free_pos w lo hi
  · rw [if_pos ht]
    have hidx : (free_pos w lo hi).indexOf t < (free_pos w lo hi).length :=
      List.indexOf_lt_length.mpr ht
    rw [gen_extract_testBit,
      dif_pos (show (free_pos w lo hi).indexOf t < gen_cnt w lo hi from hidx)]
    congr 1
    exact List.indexOf_get hidx
  · rw [if_neg ht]
    by_cases htw : t < w
    · have hfix : is_fixed_bit lo hi t = true := by
        by_contra hnf
        exact ht (mem_free_pos.mpr ⟨htw, by simpa using hnf⟩)
      have hag := (mem_dom_iff_fixed_agree hval).mp hb t (by
        unfold is_fixed_bit at hfix
        simpa using hfix)
      exact hag.symm
    · rw [testBit_high hval.1 (le_of_not_lt htw),
        testBit_high (mem_dom_lt hval.2.1 hb) (le_of_not_lt htw)]

/-- If `a < b` then they disagree at some highest bit, where `b` has `1`. -/
theorem exists_high_bit_of_lt :
    ∀ {b a : Nat}, a < b → ∃ k, a.testBit k = false ∧ b.testBit k = true ∧
      ∀ j, k < j → a.testBit j = b.testBit j := by
  intro b
  induction b using Nat.strong_induction_on with
  | _ b ih =>
    intro a hab
    by_cases hd : a / 2 = b / 2
    · refine ⟨0, ?_, ?_, ?_⟩
      · rw [Nat.testBit_zero]
        simp only [decide_eq_false_iff_not]
        omega
      · rw [Nat.testBit_zero]
        simp only [decide_eq_true_eq]
        omega
      · intro j hj
        obtain ⟨j', rfl⟩ : ∃ j', j = j' + 1 := ⟨j - 1, by omega⟩
        rw [Nat.testBit_add_one, Nat.testBit_add_one, hd]
    · have hb0 : 0 < b := by omega
      have hdd : a / 2 < b / 2 := by omega
      obtain ⟨k, h1, h2, h3⟩ := ih (b / 2) (by omega) hdd
      refine ⟨k + 1, ?_, ?_, ?_⟩
      · rw [Nat.testBit_add_one]; exact h1
      · rw [Nat.testBit_add_one]; exact h2
      · intro j hj
        obtain ⟨j', rfl⟩ : ∃ j', j = j' + 1 := ⟨j - 1, by omega⟩
        rw [Nat.testBit_add_one, Nat.testBit_add_one]
        exact h3 j' (by omega)

/-- The composition map is strictly monotone on counter values. -/
theorem gen_compose_strictMono {w lo hi c d : Nat} (hval : ValidDom w lo hi)
    (hd : d < 2 ^ gen_cnt w lo hi) (hcd : c < d) :
    gen_compose w lo hi c < gen_compose w lo hi d := by
  obtain ⟨k, h1, h2, h3⟩ := exists_high_bit_of_lt hcd
  have hk : k < gen_cnt w lo hi := by
    by_contra hge
    exact absurd h2 (by simp [testBit_high hd (le_of_not_lt hge)])
  apply Nat.lt_of_testBit ((free_pos w lo hi).get ⟨k, hk⟩)
  · rw [gen_compose_testBit hval.1,
      if_pos (List.get_mem (free_pos w lo hi) k hk), free_pos_indexOf_get]
    exact h1
  · rw [gen_compose_testBit hval.1,
      if_pos (List.get_mem (free_pos w lo hi) k hk), free_pos_indexOf_get]
    exact h2
  · intro j hj
    rw [gen_compose_testBit hval.1, gen_compose_testBit hval.1]
    by_cases hjf : j ∈ free_pos w lo hi
    · rw [if_pos hjf, if_pos hjf]
      have hidx : (free_pos w lo hi).indexOf j < (free_pos w lo hi).length :=
        List.indexOf_lt_length.mpr hjf
      have hgt : k < (free_pos w lo hi).indexOf j := by
        by_contra hle
        have hjq : j ≤ (free_pos w lo hi).get ⟨k, hk⟩ := by
          rcases Nat.lt_or_ge ((free_pos w lo hi).indexOf j) k with hlt | hge2
          · have hmono := free_pos_get_strictMono
              ⟨(free_pos w lo hi).indexOf j, hidx⟩ ⟨k, hk⟩ hlt
            rw [List.indexOf_get hidx] at hmono
            exact le_of_lt hmono
          · have hej : (⟨(free_pos w lo hi).indexOf j, hidx⟩ :
                Fin (free_pos w lo hi).length) = ⟨k, hk⟩ := by
              apply Fin.ext
              show (free_pos w lo hi).indexOf j = k
              omega
            have hgj := List.indexOf_get hidx
            rw [hej] at hgj
            exact le_of_eq hgj.symm
        omega
      exact h3 _ hgt
    · rw [if_neg hjf, if_neg hjf]

/-- Monotone inverse direction: composition reflects order. -/
theorem gen_compose_le_iff {w lo hi c d : Nat} (hval : ValidDom w lo hi)
    (hc : c < 2 ^ gen_cnt w lo hi) (hd : d < 2 ^ gen_cnt w lo hi) :
    gen_compose w lo hi c ≤ gen_compose w lo hi d ↔ c ≤ d := by
  constructor
  · intro h
    by_contra hlt
    exact absurd (gen_compose_strictMono hval hc (lt_of_not_le hlt))
      (by omega)
  · intro h
    rcases Nat.eq_or_lt_of_le h with rfl | hlt
    · exact le_refl _
    · exact le_of_lt (gen_compose_strictMono hval hd hlt)

theorem fcnt_cons (lo hi p : Nat) (ps : List Nat) :
    fcnt lo hi (p :: ps) =
      if is_fixed_bit lo hi p then fcnt lo hi ps else fcnt lo hi ps + 1 := by
  unfold fcnt
  cases hf : is_fixed_bit lo hi p
  · simp [List.filter_cons, hf]
  · simp [List.filter_cons, hf]

theorem scompose_lt {lo hi c : Nat} :
    ∀ ps : List Nat, ps.Pairwise (· > ·) → ∀ P, (∀ q ∈ ps, q < P) →
      scompose lo hi c ps < 2 ^ P := by
  intro ps
  induction ps with
  | nil =>
    intro _ P _
    exact Nat.pos_pow_of_pos P (by norm_num)
  | cons p ps ih =>
    intro hpw P hP
    have hp : p < P := hP p (List.mem_cons_self p ps)
    have htail : scompose lo hi c ps < 2 ^ p :=
      ih (List.Pairwise.of_cons hpw) p
        (fun q hq => List.rel_of_pairwise_cons hpw hq)
    have hhead : (if !(is_fixed_bit lo hi p) then
        (if c.testBit (fcnt lo hi ps) then 2 ^ p else 0)
      else (if lo.testBit p then 2 ^ p else 0)) ≤ 2 ^ p := by
      cases is_fixed_bit lo hi p
      · show (if c.testBit (fcnt lo hi ps) then 2 ^ p else 0) ≤ 2 ^ p
        split_ifs <;> omega
      · show (if lo.testBit p then 2 ^ p else 0) ≤ 2 ^ p
        split_ifs <;> omega
    have h2 : 2 ^ p + 2 ^ p ≤ 2 ^ P := by
      calc 2 ^ p + 2 ^ p = 2 ^ (p + 1) := by ring
        _ ≤ 2 ^ P := Nat.pow_le_pow_right (by norm_num) (by omega)
    rw [scompose]
    omega

theorem mrestrict_lt {m : Nat} :
    ∀ ps : List Nat, ps.Pairwise (· > ·) → ∀ P, (∀ q ∈ ps, q < P) →
      mrestrict m ps < 2 ^ P := by
  intro ps
  induction ps with
  | nil =>
    intro _ P _
    exact Nat.pos_pow_of_pos P (by norm_num)
  | cons p ps ih =>
    intro hpw P hP
    have hp : p < P := hP p (List.mem_cons_self p ps)
    have htail : mrestrict m ps < 2 ^ p :=
      ih (List.Pairwise.of_cons hpw) p
        (fun q hq => List.rel_of_pairwise_cons hpw hq)
    have h2 : 2 ^ p + 2 ^ p ≤ 2 ^ P := by
      calc 2 ^ p + 2 ^ p = 2 ^ (p + 1) := by ring
        _ ≤ 2 ^ P := Nat.pow_le_pow_right (by norm_num) (by omega)
    rw [mrestrict]
    split_ifs <;> omega

theorem scompose_congr {lo hi : Nat} {c d : Nat} :
    ∀ ps : List Nat, (∀ jj, jj < fcnt lo hi ps →
        c.testBit jj = d.testBit jj) →
      scompose lo hi c ps = scompose lo hi d ps := by
  intro ps
  induction ps with
  | nil => intro _; rfl
  | cons p ps ih =>
    intro hbits
    have hK : fcnt lo hi ps ≤ fcnt lo hi (p :: ps) := by
      rw [fcnt_cons]
      split_ifs <;> omega
    rw [scompose, scompose, ih (fun jj hjj => hbits jj (by omega))]
    congr 1
    cases hf : is_fixed_bit lo hi p
    · simp only [hf, Bool.not_false, if_pos rfl]
      rw [hbits (fcnt lo hi ps) (by rw [fcnt_cons, if_neg (by simp [hf])]; omega)]
    · rfl

/-- A counter value below `2 ^ (K+1)` with bit `K` clear is below
`2 ^ K`. -/
theorem testBit_false_iff_lt {c K : Nat} (hc : c < 2 ^ (K + 1)) :
    c.testBit K = false ↔ c < 2 ^ K := by
  constructor
  · intro h
    by_contra hge
    have hdiv : c / 2 ^ K = 1 := by
      have h1 : 1 * 2 ^ K ≤ c := by
        have := le_of_not_lt hge
        omega
      have h2 : c < (1 + 1) * 2 ^ K := by rw [pow_succ] at hc; omega
      exact Nat.div_eq_of_lt_le h1 h2
    rw [Nat.testBit_to_div_mod, hdiv] at h
    simp at h
  · intro h
    exact Nat.testBit_lt_two_pow h

theorem testBit_true_ge {c K : Nat} (h : c.testBit K = true) : 2 ^ K ≤ c :=
  Nat.testBit_implies_ge h

theorem mod_of_bit_set {c K : Nat} (hc : c < 2 ^ (K + 1))
    (h : c.testBit K = true) : c = 2 ^ K + c % 2 ^ K := by
  have h1 : 2 ^ K ≤ c := testBit_true_ge h
  have h2 : c % 2 ^ K = (c - 2 ^ K) % 2 ^ K := (Nat.mod_eq_sub_mod h1).symm ▸ rfl
  have h3 : c - 2 ^ K < 2 ^ K := by rw [pow_succ] at hc; omega
  rw [Nat.mod_eq_sub_mod h1, Nat.mod_eq_of_lt h3]
  omega

theorem option_cases_eq (o : Option Nat) : o = none ∨ ∃ a, o = some a := by
  cases o
  · exact Or.inl rfl
  · exact Or.inr ⟨_, rfl⟩

theorem leastC_cons_free {lo hi m p : Nat} {ps : List Nat}
    (hf : is_fixed_bit lo hi p = false) :
    leastC lo hi m (p :: ps) =
      (if m.testBit p then
        (match leastC lo hi m ps with
          | some c => some (2 ^ fcnt lo hi ps + c)
          | none => none)
      else
        (match leastC lo hi m ps with
          | some c => some c
          | none => some (2 ^ fcnt lo hi ps))) := by
  rw [leastC, hf]
  rfl

theorem leastC_cons_fixed {lo hi m p : Nat} {ps : List Nat}
    (hf : is_fixed_bit lo hi p = true) :
    leastC lo hi m (p :: ps) =
      (if lo.testBit p = m.testBit p then leastC lo hi m ps
       else if lo.testBit p then some 0 else none) := by
  rw [leastC, hf]
  rfl

theorem scompose_cons_free {lo hi c p : Nat} {ps : List Nat}
    (hf : is_fixed_bit lo hi p = false) :
    scompose lo hi c (p :: ps) =
      (if c.testBit (fcnt lo hi ps) then 2 ^ p else 0) +
        scompose lo hi c ps := by
  rw [scompose, hf]
  rfl

theorem scompose_cons_fixed {lo hi c p : Nat} {ps : List Nat}
    (hf : is_fixed_bit lo hi p = true) :
    scompose lo hi c (p :: ps) =
      (if lo.testBit p then 2 ^ p else 0) + scompose lo hi c ps := by
  rw [scompose, hf]
  rfl

theorem mrestrict_cons (m p : Nat) (ps : List Nat) :
    mrestrict m (p :: ps) =
      (if m.testBit p then 2 ^ p else 0) + mrestrict m ps := rfl

theorem leastC_correct {lo hi m : Nat} :
    ∀ ps : List Nat, ps.Pairwise (· > ·) →
      (∀ c0, leastC lo hi m ps = some c0 → c0 < 2 ^ fcnt lo hi ps) ∧
      (∀ c, c < 2 ^ fcnt lo hi ps →
        (mrestrict m ps ≤ scompose lo hi c ps ↔
          ∃ c0, leastC lo hi m ps = some c0 ∧ c0 ≤ c)) := by
  intro ps
  induction ps with
  | nil =>
    intro _
    constructor
    · intro c0 hc0
      replace hc0 : some 0 = some c0 := hc0
      injection hc0 with hc0
      subst hc0
      show 0 < 2 ^ fcnt lo hi []
      exact Nat.pos_pow_of_pos _ (by norm_num)
    · intro c _
      constructor
      · intro _
        exact ⟨0, rfl, Nat.zero_le c⟩
      · intro _
        exact Nat.le_refl 0
  | cons p ps ih =>
    intro hpw
    have hpw' := List.Pairwise.of_cons hpw
    have hqlt : ∀ q ∈ ps, q < p := fun q hq => List.rel_of_pairwise_cons hpw hq
    obtain ⟨ihb, ihc⟩ := ih hpw'
    have hmlt : mrestrict m ps < 2 ^ p := mrestrict_lt ps hpw' p hqlt
    have hslt : ∀ c', scompose lo hi c' ps < 2 ^ p :=
      fun c' => scompose_lt ps hpw' p hqlt
    have hpow : (0:Nat) < 2 ^ fcnt lo hi ps :=
      Nat.pos_pow_of_pos _ (by norm_num)
    cases hf : is_fixed_bit lo hi p with
    | false =>
      have hK : fcnt lo hi (p :: ps) = fcnt lo hi ps + 1 := by
        rw [fcnt_cons, if_neg (by simp [hf])]
      constructor
      · -- bound on the least counter
        intro c0 hc0
        rw [leastC_cons_free hf] at hc0
        rw [hK, pow_succ]
        rcases option_cases_eq (leastC lo hi m ps) with hlc | ⟨c1, hlc⟩ <;>
          rw [hlc] at hc0 <;> cases hmb : m.testBit p <;> rw [hmb] at hc0
        · replace hc0 : some (2 ^ fcnt lo hi ps) = some c0 := hc0
          injection hc0 with hc0
          omega
        · exact Option.noConfusion hc0
        · replace hc0 : some c1 = some c0 := hc0
          injection hc0 with hc0
          have := ihb c1 hlc
          omega
        · replace hc0 : some (2 ^ fcnt lo hi ps + c1) = some c0 := hc0
          injection hc0 with hc0
          have := ihb c1 hlc
          omega
      · -- the order characterization
        intro c hc
        rw [hK, pow_succ] at hc
        have hcmod : c % 2 ^ fcnt lo hi ps < 2 ^ fcnt lo hi ps :=
          Nat.mod_lt _ hpow
        have hTmod : scompose lo hi c ps =
            scompose lo hi (c % 2 ^ fcnt lo hi ps) ps := by
          apply scompose_congr
          intro jj hjj
          rw [Nat.testBit_mod_two_pow]
          simp [hjj]
        rw [mrestrict_cons, scompose_cons_free hf, leastC_cons_free hf]
        rcases option_cases_eq (leastC lo hi m ps) with hlc | ⟨c1, hlc⟩ <;>
          rw [hlc] <;> cases hmb : m.testBit p <;>
          cases hcb : c.testBit (fcnt lo hi ps)
        · -- leastC none, m bit 0, counter bit 0
          have hclt : c < 2 ^ fcnt lo hi ps :=
            (testBit_false_iff_lt (by rw [pow_succ]; omega)).mp hcb
          show 0 + mrestrict m ps ≤ 0 + scompose lo hi c ps ↔
            ∃ c0, some (2 ^ fcnt lo hi ps) = some c0 ∧ c0 ≤ c
          constructor
          · intro hle
            obtain ⟨c0, hcc, _⟩ := (ihc c hclt).mp (by omega)
            rw [hlc] at hcc
            exact Option.noConfusion hcc
          · rintro ⟨c0, hcc, hle⟩
            injection hcc with hcc
            omega
        · -- leastC none, m bit 0, counter bit 1
          show 0 + mrestrict m ps ≤ 2 ^ p + scompose lo hi c ps ↔
            ∃ c0, some (2 ^ fcnt lo hi ps) = some c0 ∧ c0 ≤ c
          constructor
          · intro _
            exact ⟨2 ^ fcnt lo hi ps, rfl, testBit_true_ge hcb⟩
          · intro _
            omega
        · -- leastC none, m bit 1, counter bit 0
          have hclt : c < 2 ^ fcnt lo hi ps :=
            (testBit_false_iff_lt (by rw [pow_succ]; omega)).mp hcb
          show 2 ^ p + mrestrict m ps ≤ 0 + scompose lo hi c ps ↔
            ∃ c0, (none : Option Nat) = some c0 ∧ c0 ≤ c
          constructor
          · intro hle
            have := hslt c
            omega
          · rintro ⟨c0, hcc, _⟩
            exact Option.noConfusion hcc
        · -- leastC none, m bit 1, counter bit 1
          show 2 ^ p + mrestrict m ps ≤ 2 ^ p + scompose lo hi c ps ↔
            ∃ c0, (none : Option Nat) = some c0 ∧ c0 ≤ c
          constructor
          · intro hle
            have hml : mrestrict m ps ≤ scompose lo hi c ps := by omega
            rw [hTmod] at hml
            obtain ⟨c0, hcc, _⟩ := (ihc _ hcmod).mp hml
            rw [hlc] at hcc
            exact Option.noConfusion hcc
          · rintro ⟨c0, hcc, _⟩
            exact Option.noConfusion hcc
        · -- leastC some c1, m bit 0, counter bit 0
          have hclt : c < 2 ^ fcnt lo hi ps :=
            (testBit_false_iff_lt (by rw [pow_succ]; omega)).mp hcb
          show 0 + mrestrict m ps ≤ 0 + scompose lo hi c ps ↔
            ∃ c0, some c1 = some c0 ∧ c0 ≤ c
          have hiff := ihc c hclt
          rw [hlc] at hiff
          constructor
          · intro hle
            obtain ⟨c0, hcc, hle0⟩ := hiff.mp (by omega)
            injection hcc with hcc
            exact ⟨c1, rfl, by omega⟩
          · rintro ⟨c0, hcc, hle⟩
            injection hcc with hcc
            have := hiff.mpr ⟨c0, by rw [hcc], hle⟩
            omega
        · -- leastC some c1, m bit 0, counter bit 1
          show 0 + mrestrict m ps ≤ 2 ^ p + scompose lo hi c ps ↔
            ∃ c0, some c1 = some c0 ∧ c0 ≤ c
          constructor
          · intro _
            have hb := ihb c1 hlc
            have hge := testBit_true_ge hcb
            exact ⟨c1, rfl, by omega⟩
          · intro _
            omega
        · -- leastC some c1, m bit 1, counter bit 0
          have hclt : c < 2 ^ fcnt lo hi ps :=
            (testBit_false_iff_lt (by rw [pow_succ]; omega)).mp hcb
          show 2 ^ p + mrestrict m ps ≤ 0 + scompose lo hi c ps ↔
            ∃ c0, some (2 ^ fcnt lo hi ps + c1) = some c0 ∧ c0 ≤ c
          constructor
          · intro hle
            have := hslt c
            omega
          · rintro ⟨c0, hcc, hle⟩
            injection hcc with hcc
            omega
        · -- leastC some c1, m bit 1, counter bit 1
          have hdec : c = 2 ^ fcnt lo hi ps + c % 2 ^ fcnt lo hi ps :=
            mod_of_bit_set (by rw [pow_succ]; omega) hcb
          show 2 ^ p + mrestrict m ps ≤ 2 ^ p + scompose lo hi c ps ↔
            ∃ c0, some (2 ^ fcnt lo hi ps + c1) = some c0 ∧ c0 ≤ c
          have hiff := ihc _ hcmod
          rw [hlc] at hiff
          constructor
          · intro hle
            have hml : mrestrict m ps ≤ scompose lo hi c ps := by omega
            rw [hTmod] at hml
            obtain ⟨c0, hcc, hle0⟩ := hiff.mp hml
            injection hcc with hcc
            exact ⟨2 ^ fcnt lo hi ps + c1, rfl, by omega⟩
          · rintro ⟨c0, hcc, hle⟩
            injection hcc with hcc
            have hml := hiff.mpr ⟨c1, rfl, by omega⟩
            rw [← hTmod] at hml
            omega
    | true =>
      have hK : fcnt lo hi (p :: ps) = fcnt lo hi ps := by
        rw [fcnt_cons, if_pos hf]
      constructor
      · intro c0 hc0
        rw [leastC_cons_fixed hf] at hc0
        rw [hK]
        by_cases heq : lo.testBit p = m.testBit p
        · rw [if_pos heq] at hc0
          exact ihb _ hc0
        · rw [if_neg heq] at hc0
          cases hlb : lo.testBit p <;> rw [hlb] at hc0
          · exact Option.noConfusion hc0
          · replace hc0 : some 0 = some c0 := hc0
            injection hc0 with hc0
            omega
      · intro c hc
        rw [hK] at hc
        rw [mrestrict_cons, scompose_cons_fixed hf, leastC_cons_fixed hf]
        by_cases heq : lo.testBit p = m.testBit p
        · rw [if_pos heq, heq]
          have hiff := ihc c hc
          cases hmb : m.testBit p
          · show 0 + mrestrict m ps ≤ 0 + scompose lo hi c ps ↔
              ∃ c0, leastC lo hi m ps = some c0 ∧ c0 ≤ c
            constructor
            · intro hle
              exact hiff.mp (by omega)
            · intro hex
              have := hiff.mpr hex
              omega
          · show 2 ^ p + mrestrict m ps ≤ 2 ^ p + scompose lo hi c ps ↔
              ∃ c0, leastC lo hi m ps = some c0 ∧ c0 ≤ c
            constructor
            · intro hle
              exact hiff.mp (by omega)
            · intro hex
              have := hiff.mpr hex
              omega
        · rw [if_neg heq]
          cases hlb : lo.testBit p
          · have hmb : m.testBit p = true := by
              cases hmb2 : m.testBit p
              · rw [hlb, hmb2] at heq; simp at heq
              · rfl
            rw [hmb]
            show 2 ^ p + mrestrict m ps ≤ 0 + scompose lo hi c ps ↔
              ∃ c0, (none : Option Nat) = some c0 ∧ c0 ≤ c
            constructor
            · intro hle
              have := hslt c
              omega
            · rintro ⟨c0, hcc, _⟩
              exact Option.noConfusion hcc
          · have hmb : m.testBit p = false := by
              cases hmb2 : m.testBit p
              · rfl
              · rw [hlb, hmb2] at heq; simp at heq
            rw [hmb]
            show 0 + mrestrict m ps ≤ 2 ^ p + scompose lo hi c ps ↔
              ∃ c0, some 0 = some c0 ∧ c0 ≤ c
            constructor
            · intro _
              exact ⟨0, rfl, Nat.zero_le c⟩
            · intro _
              omega

/-! ### Bit-arithmetic helpers for the scan analysis -/

theorem drop_range_eq (n m : Nat) :
    (List.range n).drop m = List.range' m (n - m) := by
  rcases Nat.le_total n m with h | h
  · rw [List.drop_eq_nil_of_le (by simpa using h), show n - m = 0 by omega]
    rfl
  · have h1 : List.range n = List.range' 0 m ++ List.range' (0 + m) (n - m) := by
      rw [List.range'_append_1, List.range_eq_range']
      congr 1
      omega
    rw [h1, List.drop_left' (by simp)]
    rw [Nat.zero_add]

theorem mem_drop_range {n m t : Nat} :
    t ∈ (List.range n).drop m ↔ m ≤ t ∧ t < n := by
  rw [drop_range_eq, List.mem_range']
  constructor
  · rintro ⟨i, hi, rfl⟩
    omega
  · intro ⟨h1, h2⟩
    exact ⟨t - m, by omega, by omega⟩

theorem testBit_add_two_pow_of_lt {x i : Nat} (hx : x < 2 ^ i) (t : Nat) :
    (x + 2 ^ i).testBit t =
      if t = i then true else if t < i then x.testBit t else false := by
  have h1 : x + 2 ^ i = 2 ^ i * 1 + x := by omega
  rw [h1, Nat.testBit_mul_pow_two_add 1 hx t]
  rcases Nat.lt_trichotomy t i with h | h | h
  · rw [if_pos h, if_neg (by omega), if_pos h]
  · subst h
    rw [if_neg (by omega), if_pos rfl, Nat.sub_self]
    decide
  · rw [if_neg (by omega), if_neg (by omega), if_neg (by omega)]
    exact Nat.testBit_lt_two_pow (Nat.one_lt_two_pow (by omega))

theorem lor_two_pow_of_testBit_false {a i : Nat} (h : a.testBit i = false) :
    a ||| 2 ^ i = a + 2 ^ i := by
  have hx : a % 2 ^ (i + 1) < 2 ^ i := by
    have h1 : (a % 2 ^ (i + 1)).testBit i = false := by
      rw [Nat.testBit_mod_two_pow]
      simp [h]
    have h2 : a % 2 ^ (i + 1) < 2 ^ (i + 1) := Nat.mod_lt _ (Nat.two_pow_pos _)
    exact (testBit_false_iff_lt h2).mp h1
  have hd := Nat.div_add_mod a (2 ^ (i + 1))
  have hr : a % 2 ^ (i + 1) + 2 ^ i < 2 ^ (i + 1) := by
    have h3 : (2 : Nat) ^ (i + 1) = 2 ^ i + 2 ^ i := by rw [pow_succ]; omega
    omega
  apply Nat.eq_of_testBit_eq
  intro t
  have hRHS : a + 2 ^ i = 2 ^ (i + 1) * (a / 2 ^ (i + 1)) + (a % 2 ^ (i + 1) + 2 ^ i) := by
    omega
  rw [hRHS, Nat.testBit_mul_pow_two_add _ hr t, Nat.testBit_lor]
  by_cases ht : t < i + 1
  · rw [if_pos ht, testBit_add_two_pow_of_lt hx]
    by_cases ht2 : t = i
    · subst ht2
      rw [if_pos rfl, h, Nat.testBit_two_pow_self]
      decide
    · rw [if_neg ht2, if_pos (by omega),
        Nat.testBit_two_pow_of_ne (fun hh => ht2 hh.symm)]
      rw [Nat.testBit_mod_two_pow]
      simp [ht]
  · rw [if_neg ht, Nat.testBit_two_pow_of_ne (show i ≠ t by omega), Bool.or_false]
    rw [show a / 2 ^ (i + 1) = a >>> (i + 1) from
      (Nat.shiftRight_eq_div_pow a (i + 1)).symm, Nat.testBit_shiftRight]
    congr 1
    omega

theorem testBit_two_pow_sub_two_pow {K z : Nat} (h : K ≤ z) (t : Nat) :
    (2 ^ z - 2 ^ K).testBit t = (decide (K ≤ t) && decide (t < z)) := by
  have h2 : (2 : Nat) ^ z = 2 ^ K * 2 ^ (z - K) := by
    rw [← pow_add]
    congr 1
    omega
  have h3 : (1 : Nat) ≤ 2 ^ (z - K) := Nat.one_le_two_pow
  have h4 : 2 ^ K * (2 ^ (z - K) - 1) + 2 ^ K = 2 ^ K * 2 ^ (z - K) := by
    have h5 : 2 ^ K * (2 ^ (z - K) - 1) + 2 ^ K = 2 ^ K * ((2 ^ (z - K) - 1) + 1) := by
      ring
    rw [h5, Nat.sub_add_cancel h3]
  have he : 2 ^ z - 2 ^ K = 2 ^ K * (2 ^ (z - K) - 1) := by omega
  rw [he, Nat.testBit_mul_pow_two, Nat.testBit_two_pow_sub_one]
  by_cases h6 : K ≤ t
  · simp only [h6, ge_iff_le, decide_true_eq_true]
    by_cases h7 : t < z
    · simp [h7, show t - K < z - K by omega]
    · simp [h7, show ¬ t - K < z - K by omega]
  · simp [h6, show ¬ K ≤ t from h6]

theorem mod_two_pow_succ (X P : Nat) :
    X % 2 ^ (P + 1) = (if X.testBit P then 2 ^ P else 0) + X % 2 ^ P := by
  rw [Nat.mod_pow_succ, Nat.add_comm]
  congr 1
  rw [Nat.testBit_to_div_mod]
  rcases Nat.mod_two_eq_zero_or_one (X / 2 ^ P) with h | h <;> rw [h] <;> simp

theorem bv_not_testBit (w x t : Nat) :
    (bv_not w x).testBit t = (x.testBit t ^^ decide (t < w)) := by
  unfold bv_not ones
  rw [Nat.testBit_xor, Nat.testBit_two_pow_sub_one]

theorem bv_not_eq_sub {w x : Nat} (hx : x < 2 ^ w) :
    bv_not w x = 2 ^ w - 1 - x := by
  have h1 : 2 ^ w - 1 - x = 2 ^ w - (x + 1) := by omega
  apply Nat.eq_of_testBit_eq
  intro t
  rw [h1, Nat.testBit_two_pow_sub_succ hx, bv_not_testBit]
  by_cases ht : t < w
  · cases hx2 : x.testBit t <;> simp [ht, hx2]
  · have hf := testBit_high hx (le_of_not_lt ht)
    simp [ht, hf]

theorem bv_not_lt {w x : Nat} (hx : x < 2 ^ w) : bv_not w x < 2 ^ w := by
  rw [bv_not_eq_sub hx]
  have := Nat.two_pow_pos w
  omega

theorem bv_not_involutive {w x : Nat} (hx : x < 2 ^ w) :
    bv_not w (bv_not w x) = x := by
  rw [bv_not_eq_sub hx, bv_not_eq_sub (by have := Nat.two_pow_pos w; omega)]
  omega

theorem bv_not_le_iff {w x y : Nat} (hx : x < 2 ^ w) (hy : y < 2 ^ w) :
    bv_not w x ≤ bv_not w y ↔ y ≤ x := by
  rw [bv_not_eq_sub hx, bv_not_eq_sub hy]
  omega

theorem bv_not_set_bit {cnt x i : Nat} (hx : x < 2 ^ cnt) (hi : i < cnt)
    (v : Bool) :
    bv_not cnt (bv_set_bit cnt x i v) = bv_set_bit cnt (bv_not cnt x) i (!v) := by
  apply Nat.eq_of_testBit_eq
  intro t
  rw [bv_not_testBit, bv_set_bit_testBit hx hi,
    bv_set_bit_testBit (bv_not_lt hx) hi, bv_not_testBit]
  by_cases h1 : t = i
  · subst h1
    simp [hi]
  · simp [h1]

theorem foldl_set_bit_testBit {cnt : Nat} (v : Bool) :
    ∀ (ks : List Nat) (acc : Nat), 0 < cnt → acc < 2 ^ cnt →
      (ks.foldl (fun a k => bv_set_bit cnt a (cnt - 1 - k) v) acc < 2 ^ cnt ∧
        ∀ t, (ks.foldl (fun a k => bv_set_bit cnt a (cnt - 1 - k) v) acc).testBit t =
          if ∃ k ∈ ks, t = cnt - 1 - k then v else acc.testBit t) := by
  intro ks
  induction ks with
  | nil =>
    intro acc hcnt hacc
    refine ⟨hacc, ?_⟩
    intro t
    simp
  | cons k0 ks ih =>
    intro acc hcnt hacc
    have hpos : cnt - 1 - k0 < cnt := by omega
    have hacc' : bv_set_bit cnt acc (cnt - 1 - k0) v < 2 ^ cnt :=
      bv_set_bit_lt hacc hpos v
    obtain ⟨hb, hbit⟩ := ih (bv_set_bit cnt acc (cnt - 1 - k0) v) hcnt hacc'
    refine ⟨hb, ?_⟩
    intro t
    rw [List.foldl_cons, hbit t, bv_set_bit_testBit hacc hpos]
    by_cases h1 : ∃ k ∈ ks, t = cnt - 1 - k
    · rw [if_pos h1]
      obtain ⟨k, hk, he⟩ := h1
      rw [if_pos ⟨k, List.mem_cons_of_mem k0 hk, he⟩]
    · rw [if_neg h1]
      by_cases h2 : t = cnt - 1 - k0
      · rw [if_pos h2, if_pos ⟨k0, List.mem_cons_self k0 ks, h2⟩]
      · rw [if_neg h2, if_neg ?_]
        rintro ⟨k, hk, he⟩
        rcases List.mem_cons.mp hk with rfl | hk'
        · exact h2 he
        · exact h1 ⟨k, hk', he⟩

theorem bm_bump_min_spec (cnt bm j0 : Nat) (hcnt : 0 < cnt)
    (hbm : bm < 2 ^ cnt) :
    bm_bump_min cnt bm j0 < 2 ^ cnt ∧
    ∀ t, (bm_bump_min cnt bm j0).testBit t =
      if t = cnt - 1 - j0 then true
      else if t < cnt - 1 - j0 then false
      else bm.testBit t := by
  have hpos : cnt - 1 - j0 < cnt := by omega
  have hacc : bv_set_bit cnt bm (cnt - 1 - j0) true < 2 ^ cnt :=
    bv_set_bit_lt hbm hpos true
  obtain ⟨hb, hbit⟩ :=
    foldl_set_bit_testBit false ((List.range cnt).drop (j0 + 1)) _ hcnt hacc
  refine ⟨hb, ?_⟩
  intro t
  unfold bm_bump_min
  rw [hbit t, bv_set_bit_testBit hbm hpos]
  have hcond : (∃ k ∈ (List.range cnt).drop (j0 + 1), t = cnt - 1 - k) ↔
      t < cnt - 1 - j0 := by
    constructor
    · rintro ⟨k, hk, rfl⟩
      have := mem_drop_range.mp hk
      omega
    · intro h
      exact ⟨cnt - 1 - t, mem_drop_range.mpr (by omega), by omega⟩
  by_cases h1 : t = cnt - 1 - j0
  · rw [if_neg (by rw [hcond]; omega), if_pos h1, if_pos h1]
  · by_cases h2 : t < cnt - 1 - j0
    · rw [if_pos (hcond.mpr h2), if_neg h1, if_pos h2]
    · rw [if_neg (by rw [hcond]; omega), if_neg h1, if_neg h1, if_neg h2]

theorem bm_bump_max_spec (cnt bm j0 : Nat) (hcnt : 0 < cnt)
    (hbm : bm < 2 ^ cnt) :
    bm_bump_max cnt bm j0 < 2 ^ cnt ∧
    ∀ t, (bm_bump_max cnt bm j0).testBit t =
      if t = cnt - 1 - j0 then false
      else if t < cnt - 1 - j0 then true
      else bm.testBit t := by
  have hpos : cnt - 1 - j0 < cnt := by omega
  have hacc : bv_set_bit cnt bm (cnt - 1 - j0) false < 2 ^ cnt :=
    bv_set_bit_lt hbm hpos false
  obtain ⟨hb, hbit⟩ :=
    foldl_set_bit_testBit true ((List.range cnt).drop (j0 + 1)) _ hcnt hacc
  refine ⟨hb, ?_⟩
  intro t
  unfold bm_bump_max
  rw [hbit t, bv_set_bit_testBit hbm hpos]
  have hcond : (∃ k ∈ (List.range cnt).drop (j0 + 1), t = cnt - 1 - k) ↔
      t < cnt - 1 - j0 := by
    constructor
    · rintro ⟨k, hk, rfl⟩
      have := mem_drop_range.mp hk
      omega
    · intro h
      exact ⟨cnt - 1 - t, mem_drop_range.mpr (by omega), by omega⟩
  by_cases h1 : t = cnt - 1 - j0
  · rw [if_neg (by rw [hcond]; omega), if_pos h1, if_pos h1]
  · by_cases h2 : t < cnt - 1 - j0
    · rw [if_pos (hcond.mpr h2), if_neg h1, if_pos h2]
    · rw [if_neg (by rw [hcond]; omega), if_neg h1, if_neg h1, if_neg h2]

theorem bm_bump_dual (cnt bm j0 : Nat) (hcnt : 0 < cnt) (hbm : bm < 2 ^ cnt) :
    bv_not cnt (bm_bump_min cnt (bv_not cnt bm) j0) = bm_bump_max cnt bm j0 := by
  have hnb : bv_not cnt bm < 2 ^ cnt := bv_not_lt hbm
  obtain ⟨hb1, hbit1⟩ := bm_bump_min_spec cnt (bv_not cnt bm) j0 hcnt hnb
  obtain ⟨hb2, hbit2⟩ := bm_bump_max_spec cnt bm j0 hcnt hbm
  apply Nat.eq_of_testBit_eq
  intro t
  rw [bv_not_testBit, hbit1 t, hbit2 t, bv_not_testBit]
  by_cases h1 : t = cnt - 1 - j0
  · have ht : t < cnt := by omega
    simp [h1, ht]
    omega
  · by_cases h2 : t < cnt - 1 - j0
    · have ht : t < cnt := by omega
      simp [h1, h2, ht]
    · by_cases ht : t < cnt
      · simp [h1, h2, ht]
      · have hf := testBit_high hbm (le_of_not_lt ht)
        simp [h1, h2, ht, hf]

/-! ### Relating the position lists of the scans to `free_pos` -/

theorem range_succ_reverse (n : Nat) :
    (List.range (n + 1)).reverse = n :: (List.range n).reverse := by
  rw [List.range_succ, List.reverse_append]
  rfl

theorem free_pos_succ (w lo hi : Nat) :
    free_pos (w + 1) lo hi =
      free_pos w lo hi ++ (if is_fixed_bit lo hi w then [] else [w]) := by
  unfold free_pos
  rw [List.range_succ, List.filter_append]
  congr 1
  cases h : is_fixed_bit lo hi w <;> simp [h]

theorem gen_cnt_succ (w lo hi : Nat) :
    gen_cnt (w + 1) lo hi =
      gen_cnt w lo hi + (if is_fixed_bit lo hi w then 0 else 1) := by
  unfold gen_cnt
  rw [free_pos_succ, List.length_append]
  cases h : is_fixed_bit lo hi w <;> simp [h]

theorem gen_cnt_mono (lo hi : Nat) {P : Nat} :
    ∀ Q, P ≤ Q → gen_cnt P lo hi ≤ gen_cnt Q lo hi := by
  intro Q
  induction Q with
  | zero =>
    intro h
    rw [Nat.le_zero.mp h]
  | succ Q ih =>
    intro h
    rcases Nat.lt_or_ge P (Q + 1) with h1 | h1
    · have h2 := ih (by omega)
      rw [gen_cnt_succ]
      cases hf : is_fixed_bit lo hi Q <;> simp [hf] <;> omega
    · rw [show P = Q + 1 by omega]

theorem indexOf_free_pos {lo hi : Nat} :
    ∀ {w q : Nat}, q ∈ free_pos w lo hi →
      (free_pos w lo hi).indexOf q = gen_cnt q lo hi := by
  intro w
  induction w with
  | zero =>
    intro q hq
    simp [free_pos] at hq
  | succ w ih =>
    intro q hq
    rw [free_pos_succ] at hq ⊢
    by_cases hqw : q ∈ free_pos w lo hi
    · rw [List.indexOf_append_of_mem hqw]
      exact ih hqw
    · cases hf : is_fixed_bit lo hi w
      · have hq2 : q = w := by
          simp only [List.mem_append] at hq
          rcases hq with h | h
          · exact absurd h hqw
          · simp at h
            exact h.2
        subst hq2
        show ((free_pos q lo hi) ++ [q]).indexOf q = gen_cnt q lo hi
        rw [List.indexOf_append_of_not_mem hqw, List.indexOf_cons_self]
        simp [gen_cnt]
      · simp only [List.mem_append] at hq
        rcases hq with h | h
        · exact absurd h hqw
        · simp [hf] at h

theorem fcnt_range_rev (lo hi P : Nat) :
    fcnt lo hi ((List.range P).reverse) = gen_cnt P lo hi := by
  unfold fcnt gen_cnt free_pos
  rw [List.filter_reverse, List.length_reverse]

theorem mrestrict_range_rev (m : Nat) :
    ∀ P, mrestrict m ((List.range P).reverse) = m % 2 ^ P := by
  intro P
  induction P with
  | zero =>
    simp [mrestrict, Nat.mod_one]
  | succ P ih =>
    rw [range_succ_reverse, mrestrict_cons, ih, mod_two_pow_succ]

theorem scompose_range_rev {w lo hi : Nat} (hlo : lo < 2 ^ w) (c : Nat) :
    ∀ P, P ≤ w → scompose lo hi c ((List.range P).reverse) =
      gen_compose w lo hi c % 2 ^ P := by
  intro P
  induction P with
  | zero =>
    intro _
    simp [scompose, Nat.mod_one]
  | succ P ih =>
    intro h
    rw [range_succ_reverse, mod_two_pow_succ]
    have hio := ih (by omega)
    cases hf : is_fixed_bit lo hi P
    · rw [scompose_cons_free hf, hio, fcnt_range_rev]
      congr 1
      have hmem : P ∈ free_pos w lo hi := mem_free_pos.mpr ⟨by omega, hf⟩
      rw [gen_compose_testBit hlo P, if_pos hmem, indexOf_free_pos hmem]
    · rw [scompose_cons_fixed hf, hio]
      congr 1
      have hmem : P ∉ free_pos w lo hi := by
        intro hc
        rw [(mem_free_pos.mp hc).2] at hf
        exact Bool.false_ne_true hf
      rw [gen_compose_testBit hlo P, if_neg hmem]

/-! ### Branch equations and value lemmas for the `bits_min` scan -/

theorem bits_min_go_cons_free {lo hi m cnt p : Nat} {ps : List Nat}
    (bm j j0 : Nat) (hf : is_fixed_bit lo hi p = false) :
    bits_min_go lo hi m cnt (p :: ps) bm j j0 =
      bits_min_go lo hi m cnt ps (bv_set_bit cnt bm (cnt - 1 - j) (m.testBit p))
        (j + 1) (if m.testBit p then j0 else j) := by
  rw [bits_min_go, hf]
  rfl

theorem bits_min_go_cons_skip {lo hi m cnt p : Nat} {ps : List Nat}
    (bm j j0 : Nat) (hf : is_fixed_bit lo hi p = true)
    (he : lo.testBit p = m.testBit p) :
    bits_min_go lo hi m cnt (p :: ps) bm j j0 =
      bits_min_go lo hi m cnt ps bm j j0 := by
  rw [bits_min_go, hf, he]
  cases hmb : m.testBit p <;> rfl

theorem bits_min_go_cons_ret {lo hi m cnt p : Nat} {ps : List Nat}
    (bm j j0 : Nat) (hf : is_fixed_bit lo hi p = true)
    (hlo1 : lo.testBit p = true) (hm0 : m.testBit p = false) :
    bits_min_go lo hi m cnt (p :: ps) bm j j0 = bm := by
  rw [bits_min_go, hf, hlo1, hm0]
  rfl

theorem bits_min_go_cons_bump {lo hi m cnt p : Nat} {ps : List Nat}
    (bm j j0 : Nat) (hf : is_fixed_bit lo hi p = true)
    (hlo0 : lo.testBit p = false) (hm1 : m.testBit p = true) :
    bits_min_go lo hi m cnt (p :: ps) bm j j0 = bm_bump_min cnt bm j0 := by
  rw [bits_min_go, hf, hlo0, hm1]
  rfl

theorem mod_two_pow_eq_zero_of_testBit {bm K : Nat}
    (h : ∀ idx, idx < K → bm.testBit idx = false) : bm % 2 ^ K = 0 := by
  apply Nat.eq_of_testBit_eq
  intro t
  rw [Nat.testBit_mod_two_pow, Nat.zero_testBit]
  by_cases ht : t < K
  · simp [ht, h t ht]
  · simp [ht]

theorem bv_set_bit_false_eq {w a pos : Nat} (ha : a < 2 ^ w) (hpos : pos < w)
    (h : a.testBit pos = false) : bv_set_bit w a pos false = a := by
  apply Nat.eq_of_testBit_eq
  intro t
  rw [bv_set_bit_testBit ha hpos]
  by_cases h1 : t = pos
  · rw [if_pos h1, h1, h]
  · rw [if_neg h1]

theorem bv_set_bit_true_eq {w a pos : Nat}
    (h : a.testBit pos = false) : bv_set_bit w a pos true = a + 2 ^ pos := by
  show a ||| 2 ^ pos = a + 2 ^ pos
  exact lor_two_pow_of_testBit_false h

theorem gen_cnt_lt_of_free {w lo hi q : Nat} (hq : q < w)
    (hf : is_fixed_bit lo hi q = false) :
    gen_cnt q lo hi < gen_cnt w lo hi := by
  have h1 : gen_cnt (q + 1) lo hi = gen_cnt q lo hi + 1 := by
    rw [gen_cnt_succ, hf]
    simp
  have h2 := gen_cnt_mono lo hi w (show q + 1 ≤ w by omega)
  omega

theorem bm_bump_min_value (cnt bm j0 K : Nat) (hbm : bm < 2 ^ cnt)
    (hz1 : K ≤ cnt - 1 - j0) (hz2 : cnt - 1 - j0 < cnt)
    (hz3 : bm.testBit (cnt - 1 - j0) = false)
    (hz4 : ∀ idx, K ≤ idx → idx < cnt - 1 - j0 → bm.testBit idx = true)
    (hzero : ∀ idx, idx < K → bm.testBit idx = false) :
    bm_bump_min cnt bm j0 = (bm / 2 ^ K + 1) * 2 ^ K := by
  have hcnt : 0 < cnt := by omega
  obtain ⟨hb, hbit⟩ := bm_bump_min_spec cnt bm j0 hcnt hbm
  set z := cnt - 1 - j0 with hzdef
  have hmod : bm % 2 ^ (z + 1) = 2 ^ z - 2 ^ K := by
    apply Nat.eq_of_testBit_eq
    intro t
    rw [Nat.testBit_mod_two_pow, testBit_two_pow_sub_two_pow hz1]
    by_cases h1 : t < K
    · simp [hzero t h1, show ¬ K ≤ t by omega]
    · by_cases h2 : t < z
      · simp [hz4 t (by omega) h2, show t < z + 1 by omega,
          show K ≤ t by omega, h2]
      · by_cases h3 : t = z
        · rw [h3]
          simp [hz3, show ¬ z < z by omega]
        · simp [show ¬ t < z + 1 by omega, show ¬ t < z by omega]
  have hzlt : (2 : Nat) ^ z < 2 ^ (z + 1) := by
    rw [pow_succ]
    have := Nat.two_pow_pos z
    omega
  have hbump_val : bm_bump_min cnt bm j0 =
      2 ^ (z + 1) * (bm / 2 ^ (z + 1)) + 2 ^ z := by
    apply Nat.eq_of_testBit_eq
    intro t
    rw [hbit t, Nat.testBit_mul_pow_two_add _ hzlt t]
    by_cases h1 : t = z
    · rw [if_pos h1, if_pos (by omega), h1, Nat.testBit_two_pow_self]
    · by_cases h2 : t < z
      · rw [if_neg h1, if_pos h2, if_pos (by omega),
          Nat.testBit_two_pow_of_ne (fun hh => h1 hh.symm)]
      · rw [if_neg h1, if_neg h2, if_neg (by omega)]
        rw [show bm / 2 ^ (z + 1) = bm >>> (z + 1) from
          (Nat.shiftRight_eq_div_pow bm (z + 1)).symm, Nat.testBit_shiftRight]
        congr 1
        omega
  have hdecomp : bm = 2 ^ (z + 1) * (bm / 2 ^ (z + 1)) + (2 ^ z - 2 ^ K) := by
    have hdm := Nat.div_add_mod bm (2 ^ (z + 1))
    rw [hmod] at hdm
    omega
  have hone : (1 : Nat) ≤ 2 ^ (z - K) := Nat.one_le_two_pow
  have hza : (2 : Nat) ^ z = 2 ^ (z - K) * 2 ^ K := by
    rw [← pow_add]
    congr 1
    omega
  have hz1a : (2 : Nat) ^ (z + 1) = 2 * (2 ^ (z - K) * 2 ^ K) := by
    rw [pow_succ, hza]
    ring
  have hsub : (2 : Nat) ^ z - 2 ^ K = (2 ^ (z - K) - 1) * 2 ^ K := by
    have h5 : ((2 : Nat) ^ (z - K) - 1) * 2 ^ K + 2 ^ K =
        ((2 ^ (z - K) - 1) + 1) * 2 ^ K := by ring
    have h6 : (2 ^ (z - K) - 1) + 1 = 2 ^ (z - K) := by omega
    rw [h6] at h5
    rw [hza]
    omega
  have hbmK : bm = (2 * 2 ^ (z - K) * (bm / 2 ^ (z + 1)) + (2 ^ (z - K) - 1)) * 2 ^ K := by
    have h6 : (2 * 2 ^ (z - K) * (bm / 2 ^ (z + 1)) + (2 ^ (z - K) - 1)) * 2 ^ K =
        2 * (2 ^ (z - K) * 2 ^ K) * (bm / 2 ^ (z + 1)) + (2 ^ (z - K) - 1) * 2 ^ K := by
      ring
    rw [h6, ← hz1a, ← hsub]
    omega
  have hdiv : bm / 2 ^ K = 2 * 2 ^ (z - K) * (bm / 2 ^ (z + 1)) + (2 ^ (z - K) - 1) := by
    conv_lhs => rw [hbmK]
    exact Nat.mul_div_cancel _ (Nat.two_pow_pos K)
  rw [hbump_val, hdiv]
  have h7 : 2 * 2 ^ (z - K) * (bm / 2 ^ (z + 1)) + (2 ^ (z - K) - 1) + 1 =
      2 * 2 ^ (z - K) * (bm / 2 ^ (z + 1)) + 2 ^ (z - K) := by omega
  rw [h7, Nat.add_mul, ← hza]
  have h8 : 2 * 2 ^ (z - K) * (bm / 2 ^ (z + 1)) * 2 ^ K =
      2 * (2 ^ (z - K) * 2 ^ K) * (bm / 2 ^ (z + 1)) := by ring
  rw [h8, ← hz1a]

/-- The `bits_min` scan computes, position by position, the least counter
whose composition dominates the bound `m` (`leastC`), or bumps the counter
past the processed prefix when no such counter exists on the suffix. -/
theorem bits_min_go_spec {w lo hi m : Nat} (hval : ValidDom w lo hi)
    (hm : m < 2 ^ w) (hmhi : m ≤ hi) :
    ∀ P, P ≤ w → ∀ bm j0,
      bm < 2 ^ gen_cnt w lo hi →
      (∀ idx, idx < gen_cnt P lo hi → bm.testBit idx = false) →
      (∀ q, q < w → is_fixed_bit lo hi q = false → P ≤ q →
        bm.testBit (gen_cnt q lo hi) = m.testBit q) →
      (∀ q, q < w → is_fixed_bit lo hi q = true → P ≤ q →
        lo.testBit q = m.testBit q) →
      ((gen_cnt P lo hi ≤ gen_cnt w lo hi - 1 - j0 ∧
        gen_cnt w lo hi - 1 - j0 < gen_cnt w lo hi ∧
        bm.testBit (gen_cnt w lo hi - 1 - j0) = false ∧
        ∀ idx, gen_cnt P lo hi ≤ idx → idx < gen_cnt w lo hi - 1 - j0 →
          bm.testBit idx = true) ∨
       (j0 = 0 ∧ ∀ idx, gen_cnt P lo hi ≤ idx → idx < gen_cnt w lo hi →
          bm.testBit idx = true)) →
      bits_min_go lo hi m (gen_cnt w lo hi) ((List.range P).reverse) bm
          (gen_cnt w lo hi - gen_cnt P lo hi) j0 =
        match leastC lo hi m ((List.range P).reverse) with
        | some c0 => bm + c0
        | none => (bm / 2 ^ gen_cnt P lo hi + 1) * 2 ^ gen_cnt P lo hi := by
  intro P
  induction P with
  | zero =>
    intro _ bm j0 hbm hzero hfree hfixed hj0
    show bm = bm + 0
    omega
  | succ P ih =>
    intro hPw bm j0 hbm hzero hfree hfixed hj0
    have hPlt : P < w := by omega
    have hKle : gen_cnt (P + 1) lo hi ≤ gen_cnt w lo hi :=
      gen_cnt_mono lo hi w hPw
    rw [range_succ_reverse]
    cases hfx : is_fixed_bit lo hi P with
    | false =>
      have hK1 : gen_cnt (P + 1) lo hi = gen_cnt P lo hi + 1 := by
        rw [gen_cnt_succ, hfx]
        simp
      have hKplt : gen_cnt P lo hi < gen_cnt w lo hi := by omega
      have hbmP : bm.testBit (gen_cnt P lo hi) = false := hzero _ (by omega)
      rw [bits_min_go_cons_free bm (gen_cnt w lo hi - gen_cnt (P + 1) lo hi)
        j0 hfx]
      rw [show gen_cnt w lo hi - 1 -
          (gen_cnt w lo hi - gen_cnt (P + 1) lo hi) = gen_cnt P lo hi by omega]
      rw [show gen_cnt w lo hi - gen_cnt (P + 1) lo hi + 1 =
          gen_cnt w lo hi - gen_cnt P lo hi by omega]
      rw [leastC_cons_free hfx, fcnt_range_rev]
      have hmod1 : bm % 2 ^ gen_cnt (P + 1) lo hi = 0 := by
        apply mod_two_pow_eq_zero_of_testBit
        intro idx hidx
        by_cases h : idx = gen_cnt P lo hi
        · rw [h]
          exact hbmP
        · exact hzero idx (by omega)
      have hdvd : bm / 2 ^ gen_cnt (P + 1) lo hi * 2 ^ gen_cnt (P + 1) lo hi
          = bm := Nat.div_mul_cancel (Nat.dvd_of_mod_eq_zero hmod1)
      have h2K : (2 : Nat) ^ gen_cnt (P + 1) lo hi =
          2 ^ gen_cnt P lo hi * 2 := by
        rw [hK1, pow_succ]
      cases hmb : m.testBit P with
      | true =>
        rw [bv_set_bit_true_eq hbmP, if_pos rfl]
        have hbm' : bm + 2 ^ gen_cnt P lo hi < 2 ^ gen_cnt w lo hi := by
          have h1 := bv_set_bit_lt hbm hKplt true
          rw [bv_set_bit_true_eq hbmP] at h1
          exact h1
        have hbit' : ∀ t, (bm + 2 ^ gen_cnt P lo hi).testBit t =
            if t = gen_cnt P lo hi then true else bm.testBit t := by
          intro t
          have h1 := bv_set_bit_testBit hbm hKplt true t
          rw [bv_set_bit_true_eq hbmP] at h1
          exact h1
        have hzero' : ∀ idx, idx < gen_cnt P lo hi →
            (bm + 2 ^ gen_cnt P lo hi).testBit idx = false := by
          intro idx hidx
          rw [hbit' idx, if_neg (by omega)]
          exact hzero idx (by omega)
        have hfree' : ∀ q, q < w → is_fixed_bit lo hi q = false → P ≤ q →
            (bm + 2 ^ gen_cnt P lo hi).testBit (gen_cnt q lo hi) =
              m.testBit q := by
          intro q hq hfq hPq
          rcases Nat.eq_or_lt_of_le hPq with rfl | hlt2
          · rw [hbit' _, if_pos rfl, hmb]
          · have hgt : gen_cnt P lo hi < gen_cnt q lo hi := by
              have := gen_cnt_mono lo hi q (show P + 1 ≤ q by omega)
              omega
            rw [hbit' _, if_neg (by omega)]
            exact hfree q hq hfq (by omega)
        have hfixed' : ∀ q, q < w → is_fixed_bit lo hi q = true → P ≤ q →
            lo.testBit q = m.testBit q := by
          intro q hq hfq hPq
          rcases Nat.eq_or_lt_of_le hPq with rfl | hlt2
          · rw [hfq] at hfx
            exact absurd hfx (by simp)
          · exact hfixed q hq hfq (by omega)
        have hj0' : (gen_cnt P lo hi ≤ gen_cnt w lo hi - 1 - j0 ∧
            gen_cnt w lo hi - 1 - j0 < gen_cnt w lo hi ∧
            (bm + 2 ^ gen_cnt P lo hi).testBit (gen_cnt w lo hi - 1 - j0)
              = false ∧
            ∀ idx, gen_cnt P lo hi ≤ idx →
              idx < gen_cnt w lo hi - 1 - j0 →
              (bm + 2 ^ gen_cnt P lo hi).testBit idx = true) ∨
            (j0 = 0 ∧ ∀ idx, gen_cnt P lo hi ≤ idx →
              idx < gen_cnt w lo hi →
              (bm + 2 ^ gen_cnt P lo hi).testBit idx = true) := by
          rcases hj0 with ⟨hz1, hz2, hz3, hz4⟩ | ⟨hj00, hsat⟩
          · left
            refine ⟨by omega, hz2, ?_, ?_⟩
            · rw [hbit' _, if_neg (by omega)]
              exact hz3
            · intro idx hidx1 hidx2
              by_cases hip : idx = gen_cnt P lo hi
              · rw [hbit' _, if_pos hip]
              · rw [hbit' _, if_neg hip]
                exact hz4 idx (by omega) hidx2
          · right
            refine ⟨hj00, ?_⟩
            intro idx hidx1 hidx2
            by_cases hip : idx = gen_cnt P lo hi
            · rw [hbit' _, if_pos hip]
            · rw [hbit' _, if_neg hip]
              exact hsat idx (by omega) hidx2
        rw [ih (by omega) (bm + 2 ^ gen_cnt P lo hi) j0 hbm' hzero' hfree'
          hfixed' hj0']
        rcases option_cases_eq (leastC lo hi m ((List.range P).reverse)) with
          hlc | ⟨c1, hlc⟩
        · rw [hlc]
          show ((bm + 2 ^ gen_cnt P lo hi) / 2 ^ gen_cnt P lo hi + 1) *
              2 ^ gen_cnt P lo hi =
            (bm / 2 ^ gen_cnt (P + 1) lo hi + 1) * 2 ^ gen_cnt (P + 1) lo hi
          have he1 : bm + 2 ^ gen_cnt P lo hi =
              (2 * (bm / 2 ^ gen_cnt (P + 1) lo hi) + 1) *
                2 ^ gen_cnt P lo hi := by
            conv_lhs => rw [← hdvd]
            rw [h2K]
            ring
          have he2 : (bm + 2 ^ gen_cnt P lo hi) / 2 ^ gen_cnt P lo hi =
              2 * (bm / 2 ^ gen_cnt (P + 1) lo hi) + 1 := by
            rw [he1]
            exact Nat.mul_div_cancel _ (Nat.two_pow_pos _)
          rw [he2, h2K]
          ring
        · rw [hlc]
          show (bm + 2 ^ gen_cnt P lo hi) + c1 =
            bm + (2 ^ gen_cnt P lo hi + c1)
          omega
      | false =>
        rw [bv_set_bit_false_eq hbm hKplt hbmP,
          if_neg (show ¬ false = true by decide)]
        have hfree' : ∀ q, q < w → is_fixed_bit lo hi q = false → P ≤ q →
            bm.testBit (gen_cnt q lo hi) = m.testBit q := by
          intro q hq hfq hPq
          rcases Nat.eq_or_lt_of_le hPq with rfl | hlt2
          · rw [hbmP, hmb]
          · exact hfree q hq hfq (by omega)
        have hfixed' : ∀ q, q < w → is_fixed_bit lo hi q = true → P ≤ q →
            lo.testBit q = m.testBit q := by
          intro q hq hfq hPq
          rcases Nat.eq_or_lt_of_le hPq with rfl | hlt2
          · rw [hfq] at hfx
            exact absurd hfx (by simp)
          · exact hfixed q hq hfq (by omega)
        have hj0' : (gen_cnt P lo hi ≤ gen_cnt w lo hi - 1 -
              (gen_cnt w lo hi - gen_cnt (P + 1) lo hi) ∧
            gen_cnt w lo hi - 1 -
              (gen_cnt w lo hi - gen_cnt (P + 1) lo hi) < gen_cnt w lo hi ∧
            bm.testBit (gen_cnt w lo hi - 1 -
              (gen_cnt w lo hi - gen_cnt (P + 1) lo hi)) = false ∧
            ∀ idx, gen_cnt P lo hi ≤ idx →
              idx < gen_cnt w lo hi - 1 -
                (gen_cnt w lo hi - gen_cnt (P + 1) lo hi) →
              bm.testBit idx = true) ∨
            ((gen_cnt w lo hi - gen_cnt (P + 1) lo hi) = 0 ∧
              ∀ idx, gen_cnt P lo hi ≤ idx → idx < gen_cnt w lo hi →
                bm.testBit idx = true) := by
          left
          refine ⟨by omega, by omega, ?_, ?_⟩
          · rw [show gen_cnt w lo hi - 1 -
              (gen_cnt w lo hi - gen_cnt (P + 1) lo hi) =
              gen_cnt P lo hi by omega]
            exact hbmP
          · intro idx hidx1 hidx2
            rw [show gen_cnt w lo hi - 1 -
              (gen_cnt w lo hi - gen_cnt (P + 1) lo hi) =
              gen_cnt P lo hi by omega] at hidx2
            omega
        rw [ih (by omega) bm (gen_cnt w lo hi - gen_cnt (P + 1) lo hi) hbm
          (fun idx h => hzero idx (by omega)) hfree' hfixed' hj0']
        rcases option_cases_eq (leastC lo hi m ((List.range P).reverse)) with
          hlc | ⟨c1, hlc⟩
        · rw [hlc]
          show (bm / 2 ^ gen_cnt P lo hi + 1) * 2 ^ gen_cnt P lo hi =
            bm + 2 ^ gen_cnt P lo hi
          have hmod0 : bm % 2 ^ gen_cnt P lo hi = 0 :=
            mod_two_pow_eq_zero_of_testBit (fun idx h => hzero idx (by omega))
          rw [Nat.add_mul, one_mul,
            Nat.div_mul_cancel (Nat.dvd_of_mod_eq_zero hmod0)]
        · rw [hlc]
          rfl
    | true =>
      have hK0 : gen_cnt (P + 1) lo hi = gen_cnt P lo hi := by
        rw [gen_cnt_succ, hfx]
        simp
      have hloeq : lo.testBit P = hi.testBit P := by
        have h3 := hfx
        unfold is_fixed_bit at h3
        exact eq_of_beq h3
      cases hlop : lo.testBit P with
      | true =>
        cases hmbp : m.testBit P with
        | false =>
          rw [bits_min_go_cons_ret bm _ j0 hfx hlop hmbp,
            leastC_cons_fixed hfx, hlop, hmbp]
          show bm = bm + 0
          omega
        | true =>
          rw [bits_min_go_cons_skip bm _ j0 hfx (by rw [hlop, hmbp]),
            leastC_cons_fixed hfx, hlop, hmbp]
          rw [hK0] at hzero hj0 ⊢
          have hfree' : ∀ q, q < w → is_fixed_bit lo hi q = false → P ≤ q →
              bm.testBit (gen_cnt q lo hi) = m.testBit q := by
            intro q hq hfq hPq
            rcases Nat.eq_or_lt_of_le hPq with rfl | hlt2
            · rw [hfq] at hfx
              exact absurd hfx (by simp)
            · exact hfree q hq hfq (by omega)
          have hfixed' : ∀ q, q < w → is_fixed_bit lo hi q = true → P ≤ q →
              lo.testBit q = m.testBit q := by
            intro q hq hfq hPq
            rcases Nat.eq_or_lt_of_le hPq with rfl | hlt2
            · rw [hlop, hmbp]
            · exact hfixed q hq hfq (by omega)
          rw [ih (by omega) bm j0 hbm hzero hfree' hfixed' hj0]
          rcases option_cases_eq (leastC lo hi m ((List.range P).reverse))
            with hlc | ⟨c1, hlc⟩
          · rw [hlc]
            rfl
          · rw [hlc]
            rfl
      | false =>
        cases hmbp : m.testBit P with
        | false =>
          rw [bits_min_go_cons_skip bm _ j0 hfx (by rw [hlop, hmbp]),
            leastC_cons_fixed hfx, hlop, hmbp]
          rw [hK0] at hzero hj0 ⊢
          have hfree' : ∀ q, q < w → is_fixed_bit lo hi q = false → P ≤ q →
              bm.testBit (gen_cnt q lo hi) = m.testBit q := by
            intro q hq hfq hPq
            rcases Nat.eq_or_lt_of_le hPq with rfl | hlt2
            · rw [hfq] at hfx
              exact absurd hfx (by simp)
            · exact hfree q hq hfq (by omega)
          have hfixed' : ∀ q, q < w → is_fixed_bit lo hi q = true → P ≤ q →
              lo.testBit q = m.testBit q := by
            intro q hq hfq hPq
            rcases Nat.eq_or_lt_of_le hPq with rfl | hlt2
            · rw [hlop, hmbp]
            · exact hfixed q hq hfq (by omega)
          rw [ih (by omega) bm j0 hbm hzero hfree' hfixed' hj0]
          rcases option_cases_eq (leastC lo hi m ((List.range P).reverse))
            with hlc | ⟨c1, hlc⟩
          · rw [hlc]
            rfl
          · rw [hlc]
            rfl
        | true =>
          rw [bits_min_go_cons_bump bm _ j0 hfx hlop hmbp,
            leastC_cons_fixed hfx, hlop, hmbp]
          rw [hK0] at hzero hj0 ⊢
          rcases hj0 with ⟨hz1, hz2, hz3, hz4⟩ | ⟨hj00, hsat⟩
          · rw [bm_bump_min_value (gen_cnt w lo hi) bm j0 (gen_cnt P lo hi)
              hbm hz1 hz2 hz3 hz4 (fun idx h => hzero idx h)]
            rfl
          · exfalso
            have hlow : lo < 2 ^ w := hval.1
            have hhiw : hi < 2 ^ w := hval.2.1
            have hhibit : hi.testBit P = false := by
              rw [← hloeq, hlop]
            have hlt : hi < m := by
              apply Nat.lt_of_testBit P hhibit hmbp
              intro jj hjj
              by_cases hjw : jj < w
              · cases hfj : is_fixed_bit lo hi jj with
                | true =>
                  have hjeq : lo.testBit jj = hi.testBit jj := by
                    have h3 := hfj
                    unfold is_fixed_bit at h3
                    exact eq_of_beq h3
                  rw [← hjeq]
                  exact hfixed jj hjw hfj (by omega)
                | false =>
                  have hhij : hi.testBit jj = true := by
                    have hvb := (valid_dom_iff hlow hhiw).mp hval
                    have hne : lo.testBit jj ≠ hi.testBit jj := by
                      intro hc
                      have h3 : is_fixed_bit lo hi jj = true := by
                        unfold is_fixed_bit
                        rw [hc]
                        simp
                      rw [h3] at hfj
                      exact absurd hfj (by simp)
                    cases hl : lo.testBit jj
                    · cases hh : hi.testBit jj
                      · rw [hl, hh] at hne
                        exact absurd rfl hne
                      · rfl
                    · exact hvb jj hl
                  rw [hhij]
                  have hmj := hfree jj hjw hfj (by omega)
                  rw [← hmj]
                  refine (hsat (gen_cnt jj lo hi) ?_
                    (gen_cnt_lt_of_free hjw hfj)).symm
                  have := gen_cnt_mono lo hi jj (show P + 1 ≤ jj by omega)
                  omega
              · rw [testBit_high hhiw (by omega), testBit_high hm (by omega)]
            omega

/-! ### Fixed and unfixed bits of a valid domain -/

theorem is_fixed_bit_eq {lo hi q : Nat} (h : is_fixed_bit lo hi q = true) :
    lo.testBit q = hi.testBit q := by
  have h3 := h
  unfold is_fixed_bit at h3
  exact eq_of_beq h3

theorem is_fixed_bit_ne {lo hi q : Nat} (h : is_fixed_bit lo hi q = false) :
    lo.testBit q ≠ hi.testBit q := by
  intro hc
  have h3 : is_fixed_bit lo hi q = true := by
    unfold is_fixed_bit
    rw [hc]
    simp
  rw [h3] at h
  exact absurd h (by simp)

theorem free_bits {w lo hi q : Nat} (hval : ValidDom w lo hi)
    (hf : is_fixed_bit lo hi q = false) :
    lo.testBit q = false ∧ hi.testBit q = true := by
  have hvb := (valid_dom_iff hval.1 hval.2.1).mp hval
  have hne := is_fixed_bit_ne hf
  cases hl : lo.testBit q
  · cases hh : hi.testBit q
    · rw [hl, hh] at hne
      exact absurd rfl hne
    · exact ⟨rfl, rfl⟩
  · have hh := hvb q hl
    rw [hl, hh] at hne
    exact absurd rfl hne

theorem gen_compose_ones {w lo hi : Nat} (hval : ValidDom w lo hi) :
    gen_compose w lo hi (ones (gen_cnt w lo hi)) = hi := by
  apply Nat.eq_of_testBit_eq
  intro t
  by_cases htw : t < w
  · rw [gen_compose_testBit hval.1 t]
    by_cases hmem : t ∈ free_pos w lo hi
    · rw [if_pos hmem, testBit_ones]
      have hidx : (free_pos w lo hi).indexOf t < gen_cnt w lo hi :=
        List.indexOf_lt_length.mpr hmem
      rw [(free_bits hval (mem_free_pos.mp hmem).2).2]
      simp [hidx]
    · rw [if_neg hmem]
      have hfix : is_fixed_bit lo hi t = true := by
        cases hft : is_fixed_bit lo hi t
        · exact absurd (mem_free_pos.mpr ⟨htw, hft⟩) hmem
        · rfl
      exact is_fixed_bit_eq hfix
  · rw [testBit_high (gen_compose_lt hval.1) (by omega),
      testBit_high hval.2.1 (by omega)]

/-- `bits_min` computes the least counter value whose composition is at
least the requested lower bound. -/
theorem bits_min_least {w lo hi m : Nat} (hval : ValidDom w lo hi)
    (hm : m < 2 ^ w) (hmhi : m ≤ hi) :
    bzla_bvdomain_gen_bits_min w lo hi m < 2 ^ gen_cnt w lo hi ∧
    m ≤ gen_compose w lo hi (bzla_bvdomain_gen_bits_min w lo hi m) ∧
    ∀ c, c < 2 ^ gen_cnt w lo hi → m ≤ gen_compose w lo hi c →
      bzla_bvdomain_gen_bits_min w lo hi m ≤ c := by
  have hlo := hval.1
  have hpair : ((List.range w).reverse).Pairwise (· > ·) := by
    rw [List.pairwise_reverse]
    exact List.pairwise_lt_range w
  obtain ⟨hBnd, hChar⟩ := @leastC_correct lo hi m ((List.range w).reverse) hpair
  have hones_lt : ones (gen_cnt w lo hi) < 2 ^ gen_cnt w lo hi := by
    unfold ones
    have := Nat.two_pow_pos (gen_cnt w lo hi)
    omega
  have hex : mrestrict m ((List.range w).reverse) ≤
      scompose lo hi (ones (gen_cnt w lo hi)) ((List.range w).reverse) := by
    rw [mrestrict_range_rev, scompose_range_rev hlo _ w (le_refl w),
      Nat.mod_eq_of_lt hm, gen_compose_ones hval,
      Nat.mod_eq_of_lt hval.2.1]
    exact hmhi
  obtain ⟨c0, hlc, hc0le⟩ := (hChar (ones (gen_cnt w lo hi))
    (by rw [fcnt_range_rev]; exact hones_lt)).mp hex
  have hscan := bits_min_go_spec hval hm hmhi w (le_refl w) 0 0
    (Nat.two_pow_pos _)
    (fun idx h => Nat.zero_testBit idx)
    (fun q hq hf hwq => absurd hq (by omega))
    (fun q hq hf hwq => absurd hq (by omega))
    (Or.inr ⟨rfl, fun idx h1 h2 => absurd h2 (by omega)⟩)
  rw [Nat.sub_self] at hscan
  have hmin_eq : bzla_bvdomain_gen_bits_min w lo hi m = c0 := by
    show bits_min_go lo hi m (gen_cnt w lo hi) ((List.range w).reverse)
      0 0 0 = c0
    rw [hscan, hlc]
    show 0 + c0 = c0
    omega
  have hc0bnd : c0 < 2 ^ gen_cnt w lo hi := by
    have := hBnd c0 hlc
    rw [fcnt_range_rev] at this
    exact this
  refine ⟨by rw [hmin_eq]; exact hc0bnd, ?_, ?_⟩
  · have h1 := (hChar c0 (by rw [fcnt_range_rev]; exact hc0bnd)).mpr
      ⟨c0, hlc, le_refl c0⟩
    rw [mrestrict_range_rev, scompose_range_rev hlo _ w (le_refl w),
      Nat.mod_eq_of_lt hm,
      Nat.mod_eq_of_lt (gen_compose_lt hlo)] at h1
    rw [hmin_eq]
    exact h1
  · intro c hc hcm
    have h1 : mrestrict m ((List.range w).reverse) ≤
        scompose lo hi c ((List.range w).reverse) := by
      rw [mrestrict_range_rev, scompose_range_rev hlo _ w (le_refl w),
        Nat.mod_eq_of_lt hm, Nat.mod_eq_of_lt (gen_compose_lt hlo)]
      exact hcm
    obtain ⟨c1, hlc1, hle1⟩ := (hChar c
      (by rw [fcnt_range_rev]; exact hc)).mp h1
    rw [hlc] at hlc1
    injection hlc1 with hlc1
    rw [hmin_eq, hlc1]
    exact hle1

/-! ### `bits_max` as the complement-dual of `bits_min` -/

theorem bits_max_go_cons_free {lo hi m cnt p : Nat} {ps : List Nat}
    (bm j j0 : Nat) (hf : is_fixed_bit lo hi p = false) :
    bits_max_go lo hi m cnt (p :: ps) bm j j0 =
      bits_max_go lo hi m cnt ps (bv_set_bit cnt bm (cnt - 1 - j) (m.testBit p))
        (j + 1) (if m.testBit p then j else j0) := by
  rw [bits_max_go, hf]
  rfl

theorem bits_max_go_cons_skip {lo hi m cnt p : Nat} {ps : List Nat}
    (bm j j0 : Nat) (hf : is_fixed_bit lo hi p = true)
    (he : lo.testBit p = m.testBit p) :
    bits_max_go lo hi m cnt (p :: ps) bm j j0 =
      bits_max_go lo hi m cnt ps bm j j0 := by
  rw [bits_max_go, hf, he]
  cases hmb : m.testBit p <;> rfl

theorem bits_max_go_cons_ret {lo hi m cnt p : Nat} {ps : List Nat}
    (bm j j0 : Nat) (hf : is_fixed_bit lo hi p = true)
    (hlo0 : lo.testBit p = false) (hm1 : m.testBit p = true) :
    bits_max_go lo hi m cnt (p :: ps) bm j j0 = bm := by
  rw [bits_max_go, hf, hlo0, hm1]
  rfl

theorem bits_max_go_cons_bump {lo hi m cnt p : Nat} {ps : List Nat}
    (bm j j0 : Nat) (hf : is_fixed_bit lo hi p = true)
    (hlo1 : lo.testBit p = true) (hm0 : m.testBit p = false) :
    bits_max_go lo hi m cnt (p :: ps) bm j j0 = bm_bump_max cnt bm j0 := by
  rw [bits_max_go, hf, hlo1, hm0]
  rfl

theorem is_fixed_bit_dual {w lo hi q : Nat} (hq : q < w) :
    is_fixed_bit (bv_not w hi) (bv_not w lo) q = is_fixed_bit lo hi q := by
  unfold is_fixed_bit
  rw [bv_not_testBit, bv_not_testBit]
  cases hl : lo.testBit q <;> cases hh : hi.testBit q <;> simp [hq]

theorem free_pos_dual (w lo hi : Nat) :
    free_pos w (bv_not w hi) (bv_not w lo) = free_pos w lo hi := by
  unfold free_pos
  apply List.filter_congr
  intro q hq
  rw [is_fixed_bit_dual (List.mem_range.mp hq)]

theorem gen_cnt_dual (w lo hi : Nat) :
    gen_cnt w (bv_not w hi) (bv_not w lo) = gen_cnt w lo hi := by
  unfold gen_cnt
  rw [free_pos_dual]

theorem ValidDom_dual {w lo hi : Nat} (hval : ValidDom w lo hi) :
    ValidDom w (bv_not w hi) (bv_not w lo) := by
  have hlo := hval.1
  have hhi := hval.2.1
  rw [valid_dom_iff (bv_not_lt hhi) (bv_not_lt hlo)]
  intro i hbit
  rw [bv_not_testBit] at hbit ⊢
  by_cases hiw : i < w
  · simp [hiw] at hbit ⊢
    have hvb := (valid_dom_iff hlo hhi).mp hval
    cases hl : lo.testBit i
    · rfl
    · rw [hvb i hl] at hbit
      exact absurd hbit (by decide)
  · simp [hiw] at hbit
    rw [testBit_high hhi (by omega)] at hbit
    exact absurd hbit (by decide)

theorem bits_max_go_dual {w lo hi m cnt : Nat} (hcnt : 0 < cnt)
    (hm : m < 2 ^ w) :
    ∀ ps : List Nat, (∀ p ∈ ps, p < w) → ∀ bm j j0, bm < 2 ^ cnt →
      bits_max_go lo hi m cnt ps bm j j0 =
        bv_not cnt (bits_min_go (bv_not w hi) (bv_not w lo) (bv_not w m) cnt
          ps (bv_not cnt bm) j j0) := by
  intro ps
  induction ps with
  | nil =>
    intro _ bm j j0 hbm
    rw [bits_max_go, bits_min_go, bv_not_involutive hbm]
  | cons p ps ih =>
    intro hplt bm j j0 hbm
    have hpw : p < w := hplt p (List.mem_cons_self p ps)
    have htail : ∀ q ∈ ps, q < w :=
      fun q hq => hplt q (List.mem_cons_of_mem p hq)
    have hfd : is_fixed_bit (bv_not w hi) (bv_not w lo) p =
        is_fixed_bit lo hi p := is_fixed_bit_dual hpw
    have hmdual : (bv_not w m).testBit p = !(m.testBit p) := by
      rw [bv_not_testBit]
      simp [hpw]
    have hldual : (bv_not w hi).testBit p = !(hi.testBit p) := by
      rw [bv_not_testBit]
      simp [hpw]
    have hjpos : cnt - 1 - j < cnt := by omega
    cases hfx : is_fixed_bit lo hi p with
    | false =>
      rw [bits_max_go_cons_free bm j j0 hfx,
        ih htail _ (j + 1) _ (bv_set_bit_lt hbm hjpos _),
        bits_min_go_cons_free (bv_not cnt bm) j j0 (by rw [hfd, hfx]),
        bv_not_set_bit hbm hjpos, hmdual]
      cases hmb : m.testBit p <;> rfl
    | true =>
      have hloeq : lo.testBit p = hi.testBit p := is_fixed_bit_eq hfx
      cases hlop : lo.testBit p with
      | true =>
        cases hmbp : m.testBit p with
        | false =>
          rw [bits_max_go_cons_bump bm j j0 hfx hlop hmbp,
            bits_min_go_cons_bump (bv_not cnt bm) j j0 (by rw [hfd, hfx])
              (by rw [hldual, ← hloeq, hlop]; rfl)
              (by rw [hmdual, hmbp]; rfl),
            bm_bump_dual cnt bm j0 hcnt hbm]
        | true =>
          rw [bits_max_go_cons_skip bm j j0 hfx (by rw [hlop, hmbp]),
            ih htail bm j j0 hbm,
            bits_min_go_cons_skip (bv_not cnt bm) j j0 (by rw [hfd, hfx])
              (by rw [hldual, ← hloeq, hlop, hmdual, hmbp])]
      | false =>
        cases hmbp : m.testBit p with
        | true =>
          rw [bits_max_go_cons_ret bm j j0 hfx hlop hmbp,
            bits_min_go_cons_ret (bv_not cnt bm) j j0 (by rw [hfd, hfx])
              (by rw [hldual, ← hloeq, hlop]; rfl)
              (by rw [hmdual, hmbp]; rfl),
            bv_not_involutive hbm]
        | false =>
          rw [bits_max_go_cons_skip bm j j0 hfx (by rw [hlop, hmbp]),
            ih htail bm j j0 hbm,
            bits_min_go_cons_skip (bv_not cnt bm) j j0 (by rw [hfd, hfx])
              (by rw [hldual, ← hloeq, hlop, hmdual, hmbp])]

theorem gen_compose_dual {w lo hi : Nat} (hlo : lo < 2 ^ w) (hhi : hi < 2 ^ w)
    (c : Nat) :
    gen_compose w (bv_not w hi) (bv_not w lo) c =
      bv_not w (gen_compose w lo hi (bv_not (gen_cnt w lo hi) c)) := by
  apply Nat.eq_of_testBit_eq
  intro t
  by_cases htw : t < w
  · rw [gen_compose_testBit (bv_not_lt hhi) t,
      bv_not_testBit w (gen_compose w lo hi (bv_not (gen_cnt w lo hi) c)) t,
      gen_compose_testBit hlo t, free_pos_dual]
    by_cases hmem : t ∈ free_pos w lo hi
    · rw [if_pos hmem, if_pos hmem,
        bv_not_testBit (gen_cnt w lo hi) c ((free_pos w lo hi).indexOf t)]
      have hidx : (free_pos w lo hi).indexOf t < gen_cnt w lo hi :=
        List.indexOf_lt_length.mpr hmem
      simp [hidx, htw]
    · rw [if_neg hmem, if_neg hmem, bv_not_testBit w hi t]
      have hfix : is_fixed_bit lo hi t = true := by
        cases hft : is_fixed_bit lo hi t
        · exact absurd (mem_free_pos.mpr ⟨htw, hft⟩) hmem
        · rfl
      rw [is_fixed_bit_eq hfix]
  · rw [testBit_high (gen_compose_lt (bv_not_lt hhi)) (by omega),
      bv_not_testBit,
      testBit_high (gen_compose_lt hlo) (by omega)]
    simp [htw]

/-- `bits_max` computes the greatest counter value whose composition is at
most the requested upper bound. -/
theorem bits_max_greatest {w lo hi m : Nat} (hval : ValidDom w lo hi)
    (hcnt : 0 < gen_cnt w lo hi) (hm : m < 2 ^ w) (hlom : lo ≤ m) :
    bzla_bvdomain_gen_bits_max w lo hi m < 2 ^ gen_cnt w lo hi ∧
    gen_compose w lo hi (bzla_bvdomain_gen_bits_max w lo hi m) ≤ m ∧
    ∀ c, c < 2 ^ gen_cnt w lo hi → gen_compose w lo hi c ≤ m →
      c ≤ bzla_bvdomain_gen_bits_max w lo hi m := by
  have hlo := hval.1
  have hhi := hval.2.1
  have hvd := ValidDom_dual hval
  have hmd : bv_not w m < 2 ^ w := bv_not_lt hm
  have hmdhi : bv_not w m ≤ bv_not w lo := (bv_not_le_iff hm hlo).mpr hlom
  have hdualeq : bzla_bvdomain_gen_bits_max w lo hi m =
      bv_not (gen_cnt w lo hi)
        (bzla_bvdomain_gen_bits_min w (bv_not w hi) (bv_not w lo)
          (bv_not w m)) := by
    unfold bzla_bvdomain_gen_bits_max bzla_bvdomain_gen_bits_min
    rw [bits_max_go_dual hcnt hm ((List.range w).reverse)
      (fun q hq => List.mem_range.mp (List.mem_reverse.mp hq))
      (ones (gen_cnt w lo hi)) 0 0
      (by unfold ones; have := Nat.two_pow_pos (gen_cnt w lo hi); omega)]
    rw [gen_cnt_dual]
    congr 1
    rw [show bv_not (gen_cnt w lo hi) (ones (gen_cnt w lo hi)) = 0 by
      unfold bv_not; exact Nat.xor_self _]
  obtain ⟨hb1, hb2, hb3⟩ := bits_min_least hvd hmd hmdhi
  rw [gen_cnt_dual] at hb1
  refine ⟨?_, ?_, ?_⟩
  · rw [hdualeq]
    exact bv_not_lt hb1
  · rw [hdualeq]
    rw [gen_compose_dual hlo hhi] at hb2
    have hcl : gen_compose w lo hi (bv_not (gen_cnt w lo hi)
        (bzla_bvdomain_gen_bits_min w (bv_not w hi) (bv_not w lo)
          (bv_not w m))) < 2 ^ w := gen_compose_lt hlo
    exact (bv_not_le_iff hm hcl).mp hb2
  · intro c hc hcm
    have hcd : bv_not (gen_cnt w lo hi) c < 2 ^ gen_cnt w lo hi :=
      bv_not_lt hc
    have h1 : bv_not w m ≤ gen_compose w (bv_not w hi) (bv_not w lo)
        (bv_not (gen_cnt w lo hi) c) := by
      rw [gen_compose_dual hlo hhi, bv_not_involutive hc]
      exact (bv_not_le_iff hm (gen_compose_lt hlo)).mpr hcm
    have h2 := hb3 (bv_not (gen_cnt w lo hi) c) (by rw [gen_cnt_dual]; exact hcd) h1
    rw [hdualeq]
    have h3 := (bv_not_le_iff hcd hb1).mpr h2
    rw [bv_not_involutive hc] at h3
    exact h3

/-! ### Draining the generator -/

theorem gen_drain_go_none {w lo hi B1 B2 : Nat} :
    ∀ fuel, gen_drain_go w lo hi (none, B1, B2) fuel = [] := by
  intro fuel
  cases fuel with
  | zero => rfl
  | succ fuel =>
    rw [gen_drain_go]
    rfl

theorem gen_drain_go_closed {w lo hi B1 MAX : Nat}
    (hmax : MAX < 2 ^ gen_cnt w lo hi) :
    ∀ fuel cur, cur ≤ MAX → MAX - cur < fuel →
      gen_drain_go w lo hi (some cur, B1, MAX) fuel =
        (List.range (MAX - cur + 1)).map
          (fun k => gen_compose w lo hi (cur + k)) := by
  intro fuel
  induction fuel with
  | zero =>
    intro cur h1 h2
    omega
  | succ fuel ih =>
    intro cur h1 h2
    rw [gen_drain_go]
    rw [show bzla_bvdomain_gen_has_next (some cur, B1, MAX) = true from by
      unfold bzla_bvdomain_gen_has_next
      simp [h1]]
    rw [if_pos rfl]
    by_cases hend : cur = MAX
    · subst hend
      have hnext : bzla_bvdomain_gen_next w lo hi (some cur, B1, cur) =
          (gen_compose w lo hi cur, (none, B1, cur)) := by
        unfold bzla_bvdomain_gen_next
        simp
      rw [hnext]
      rw [gen_drain_go_none fuel, Nat.sub_self]
      simp [List.range_succ]
    · have hnext : bzla_bvdomain_gen_next w lo hi (some cur, B1, MAX) =
          (gen_compose w lo hi cur,
            (some (bv_inc (gen_cnt w lo hi) cur), B1, MAX)) := by
        unfold bzla_bvdomain_gen_next
        simp [hend]
      rw [hnext]
      have hinc : bv_inc (gen_cnt w lo hi) cur = cur + 1 := by
        show (cur + 1) % 2 ^ gen_cnt w lo hi = cur + 1
        apply Nat.mod_eq_of_lt
        omega
      rw [hinc, ih (cur + 1) (by omega) (by omega)]
      show gen_compose w lo hi cur ::
          List.map (fun k => gen_compose w lo hi (cur + 1 + k))
            (List.range (MAX - (cur + 1) + 1)) =
        List.map (fun k => gen_compose w lo hi (cur + k))
          (List.range (MAX - cur + 1))
      conv_rhs => rw [show MAX - cur + 1 = (MAX - cur) + 1 from rfl,
        List.range_succ_eq_map]
      rw [List.map_cons, List.map_map]
      congr 1
      rw [show MAX - (cur + 1) + 1 = MAX - cur by omega]
      apply List.map_congr_left
      intro a ha
      show gen_compose w lo hi (cur + 1 + a) =
        gen_compose w lo hi (cur + (a + 1))
      congr 1
      omega

/-- C3 (amended): for a valid domain with at least one unfixed bit and
range bounds below `2^w`, draining the range-initialized generator yields a
strictly ascending sequence whose members are exactly the concrete values
of the domain lying within the requested range.  The claim as stated over
every domain is false: a fully fixed domain makes the generator yield
nothing although `γ(D) ∩ [min, max]` can be nonempty. -/
theorem gen_drain_enumerates_range {w lo hi : Nat} (hval : ValidDom w lo hi)
    (hcnt : gen_cnt w lo hi ≠ 0) (minO maxO : Option Nat)
    (hminw : ∀ mn, minO = some mn → mn < 2 ^ w)
    (hmaxw : ∀ mx, maxO = some mx → mx < 2 ^ w)
    (fuel : Nat) (hfuel : 2 ^ gen_cnt w lo hi ≤ fuel) :
    (bzla_bvdomain_gen_drain w lo hi minO maxO fuel).Pairwise (· < ·) ∧
    ∀ b, b ∈ bzla_bvdomain_gen_drain w lo hi minO maxO fuel ↔
      (mem_dom lo hi b ∧ (∀ mn, minO = some mn → mn ≤ b) ∧
        (∀ mx, maxO = some mx → b ≤ mx)) := by
  have hlo := hval.1
  have hhi := hval.2.1
  have hmn_lt : gen_eff_min lo minO < 2 ^ w := by
    cases hmo : minO with
    | none => exact hlo
    | some mn =>
      have h1 := hminw mn hmo
      show (if mn < lo then lo else mn) < 2 ^ w
      split_ifs <;> omega
  have hmx_lt : gen_eff_max hi maxO < 2 ^ w := by
    cases hmo : maxO with
    | none => exact hhi
    | some mx =>
      have h1 := hmaxw mx hmo
      show (if hi < mx then hi else mx) < 2 ^ w
      split_ifs <;> omega
  have hbound_iff : ∀ b, mem_dom lo hi b →
      (((∀ mn, minO = some mn → mn ≤ b) ∧
        (∀ mx, maxO = some mx → b ≤ mx)) ↔
        (gen_eff_min lo minO ≤ b ∧ b ≤ gen_eff_max hi maxO)) := by
    intro b hb
    have hlob := mem_dom_lo_le hb
    have hbhi := mem_dom_le_hi hb
    constructor
    · rintro ⟨h1, h2⟩
      constructor
      · cases hmo : minO with
        | none => exact hlob
        | some mn =>
          have h3 := h1 mn hmo
          show (if mn < lo then lo else mn) ≤ b
          split_ifs <;> omega
      · cases hmo : maxO with
        | none => exact hbhi
        | some mx =>
          have h3 := h2 mx hmo
          show b ≤ (if hi < mx then hi else mx)
          split_ifs <;> omega
    · rintro ⟨h1, h2⟩
      constructor
      · intro mn hmo
        rw [hmo] at h1
        have h3 : (if mn < lo then lo else mn) ≤ b := h1
        split_ifs at h3 <;> omega
      · intro mx hmo
        rw [hmo] at h2
        have h3 : b ≤ (if hi < mx then hi else mx) := h2
        split_ifs at h3 <;> omega
  unfold bzla_bvdomain_gen_drain bzla_bvdomain_gen_init_range
  by_cases hguard : gen_cnt w lo hi ≠ 0 ∧ gen_eff_min lo minO ≤ hi ∧
      lo ≤ gen_eff_max hi maxO
  · rw [if_pos hguard]
    obtain ⟨_, hmnhi, hlomx⟩ := hguard
    have hcnt0 : 0 < gen_cnt w lo hi := Nat.pos_of_ne_zero hcnt
    obtain ⟨hminb, hminc, hminl⟩ := bits_min_least hval hmn_lt hmnhi
    obtain ⟨hmaxb, hmaxc, hmaxg⟩ := bits_max_greatest hval hcnt0 hmx_lt hlomx
    by_cases hle : bzla_bvdomain_gen_bits_min w lo hi (gen_eff_min lo minO) ≤
        bzla_bvdomain_gen_bits_max w lo hi (gen_eff_max hi maxO)
    · rw [if_pos hle]
      rw [gen_drain_go_closed hmaxb fuel
        (bzla_bvdomain_gen_bits_min w lo hi (gen_eff_min lo minO)) hle
        (by omega)]
      constructor
      · rw [List.pairwise_iff_get]
        intro i j hij
        have hj2 := j.2
        simp only [List.length_map, List.length_range] at hj2
        have hij' : (i : Nat) < (j : Nat) := hij
        simp only [List.get_eq_getElem, List.getElem_map, List.getElem_range]
        exact gen_compose_strictMono hval (by omega) (by omega)
      · intro b
        rw [List.mem_map]
        constructor
        · rintro ⟨k, hk, rfl⟩
          rw [List.mem_range] at hk
          have hck : bzla_bvdomain_gen_bits_min w lo hi
              (gen_eff_min lo minO) + k < 2 ^ gen_cnt w lo hi := by omega
          refine ⟨gen_compose_mem hval,
            (hbound_iff _ (gen_compose_mem hval)).mpr ⟨?_, ?_⟩⟩
          · exact le_trans hminc ((gen_compose_le_iff hval hminb hck).mpr
              (by omega))
          · exact le_trans ((gen_compose_le_iff hval hck hmaxb).mpr
              (by omega)) hmaxc
        · rintro ⟨hbmem, hbnds⟩
          obtain ⟨hb1, hb2⟩ := (hbound_iff b hbmem).mp hbnds
          have hc := compose_extract hval hbmem
          have hclt : gen_extract w lo hi b < 2 ^ gen_cnt w lo hi :=
            gen_extract_lt
          have hMINle := hminl _ hclt (by rw [hc]; exact hb1)
          have hMAXge := hmaxg _ hclt (by rw [hc]; exact hb2)
          refine ⟨gen_extract w lo hi b -
            bzla_bvdomain_gen_bits_min w lo hi (gen_eff_min lo minO),
            ?_, ?_⟩
          · rw [List.mem_range]
            omega
          · rw [show bzla_bvdomain_gen_bits_min w lo hi
              (gen_eff_min lo minO) + (gen_extract w lo hi b -
                bzla_bvdomain_gen_bits_min w lo hi (gen_eff_min lo minO)) =
              gen_extract w lo hi b by omega, hc]
    · rw [if_neg hle, gen_drain_go_none]
      refine ⟨List.Pairwise.nil, ?_⟩
      intro b
      simp only [List.not_mem_nil, false_iff]
      rintro ⟨hbmem, hbnds⟩
      obtain ⟨hb1, hb2⟩ := (hbound_iff b hbmem).mp hbnds
      have hc := compose_extract hval hbmem
      have hclt : gen_extract w lo hi b < 2 ^ gen_cnt w lo hi :=
        gen_extract_lt
      have h1 := hminl _ hclt (by rw [hc]; exact hb1)
      have h2 := hmaxg _ hclt (by rw [hc]; exact hb2)
      exact hle (by omega)
  · rw [if_neg hguard, gen_drain_go_none]
    refine ⟨List.Pairwise.nil, ?_⟩
    intro b
    simp only [List.not_mem_nil, false_iff]
    rintro ⟨hbmem, hbnds⟩
    obtain ⟨hb1, hb2⟩ := (hbound_iff b hbmem).mp hbnds
    have hlob := mem_dom_lo_le hbmem
    have hbhi := mem_dom_le_hi hbmem
    exact hguard ⟨hcnt, by omega, by omega⟩

/-- C3 counterexample to the unrestricted claim: on the valid but fully
fixed width-1 domain `lo = hi = 0` the generator yields the empty
sequence, although `0 ∈ γ(D)` lies within the (absent) range bounds. -/
theorem gen_drain_misses_fixed_domain :
    bzla_bvdomain_gen_drain 1 0 0 none none 4 = [] ∧
    ValidDom 1 0 0 ∧ mem_dom 0 0 0 := by
  refine ⟨rfl, ⟨by norm_num, by norm_num, by decide⟩, by decide⟩

theorem gen_drain_enumerates_range_witness :
    2 ∈ bzla_bvdomain_gen_drain 2 0 3 (some 1) (some 2) 8 ↔
      (mem_dom 0 3 2 ∧ (∀ mn, (some 1 : Option Nat) = some mn → mn ≤ 2) ∧
        (∀ mx, (some 2 : Option Nat) = some mx → 2 ≤ mx)) :=
  (gen_drain_enumerates_range ⟨by norm_num, by norm_num, by decide⟩
    (by decide) (some 1) (some 2)
    (fun mn h => by injection h with h; omega)
    (fun mx h => by injection h with h; omega) 8 (by decide)).2 2

/-- C1: `bzla_is_inv_urem_const` with `pos_x = 1` is claimed to return true
iff some generator candidate `x` satisfies `s % x = t`; the code computes
`res = BZLA_EMPTY_STACK(candidates)`, which is the negation.  On the full
width-2 domain with `s = 3`, `t = 0` the oracle returns `false`, although
the enumerated candidate `x = 1` satisfies `s % x = t` (so the documented
oracle would return `true`). -/
theorem urem_const_pos1_inverted :
    bzla_is_inv_urem_const 2 0 3 0 3 1 8 = false ∧
    1 ∈ bzla_bvdomain_gen_drain 2 0 3 (some 1) (some (urem_hi_x 2 3 0)) 8 ∧
    bv_urem 3 1 = 0 ∧ check_fixed_bits 0 3 (bv_urem 3 1) = true := by
  refine ⟨by decide, by decide, by decide, by decide⟩

/-- C5 (amended): for every operator except `udiv`, the domain-aware
oracle strengthens the domain-oblivious one: `inv_op_const = true` implies
`inv_op = true`.  For `udiv` the claim fails: `bzla_is_inv_udiv_const`
returns `true` unconditionally while `bzla_is_inv_udiv` can be `false`. -/
theorem inv_const_implies_inv (op : BvOp) (hop : op ≠ BvOp.udiv)
    (w ws lo hi t s pos_x fuel : Nat) (hs : s < 2 ^ op_s_width op w ws) :
    is_inv_const op w ws lo hi t s pos_x fuel = true →
    is_inv op w ws t s pos_x = true := by
  intro h
  cases op with
  | add => rfl
  | and =>
    unfold is_inv_const bzla_is_inv_and_const at h
    cases hinv : bzla_is_inv_and t s pos_x
    · rw [hinv] at h
      simp at h
    · exact hinv
  | concat =>
    unfold is_inv_const bzla_is_inv_concat_const at h
    unfold is_inv bzla_is_inv_concat
    by_cases hp : pos_x = 0
    · rw [if_pos hp] at h ⊢
      exact (Bool.and_eq_true_iff.mp h).2
    · rw [if_neg hp] at h ⊢
      rw [show w + ws - ws = w by omega]
      exact (Bool.and_eq_true_iff.mp h).2
  | eq => rfl
  | mul =>
    unfold is_inv_const bzla_is_inv_mul_const at h
    cases hinv : bzla_is_inv_mul w t s pos_x
    · rw [hinv] at h
      simp at h
    · exact hinv
  | sll =>
    unfold is_inv_const bzla_is_inv_sll_const at h
    by_cases hp : pos_x = 0
    · rw [if_pos hp] at h
      show bzla_is_inv_sll w t s pos_x = true
      rw [hp]
      cases hinv : bzla_is_inv_sll w t s 0
      · rw [hinv] at h
        simp at h
      · rfl
    · rw [if_neg hp] at h
      show bzla_is_inv_sll w t s pos_x = true
      unfold bzla_is_inv_sll
      rw [if_neg hp]
      rcases Bool.or_eq_true_iff.mp h with h1 | h2
      · obtain ⟨hhi, ht0⟩ := Bool.and_eq_true_iff.mp h1
        rw [List.any_eq_true]
        refine ⟨w, List.mem_range.mpr (by omega), ?_⟩
        have hww : bv_uint64_to_bv w w = w :=
          Nat.mod_eq_of_lt (Nat.lt_two_pow w)
        rw [hww, show bv_sll w s w = 0 from Nat.mul_mod_left s (2 ^ w),
          eq_of_beq ht0]
        rfl
      · rw [List.any_eq_true] at h2 ⊢
        obtain ⟨i, hi2, hprop⟩ := h2
        exact ⟨i, hi2, (Bool.and_eq_true_iff.mp hprop).2⟩
  | srl =>
    unfold is_inv_const bzla_is_inv_srl_const at h
    by_cases hp : pos_x = 0
    · rw [if_pos hp] at h
      show bzla_is_inv_srl w t s pos_x = true
      rw [hp]
      cases hinv : bzla_is_inv_srl w t s 0
      · rw [hinv] at h
        simp at h
      · rfl
    · rw [if_neg hp] at h
      show bzla_is_inv_srl w t s pos_x = true
      unfold bzla_is_inv_srl
      rw [if_neg hp]
      rcases Bool.or_eq_true_iff.mp h with h1 | h2
      · obtain ⟨hhi, ht0⟩ := Bool.and_eq_true_iff.mp h1
        rw [List.any_eq_true]
        refine ⟨w, List.mem_range.mpr (by omega), ?_⟩
        have hww : bv_uint64_to_bv w w = w :=
          Nat.mod_eq_of_lt (Nat.lt_two_pow w)
        have hsw : s < 2 ^ w := hs
        rw [hww, show bv_srl s w = 0 from Nat.div_eq_of_lt hsw,
          eq_of_beq ht0]
        rfl
      · rw [List.any_eq_true] at h2 ⊢
        obtain ⟨i, hi2, hprop⟩ := h2
        exact ⟨i, hi2, (Bool.and_eq_true_iff.mp hprop).2⟩
  | udiv => exact absurd rfl hop
  | urem =>
    unfold is_inv_const bzla_is_inv_urem_const at h
    cases hinv : bzla_is_inv_urem w t s pos_x
    · rw [hinv] at h
      simp at h
    · exact hinv
  | ult =>
    unfold is_inv_const bzla_is_inv_ult_const at h
    show bzla_is_inv_ult w t s pos_x = true
    unfold bzla_is_inv_ult
    by_cases hp : pos_x = 0
    · rw [if_pos hp] at h ⊢
      by_cases ht : t = 0
      · simp [ht]
      · rw [show ((t == 0) : Bool) = false by simp [ht]] at h
        simp only [Bool.not_false, if_pos rfl] at h
        rcases Bool.and_eq_true_iff.mp h with ⟨h1, _⟩
        simp [ht]
        intro hc
        rw [hc] at h1
        simp at h1
    · rw [if_neg hp] at h ⊢
      by_cases ht : t = 0
      · simp [ht]
      · rw [show ((t == 0) : Bool) = false by simp [ht]] at h
        simp only [Bool.not_false, if_pos rfl] at h
        rcases Bool.and_eq_true_iff.mp h with ⟨h1, _⟩
        simp [ht]
        intro hc
        rw [hc] at h1
        simp at h1

theorem inv_const_implies_inv_witness :
    is_inv BvOp.urem 2 2 0 0 0 = true :=
  inv_const_implies_inv BvOp.urem (by decide) 2 2 0 3 0 0 0 8 (by decide)
    (by decide)

/-- C5 counterexample: `bzla_is_inv_udiv_const` answers `true` on the full
width-2 domain with `s = 2, t = 3, pos_x = 0`, but the domain-oblivious
`bzla_is_inv_udiv` answers `false` (indeed no width-2 `x` has `x / 2 = 3`). -/
theorem udiv_const_not_strengthening :
    bzla_is_inv_udiv_const 2 0 3 3 2 0 = true ∧
    bzla_is_inv_udiv 2 3 2 0 = false ∧
    (∀ x, x < 4 → bv_udiv 2 x 2 ≠ 3) := by
  refine ⟨rfl, by decide, by decide⟩

/-! ### The domain-aware oracles decide exactly the existence of an
inverse value in the domain (C2) -/

theorem bv_add_sub_cancel {w t s : Nat} (ht : t < 2 ^ w) :
    bv_add w (bv_sub w t s) s = t := by
  unfold bv_add bv_sub
  rw [Nat.mod_add_mod]
  have h1 := Nat.div_add_mod s (2 ^ w)
  have h2 : s % 2 ^ w < 2 ^ w := Nat.mod_lt _ (Nat.two_pow_pos w)
  have h3 : 2 ^ w * (s / 2 ^ w + 1) = 2 ^ w * (s / 2 ^ w) + 2 ^ w := by ring
  rw [show t + (2 ^ w - s % 2 ^ w) + s = t + 2 ^ w * (s / 2 ^ w + 1) by omega,
    Nat.add_mul_mod_self_left, Nat.mod_eq_of_lt ht]

theorem bv_add_inj {w x s t : Nat} (hx : x < 2 ^ w)
    (h : bv_add w x s = t) : x = bv_sub w t s := by
  unfold bv_add at h
  unfold bv_sub
  rw [← h, Nat.mod_add_mod]
  have h1 := Nat.div_add_mod s (2 ^ w)
  have h2 : s % 2 ^ w < 2 ^ w := Nat.mod_lt _ (Nat.two_pow_pos w)
  have h3 : 2 ^ w * (s / 2 ^ w + 1) = 2 ^ w * (s / 2 ^ w) + 2 ^ w := by ring
  rw [show x + s + (2 ^ w - s % 2 ^ w) = x + 2 ^ w * (s / 2 ^ w + 1) by omega,
    Nat.add_mul_mod_self_left, Nat.mod_eq_of_lt hx]

theorem inv_add_const_iff {w lo hi t s : Nat} (hval : ValidDom w lo hi)
    (ht : t < 2 ^ w) (pos_x : Nat) :
    bzla_is_inv_add_const w lo hi t s pos_x = true ↔
      ∃ x, mem_dom lo hi x ∧ x < 2 ^ w ∧ bv_add w x s = t := by
  constructor
  · intro h
    refine ⟨bv_sub w t s, (check_fixed_bits_iff_mem hval).mp h, ?_,
      bv_add_sub_cancel ht⟩
    unfold bv_sub
    exact Nat.mod_lt _ (Nat.two_pow_pos w)
  · rintro ⟨x, hx, hxw, hadd⟩
    show check_fixed_bits lo hi (bv_sub w t s) = true
    rw [← bv_add_inj hxw hadd]
    exact (check_fixed_bits_iff_mem hval).mpr hx

theorem mem_dom_point {lo x : Nat} (h : mem_dom lo lo x) : x = lo := by
  rw [mem_dom_iff] at h
  apply Nat.eq_of_testBit_eq
  intro i
  cases hl : lo.testBit i
  · cases hx : x.testBit i
    · rfl
    · have h2 := h.2 i hx
      rw [hl] at h2
      exact absurd h2 (by simp)
  · rw [h.1 i hl]

theorem inv_eq_const_iff {w lo hi t s : Nat} (hval : ValidDom w lo hi)
    (hsw : s < 2 ^ w) (ht : t < 2) (pos_x : Nat) :
    bzla_is_inv_eq_const w lo hi t s pos_x = true ↔
      ∃ x, mem_dom lo hi x ∧ x < 2 ^ w ∧ (if x = s then 1 else 0) = t := by
  unfold bzla_is_inv_eq_const
  rcases (show t = 0 ∨ t = 1 by omega) with rfl | rfl
  · rw [show ((0 == 0 : Bool)) = true from rfl, if_pos rfl]
    constructor
    · intro h
      rcases Bool.or_eq_true_iff.mp h with h1 | h1
      · have hne : hi ≠ lo := by
          intro hc
          rw [hc] at h1
          simp at h1
        by_cases hls : lo = s
        · refine ⟨hi, mem_dom_hi hval, hval.2.1, if_neg ?_⟩
          rw [← hls]
          exact hne
        · exact ⟨lo, mem_dom_lo hval, hval.1, if_neg hls⟩
      · have hne : hi ≠ s := by
          intro hc
          rw [hc] at h1
          simp at h1
        exact ⟨hi, mem_dom_hi hval, hval.2.1, if_neg hne⟩
    · rintro ⟨x, hx, hxw, hne⟩
      have hxs : x ≠ s := by
        intro hc
        rw [if_pos hc] at hne
        exact absurd hne (by omega)
      by_cases heq : hi = lo
      · apply Bool.or_eq_true_iff.mpr
        right
        rw [heq] at hx
        have hxlo := mem_dom_point hx
        have hhs : hi ≠ s := by
          rw [heq, ← hxlo]
          exact hxs
        simp [hhs]
      · apply Bool.or_eq_true_iff.mpr
        left
        simp [heq]
  · rw [show ((1 == 0 : Bool)) = false from rfl]
    show check_fixed_bits lo hi s = true ↔ _
    rw [check_fixed_bits_iff_mem hval]
    constructor
    · intro h
      exact ⟨s, h, hsw, if_pos rfl⟩
    · rintro ⟨x, hx, hxw, hone⟩
      have hxs : x = s := by
        by_cases hc : x = s
        · exact hc
        · rw [if_neg hc] at hone
          exact absurd hone (by omega)
      rw [← hxs]
      exact hx

theorem inv_ult_const_iff {w lo hi t s : Nat} (hval : ValidDom w lo hi)
    (hsw : s < 2 ^ w) (ht : t < 2) (pos_x : Nat) :
    bzla_is_inv_ult_const w lo hi t s pos_x = true ↔
      ∃ x, mem_dom lo hi x ∧ x < 2 ^ w ∧
        (if pos_x = 0 then (if x < s then 1 else 0)
         else (if s < x then 1 else 0)) = t := by
  unfold bzla_is_inv_ult_const
  have hlo := hval.1
  have hhi := hval.2.1
  by_cases hp : pos_x = 0
  · rw [if_pos hp]
    rcases (show t = 0 ∨ t = 1 by omega) with rfl | rfl
    · rw [show ((0 == 0 : Bool)) = true from rfl]
      show decide (s ≤ hi) = true ↔ _
      rw [decide_eq_true_iff]
      constructor
      · intro h
        refine ⟨hi, mem_dom_hi hval, hhi, ?_⟩
        rw [if_pos hp, if_neg (by omega)]
      · rintro ⟨x, hx, hxw, hres⟩
        rw [if_pos hp] at hres
        have hxs : ¬ x < s := by
          intro hc
          rw [if_pos hc] at hres
          exact absurd hres (by omega)
        have := mem_dom_le_hi hx
        omega
    · rw [show ((1 == 0 : Bool)) = false from rfl]
      show (!(s == 0) && decide (lo < s)) = true ↔ _
      constructor
      · intro h
        obtain ⟨h1, h2⟩ := Bool.and_eq_true_iff.mp h
        rw [decide_eq_true_iff] at h2
        refine ⟨lo, mem_dom_lo hval, hlo, ?_⟩
        rw [if_pos hp, if_pos h2]
      · rintro ⟨x, hx, hxw, hres⟩
        rw [if_pos hp] at hres
        have hxs : x < s := by
          by_cases hc : x < s
          · exact hc
          · rw [if_neg hc] at hres
            exact absurd hres (by omega)
        have hlox := mem_dom_lo_le hx
        apply Bool.and_eq_true_iff.mpr
        refine ⟨by simp; omega, by rw [decide_eq_true_iff]; omega⟩
  · rw [if_neg hp]
    rcases (show t = 0 ∨ t = 1 by omega) with rfl | rfl
    · rw [show ((0 == 0 : Bool)) = true from rfl]
      show decide (lo ≤ s) = true ↔ _
      rw [decide_eq_true_iff]
      constructor
      · intro h
        refine ⟨lo, mem_dom_lo hval, hlo, ?_⟩
        rw [if_neg hp, if_neg (by omega)]
      · rintro ⟨x, hx, hxw, hres⟩
        rw [if_neg hp] at hres
        have hxs : ¬ s < x := by
          intro hc
          rw [if_pos hc] at hres
          exact absurd hres (by omega)
        have := mem_dom_lo_le hx
        omega
    · rw [show ((1 == 0 : Bool)) = false from rfl]
      show (!(s == ones w) && decide (s < hi)) = true ↔ _
      constructor
      · intro h
        obtain ⟨h1, h2⟩ := Bool.and_eq_true_iff.mp h
        rw [decide_eq_true_iff] at h2
        refine ⟨hi, mem_dom_hi hval, hhi, ?_⟩
        rw [if_neg hp, if_pos h2]
      · rintro ⟨x, hx, hxw, hres⟩
        rw [if_neg hp] at hres
        have hxs : s < x := by
          by_cases hc : s < x
          · exact hc
          · rw [if_neg hc] at hres
            exact absurd hres (by omega)
        have hxhi := mem_dom_le_hi hx
        apply Bool.and_eq_true_iff.mpr
        constructor
        · have hso : s < ones w := by
            unfold ones
            omega
          simp
          omega
        · rw [decide_eq_true_iff]
          omega

theorem bv_concat_eq_iff {wl x s t : Nat} (hx2 : s < 2 ^ wl) :
    x * 2 ^ wl + s = t ↔ x = t / 2 ^ wl ∧ s = t % 2 ^ wl := by
  constructor
  · rintro rfl
    constructor
    · rw [Nat.mul_comm, Nat.mul_add_div (Nat.two_pow_pos wl),
        Nat.div_eq_of_lt hx2, Nat.add_zero]
    · rw [Nat.mul_comm, Nat.mul_add_mod, Nat.mod_eq_of_lt hx2]
  · rintro ⟨rfl, rfl⟩
    rw [Nat.mul_comm]
    exact Nat.div_add_mod t (2 ^ wl)

theorem inv_concat_const_iff {w ws lo hi t s : Nat} (hval : ValidDom w lo hi)
    (hw : 0 < w) (hws : 0 < ws) (hsw : s < 2 ^ ws) (ht : t < 2 ^ (w + ws))
    (pos_x : Nat) :
    bzla_is_inv_concat_const w ws lo hi t s pos_x = true ↔
      ∃ x, mem_dom lo hi x ∧ x < 2 ^ w ∧
        (if pos_x = 0 then bv_concat ws x s else bv_concat w s x) = t := by
  unfold bzla_is_inv_concat_const
  by_cases hp : pos_x = 0
  · rw [if_pos hp]
    have hsl1 : bv_slice t (w + ws - 1) ws = t / 2 ^ ws := by
      unfold bv_slice
      rw [show w + ws - 1 - ws + 1 = w by omega]
      apply Nat.mod_eq_of_lt
      apply Nat.div_lt_of_lt_mul
      rw [← pow_add]
      rw [show ws + w = w + ws by omega]
      exact ht
    have hsl2 : bv_slice t (ws - 1) 0 = t % 2 ^ ws := by
      unfold bv_slice
      rw [show ws - 1 - 0 + 1 = ws by omega, pow_zero, Nat.div_one]
    rw [hsl1, hsl2]
    have hchk : (t / 2 ^ ws &&& hi ||| lo == t / 2 ^ ws) =
        check_fixed_bits lo hi (t / 2 ^ ws) := rfl
    rw [hchk]
    constructor
    · intro h
      obtain ⟨h1, h2⟩ := Bool.and_eq_true_iff.mp h
      have h2' : s = t % 2 ^ ws := eq_of_beq h2
      refine ⟨t / 2 ^ ws, (check_fixed_bits_iff_mem hval).mp h1, ?_, ?_⟩
      · apply Nat.div_lt_of_lt_mul
        rw [← pow_add, show ws + w = w + ws by omega]
        exact ht
      · rw [if_pos hp]
        show t / 2 ^ ws * 2 ^ ws + s = t
        exact (bv_concat_eq_iff (by omega)).mpr ⟨rfl, h2'⟩
    · rintro ⟨x, hx, hxw, hres⟩
      rw [if_pos hp] at hres
      have hres' : x * 2 ^ ws + s = t := hres
      obtain ⟨hx1, hx2⟩ := (bv_concat_eq_iff hsw).mp hres'
      apply Bool.and_eq_true_iff.mpr
      refine ⟨?_, beq_of_eq hx2⟩
      rw [← hx1]
      exact (check_fixed_bits_iff_mem hval).mpr hx
  · rw [if_neg hp]
    have hsl1 : bv_slice t (w - 1) 0 = t % 2 ^ w := by
      unfold bv_slice
      rw [show w - 1 - 0 + 1 = w by omega, pow_zero, Nat.div_one]
    have hsl2 : bv_slice t (w + ws - 1) w = t / 2 ^ w := by
      unfold bv_slice
      rw [show w + ws - 1 - w + 1 = ws by omega]
      apply Nat.mod_eq_of_lt
      apply Nat.div_lt_of_lt_mul
      rw [← pow_add]
      exact ht
    rw [hsl1, hsl2]
    have hchk : (t % 2 ^ w &&& hi ||| lo == t % 2 ^ w) =
        check_fixed_bits lo hi (t % 2 ^ w) := rfl
    rw [hchk]
    constructor
    · intro h
      obtain ⟨h1, h2⟩ := Bool.and_eq_true_iff.mp h
      have h2' : s = t / 2 ^ w := eq_of_beq h2
      refine ⟨t % 2 ^ w, (check_fixed_bits_iff_mem hval).mp h1,
        Nat.mod_lt _ (Nat.two_pow_pos w), ?_⟩
      rw [if_neg hp]
      show s * 2 ^ w + t % 2 ^ w = t
      rw [h2', Nat.mul_comm]
      exact Nat.div_add_mod t (2 ^ w)
    · rintro ⟨x, hx, hxw, hres⟩
      rw [if_neg hp] at hres
      have hres' : s * 2 ^ w + x = t := hres
      obtain ⟨hs1, hx2⟩ := (bv_concat_eq_iff hxw).mp hres'
      apply Bool.and_eq_true_iff.mpr
      refine ⟨?_, beq_of_eq hs1⟩
      rw [← hx2]
      exact (check_fixed_bits_iff_mem hval).mpr hx

theorem bv_xnor_testBit {w lo hi : Nat} (hlo : lo < 2 ^ w)
    (hhi : hi < 2 ^ w) (i : Nat) :
    (bv_xnor w lo hi).testBit i =
      (decide (i < w) && (lo.testBit i == hi.testBit i)) := by
  unfold bv_xnor
  rw [bv_not_testBit, Nat.testBit_xor]
  by_cases hiw : i < w
  · cases hl : lo.testBit i <;> cases hh : hi.testBit i <;> simp [hiw]
  · rw [testBit_high hlo (le_of_not_lt hiw),
      testBit_high hhi (le_of_not_lt hiw)]
    simp [hiw]

theorem inv_and_const_iff {w lo hi t s : Nat} (hval : ValidDom w lo hi)
    (ht : t < 2 ^ w) (pos_x : Nat) :
    bzla_is_inv_and_const w lo hi t s pos_x = true ↔
      ∃ x, mem_dom lo hi x ∧ x < 2 ^ w ∧ x &&& s = t := by
  have hlo := hval.1
  have hhi := hval.2.1
  have hvb := (valid_dom_iff hlo hhi).mp hval
  constructor
  · intro h
    have hinv : (t &&& s == t : Bool) = true := by
      unfold bzla_is_inv_and_const bzla_is_inv_and at h
      cases hc : (t &&& s == t : Bool)
      · rw [hc] at h
        simp at h
      · rfl
    have h2 : s &&& hi &&& bv_xnor w lo hi = t &&& bv_xnor w lo hi := by
      unfold bzla_is_inv_and_const bzla_is_inv_and at h
      rw [hinv] at h
      have h2b : (s &&& hi &&& bv_xnor w lo hi ==
        t &&& bv_xnor w lo hi) = true := h
      exact eq_of_beq h2b
    have hc1 : ∀ i, t.testBit i = true → s.testBit i = true := by
      intro i hti
      have h3 := congrArg (fun a => a.testBit i) (eq_of_beq hinv)
      simp only [Nat.testBit_land] at h3
      rw [hti] at h3
      simpa using h3
    have hc2 : ∀ i, i < w → lo.testBit i = hi.testBit i →
        (s.testBit i && hi.testBit i) = t.testBit i := by
      intro i hiw hfix
      have h3 := congrArg (fun a => a.testBit i) h2
      simp only [Nat.testBit_land, bv_xnor_testBit hlo hhi] at h3
      rw [hfix] at h3
      simpa [hiw] using h3
    refine ⟨t ||| (lo &&& bv_not w s), ?_, ?_, ?_⟩
    · rw [mem_dom_iff]
      constructor
      · intro i hloi
        have hiw : i < w := by
          by_contra hge
          rw [testBit_high hlo (le_of_not_lt hge)] at hloi
          exact absurd hloi (by simp)
        rw [Nat.testBit_lor, Nat.testBit_land, bv_not_testBit]
        cases hsi : s.testBit i
        · simp [hloi, hiw, hsi]
        · have hhii := hvb i hloi
          have hfix : lo.testBit i = hi.testBit i := by rw [hloi, hhii]
          have h3 := hc2 i hiw hfix
          rw [hsi, hhii] at h3
          simp at h3
          simp [h3]
      · intro i hxi
        rw [Nat.testBit_lor, Nat.testBit_land, bv_not_testBit] at hxi
        rcases Bool.or_eq_true_iff.mp hxi with hti | hband
        · by_cases hfix : lo.testBit i = hi.testBit i
          · have hiw : i < w := by
              by_contra hge
              rw [testBit_high ht (le_of_not_lt hge)] at hti
              exact absurd hti (by simp)
            have h3 := hc2 i hiw hfix
            rw [hti] at h3
            cases hh : hi.testBit i
            · rw [hh] at h3
              simp at h3
            · rfl
          · cases hh : hi.testBit i
            · cases hl : lo.testBit i
              · rw [hl, hh] at hfix
                exact absurd rfl hfix
              · have h4 := hvb i hl
                rw [h4] at hh
                exact absurd hh (by simp)
            · rfl
        · obtain ⟨hl2, _⟩ := Bool.and_eq_true_iff.mp hband
          exact hvb i hl2
    · exact Nat.or_lt_two_pow ht (lt_of_le_of_lt Nat.and_le_left hlo)
    · apply Nat.eq_of_testBit_eq
      intro i
      rw [Nat.testBit_land, Nat.testBit_lor, Nat.testBit_land, bv_not_testBit]
      cases hsi : s.testBit i
      · cases hti : t.testBit i
        · simp
        · have h4 := hc1 i hti
          rw [hsi] at h4
          exact absurd h4 (by simp)
      · cases hti : t.testBit i
        · simp [hsi, hti]
          intro hl
          by_contra hge
          rw [testBit_high hlo (le_of_not_lt hge)] at hl
          exact absurd hl (by simp)
        · simp [hsi, hti]
  · rintro ⟨x, hx, hxw, hxs⟩
    unfold bzla_is_inv_and_const bzla_is_inv_and
    have hmem := mem_dom_iff.mp hx
    have hinv : (t &&& s == t : Bool) = true := by
      apply beq_of_eq
      rw [← hxs, Nat.and_assoc, Nat.and_self]
    rw [hinv]
    show (s &&& hi &&& bv_xnor w lo hi == t &&& bv_xnor w lo hi) = true
    apply beq_of_eq
    apply Nat.eq_of_testBit_eq
    intro i
    simp only [Nat.testBit_land, bv_xnor_testBit hlo hhi]
    by_cases hiw : i < w
    · by_cases hfix : lo.testBit i = hi.testBit i
      · have hxi : x.testBit i = hi.testBit i := by
          cases hl : lo.testBit i
          · cases hxb : x.testBit i
            · rw [← hfix, hl]
            · rw [hmem.2 i hxb]
          · rw [hmem.1 i hl, ← hfix, hl]
        have hti : t.testBit i = (x.testBit i && s.testBit i) := by
          rw [← hxs, Nat.testBit_land]
        rw [hti, hxi]
        cases hsb : s.testBit i <;> cases hhb : hi.testBit i <;>
          simp [hiw, hfix]
      · have h5 : (lo.testBit i == hi.testBit i) = false := by
          simp [hfix]
        simp [h5]
    · simp [hiw]

theorem bv_sll_testBit (w a s i : Nat) :
    (bv_sll w a s).testBit i =
      (decide (s ≤ i) && decide (i < w) && a.testBit (i - s)) := by
  unfold bv_sll
  rw [Nat.testBit_mod_two_pow, show a * 2 ^ s = 2 ^ s * a by ring,
    Nat.testBit_mul_pow_two]
  by_cases h1 : i < w <;> by_cases h2 : s ≤ i <;> simp [h1, h2]

theorem bv_srl_testBit (a s i : Nat) :
    (bv_srl a s).testBit i = a.testBit (i + s) := by
  unfold bv_srl
  rw [show a / 2 ^ s = a >>> s from (Nat.shiftRight_eq_div_pow a s).symm,
    Nat.testBit_shiftRight]
  congr 1
  omega

theorem himask_testBit (w s i : Nat) :
    (ones w ^^^ ones (w - s)).testBit i =
      (decide (w - s ≤ i) && decide (i < w)) := by
  rw [Nat.testBit_xor, testBit_ones, testBit_ones]
  by_cases h1 : i < w <;> by_cases h2 : i < w - s <;> simp [h1, h2] <;> omega

theorem inv_sll_const_pos0_iff {w lo hi t s : Nat} (hval : ValidDom w lo hi)
    (ht : t < 2 ^ w) :
    bzla_is_inv_sll_const w lo hi t s 0 = true ↔
      ∃ x, mem_dom lo hi x ∧ x < 2 ^ w ∧ bv_sll w x s = t := by
  have hlo := hval.1
  have hhi := hval.2.1
  have hvb := (valid_dom_iff hlo hhi).mp hval
  unfold bzla_is_inv_sll_const
  rw [if_pos rfl]
  constructor
  · intro h
    have hosll : bzla_is_inv_sll w t s 0 = true := by
      cases hc : bzla_is_inv_sll w t s 0
      · rw [hc] at h
        simp at h
      · rfl
    rw [hosll] at h
    have h2 : bv_sll w hi s &&& t = t :=
      eq_of_beq (Bool.and_eq_true_iff.mp h).1
    have h3 : bv_sll w lo s ||| t = t :=
      eq_of_beq (Bool.and_eq_true_iff.mp h).2
    have hc2 : ∀ i, t.testBit i = true →
        s ≤ i ∧ i < w ∧ hi.testBit (i - s) = true := by
      intro i hti
      have h4 := congrArg (fun a => a.testBit i) h2
      simp only [Nat.testBit_land, bv_sll_testBit] at h4
      rw [hti] at h4
      simp at h4
      exact ⟨h4.1.1, h4.1.2, h4.2⟩
    have hc3 : ∀ i, s ≤ i → i < w → lo.testBit (i - s) = true →
        t.testBit i = true := by
      intro i h5 h6 h7
      have h4 := congrArg (fun a => a.testBit i) h3
      simp only [Nat.testBit_lor, bv_sll_testBit] at h4
      rw [h7] at h4
      simp [h5, h6] at h4
      exact h4
    refine ⟨bv_srl t s ||| (lo &&& (ones w ^^^ ones (w - s))), ?_, ?_, ?_⟩
    · rw [mem_dom_iff]
      constructor
      · intro i hloi
        have hiw : i < w := by
          by_contra hge
          rw [testBit_high hlo (le_of_not_lt hge)] at hloi
          exact absurd hloi (by simp)
        rw [Nat.testBit_lor, Nat.testBit_land, himask_testBit, bv_srl_testBit]
        by_cases hlow : i < w - s
        · have h8 := hc3 (i + s) (by omega) (by omega)
            (by rw [show i + s - s = i by omega]; exact hloi)
          simp [h8]
        · simp [hloi, hiw, show w - s ≤ i by omega]
      · intro i hxi
        rw [Nat.testBit_lor, Nat.testBit_land, himask_testBit, bv_srl_testBit]
          at hxi
        rcases Bool.or_eq_true_iff.mp hxi with hti | hband
        · have h8 := hc2 (i + s) hti
          rw [show i + s - s = i by omega] at h8
          exact h8.2.2
        · exact hvb i (Bool.and_eq_true_iff.mp hband).1
    · apply Nat.or_lt_two_pow
      · exact lt_of_le_of_lt (Nat.div_le_self t (2 ^ s)) ht
      · exact lt_of_le_of_lt Nat.and_le_left hlo
    · apply Nat.eq_of_testBit_eq
      intro i
      rw [bv_sll_testBit, Nat.testBit_lor, Nat.testBit_land, himask_testBit,
        bv_srl_testBit]
      by_cases h5 : s ≤ i
      · by_cases h6 : i < w
        · rw [show i - s + s = i by omega]
          have h9 : (decide (w - s ≤ i - s) && decide (i - s < w)) = false := by
            simp
            omega
          rw [h9]
          cases hti : t.testBit i
          · simp [h5, h6]
          · simp [h5, h6]
        · cases hti : t.testBit i
          · simp [h6]
          · have := hc2 i hti
            omega
      · cases hti : t.testBit i
        · simp [h5]
        · have := hc2 i hti
          omega
  · rintro ⟨x, hx, hxw, hres⟩
    have hmem := mem_dom_iff.mp hx
    have hbit : ∀ i, t.testBit i =
        (decide (s ≤ i) && decide (i < w) && x.testBit (i - s)) := by
      intro i
      rw [← hres, bv_sll_testBit]
    have hosll : bzla_is_inv_sll w t s 0 = true := by
      unfold bzla_is_inv_sll
      rw [if_pos rfl]
      apply beq_of_eq
      apply Nat.eq_of_testBit_eq
      intro i
      rw [bv_sll_testBit, bv_srl_testBit, hbit i]
      by_cases h5 : s ≤ i
      · by_cases h6 : i < w
        · rw [show i - s + s = i by omega, hbit i]
          simp [h5, h6]
        · simp [h6]
      · simp [h5]
    rw [hosll]
    apply Bool.and_eq_true_iff.mpr
    constructor
    · apply beq_of_eq
      apply Nat.eq_of_testBit_eq
      intro i
      rw [Nat.testBit_land, bv_sll_testBit, hbit i]
      cases hxb : x.testBit (i - s)
      · simp
      · have hhb := hmem.2 _ hxb
        rw [hhb]
        simp
    · apply beq_of_eq
      apply Nat.eq_of_testBit_eq
      intro i
      rw [Nat.testBit_lor, bv_sll_testBit, hbit i]
      cases hlb : lo.testBit (i - s)
      · simp
      · have hxb := hmem.1 _ hlb
        rw [hxb]
        simp

theorem inv_srl_const_pos0_iff {w lo hi t s : Nat} (hval : ValidDom w lo hi)
    (ht : t < 2 ^ w) :
    bzla_is_inv_srl_const w lo hi t s 0 = true ↔
      ∃ x, mem_dom lo hi x ∧ x < 2 ^ w ∧ bv_srl x s = t := by
  have hlo := hval.1
  have hhi := hval.2.1
  have hvb := (valid_dom_iff hlo hhi).mp hval
  unfold bzla_is_inv_srl_const
  rw [if_pos rfl]
  constructor
  · intro h
    have hosrl : bzla_is_inv_srl w t s 0 = true := by
      cases hc : bzla_is_inv_srl w t s 0
      · rw [hc] at h
        simp at h
      · rfl
    rw [hosrl] at h
    have h2 : bv_srl hi s &&& t = t :=
      eq_of_beq (Bool.and_eq_true_iff.mp h).1
    have h3 : bv_srl lo s ||| t = t :=
      eq_of_beq (Bool.and_eq_true_iff.mp h).2
    have hc2 : ∀ j, t.testBit j = true → hi.testBit (j + s) = true := by
      intro j htj
      have h4 := congrArg (fun a => a.testBit j) h2
      simp only [Nat.testBit_land, bv_srl_testBit] at h4
      rw [htj] at h4
      simpa using h4
    have hc3 : ∀ j, lo.testBit (j + s) = true → t.testBit j = true := by
      intro j h7
      have h4 := congrArg (fun a => a.testBit j) h3
      simp only [Nat.testBit_lor, bv_srl_testBit] at h4
      rw [h7] at h4
      simpa using h4
    have hbound : ∀ j, t.testBit j = true → j + s < w := by
      intro j htj
      have hosrl2 : bv_srl (bv_sll w t s) s = t := by
        have h5 : (bv_srl (bv_sll w t s) s == t) = true := by
          have h6 := hosrl
          unfold bzla_is_inv_srl at h6
          rw [if_pos rfl] at h6
          exact h6
        exact eq_of_beq h5
      have h4 := congrArg (fun a => a.testBit j) hosrl2
      simp only [bv_srl_testBit, bv_sll_testBit] at h4
      rw [htj] at h4
      by_contra hge
      simp [show ¬ (j + s < w) from hge] at h4
    refine ⟨bv_sll w t s ||| (lo &&& ones s), ?_, ?_, ?_⟩
    · rw [mem_dom_iff]
      constructor
      · intro i hloi
        have hiw : i < w := by
          by_contra hge
          rw [testBit_high hlo (le_of_not_lt hge)] at hloi
          exact absurd hloi (by simp)
        rw [Nat.testBit_lor, Nat.testBit_land, testBit_ones, bv_sll_testBit]
        by_cases hless : i < s
        · simp [hloi, hless]
        · have h8 : t.testBit (i - s) = true := by
            apply hc3
            rw [show i - s + s = i by omega]
            exact hloi
          simp [h8, show s ≤ i by omega, hiw]
      · intro i hxi
        rw [Nat.testBit_lor, Nat.testBit_land, testBit_ones, bv_sll_testBit]
          at hxi
        rcases Bool.or_eq_true_iff.mp hxi with hband | hband
        · obtain ⟨h5, h6⟩ := Bool.and_eq_true_iff.mp hband
          obtain ⟨h7, h8⟩ := Bool.and_eq_true_iff.mp h5
          have h7a : s ≤ i := of_decide_eq_true h7
          have h9 := hc2 (i - s) h6
          rw [show i - s + s = i by omega] at h9
          exact h9
        · exact hvb i (Bool.and_eq_true_iff.mp hband).1
    · apply Nat.or_lt_two_pow
      · unfold bv_sll
        exact Nat.mod_lt _ (Nat.two_pow_pos w)
      · exact lt_of_le_of_lt Nat.and_le_left hlo
    · apply Nat.eq_of_testBit_eq
      intro j
      rw [bv_srl_testBit, Nat.testBit_lor, Nat.testBit_land, testBit_ones,
        bv_sll_testBit]
      rw [show j + s - s = j by omega]
      cases htj : t.testBit j
      · simp [show ¬ (j + s < s) by omega]
      · have h5 := hbound j htj
        simp [show s ≤ j + s by omega, h5]
  · rintro ⟨x, hx, hxw, hres⟩
    have hmem := mem_dom_iff.mp hx
    have hbit : ∀ j, t.testBit j = x.testBit (j + s) := by
      intro j
      rw [← hres, bv_srl_testBit]
    have hosrl : bzla_is_inv_srl w t s 0 = true := by
      unfold bzla_is_inv_srl
      rw [if_pos rfl]
      apply beq_of_eq
      apply Nat.eq_of_testBit_eq
      intro j
      rw [bv_srl_testBit, bv_sll_testBit, show j + s - s = j by omega,
        hbit j]
      by_cases h6 : j + s < w
      · simp [show s ≤ j + s by omega, h6]
      · rw [testBit_high hxw (by omega)]
        simp [h6]
    rw [hosrl]
    apply Bool.and_eq_true_iff.mpr
    constructor
    · apply beq_of_eq
      apply Nat.eq_of_testBit_eq
      intro j
      rw [Nat.testBit_land, bv_srl_testBit, hbit j]
      cases hxb : x.testBit (j + s)
      · simp
      · rw [hmem.2 _ hxb]
        simp
    · apply beq_of_eq
      apply Nat.eq_of_testBit_eq
      intro j
      rw [Nat.testBit_lor, bv_srl_testBit, hbit j]
      cases hlb : lo.testBit (j + s)
      · simp
      · rw [hmem.1 _ hlb]
        simp

theorem mem_dom_iff_or_and {lo hi b : Nat} :
    mem_dom lo hi b ↔ (b ||| lo = b ∧ b &&& hi = b) := by
  rw [mem_dom_iff]
  constructor
  · rintro ⟨h1, h2⟩
    constructor
    · apply Nat.eq_of_testBit_eq
      intro i
      rw [Nat.testBit_lor]
      cases hl : lo.testBit i
      · simp
      · simp [h1 i hl]
    · apply Nat.eq_of_testBit_eq
      intro i
      rw [Nat.testBit_land]
      cases hb : b.testBit i
      · simp
      · simp [h2 i hb]
  · rintro ⟨h1, h2⟩
    constructor
    · intro i hl
      have h3 := congrArg (fun a => a.testBit i) h1
      simp only [Nat.testBit_lor] at h3
      rw [hl] at h3
      simpa using h3
    · intro i hb
      have h3 := congrArg (fun a => a.testBit i) h2
      simp only [Nat.testBit_land] at h3
      rw [hb] at h3
      simpa using h3

theorem inv_sll_const_pos1_iff {w lo hi t s : Nat} (hval : ValidDom w lo hi) :
    bzla_is_inv_sll_const w lo hi t s 1 = true ↔
      ∃ x, mem_dom lo hi x ∧ x < 2 ^ w ∧ bv_sll w s x = t := by
  have hlo := hval.1
  have hhi := hval.2.1
  unfold bzla_is_inv_sll_const
  rw [if_neg (by omega)]
  have hww : bv_uint64_to_bv w w = w := Nat.mod_eq_of_lt (Nat.lt_two_pow w)
  constructor
  · intro h
    rcases Bool.or_eq_true_iff.mp h with h1 | h1
    · obtain ⟨h2, h3⟩ := Bool.and_eq_true_iff.mp h1
      rw [hww] at h2
      have h2a : w ≤ hi := of_decide_eq_true h2
      have h3a : t = 0 := eq_of_beq h3
      refine ⟨hi, mem_dom_hi hval, hhi, ?_⟩
      show s * 2 ^ hi % 2 ^ w = t
      rw [h3a, show s * 2 ^ hi = s * 2 ^ (hi - w) * 2 ^ w by
        rw [Nat.mul_assoc, ← pow_add]; congr 2; omega]
      exact Nat.mul_mod_left _ _
    · rw [List.any_eq_true] at h1
      obtain ⟨i, hir, hprop⟩ := h1
      rw [List.mem_range] at hir
      have hi2w : i < 2 ^ w := by
        have := Nat.lt_two_pow w
        omega
      have hiw : bv_uint64_to_bv w i = i := Nat.mod_eq_of_lt hi2w
      rw [hiw] at hprop
      obtain ⟨h4, h5⟩ := Bool.and_eq_true_iff.mp hprop
      obtain ⟨h6, h7⟩ := Bool.and_eq_true_iff.mp h4
      have hmem : mem_dom lo hi i :=
        mem_dom_iff_or_and.mpr ⟨eq_of_beq h6, eq_of_beq h7⟩
      exact ⟨i, hmem, hi2w, eq_of_beq h5⟩
  · rintro ⟨x, hx, hxw, hres⟩
    apply Bool.or_eq_true_iff.mpr
    by_cases hxge : w ≤ x
    · left
      apply Bool.and_eq_true_iff.mpr
      constructor
      · rw [hww]
        have := mem_dom_le_hi hx
        exact decide_eq_true (by omega)
      · apply beq_of_eq
        rw [← hres]
        show s * 2 ^ x % 2 ^ w = 0
        rw [show s * 2 ^ x = s * 2 ^ (x - w) * 2 ^ w by
          rw [Nat.mul_assoc, ← pow_add]; congr 2; omega]
        exact Nat.mul_mod_left _ _
    · right
      rw [List.any_eq_true]
      refine ⟨x, List.mem_range.mpr (by omega), ?_⟩
      have hxe : bv_uint64_to_bv w x = x := Nat.mod_eq_of_lt hxw
      rw [hxe]
      obtain ⟨h1, h2⟩ := mem_dom_iff_or_and.mp hx
      exact Bool.and_eq_true_iff.mpr ⟨Bool.and_eq_true_iff.mpr
        ⟨beq_of_eq h1, beq_of_eq h2⟩, beq_of_eq hres⟩

theorem inv_srl_const_pos1_iff {w lo hi t s : Nat} (hval : ValidDom w lo hi)
    (hsw : s < 2 ^ w) :
    bzla_is_inv_srl_const w lo hi t s 1 = true ↔
      ∃ x, mem_dom lo hi x ∧ x < 2 ^ w ∧ bv_srl s x = t := by
  have hlo := hval.1
  have hhi := hval.2.1
  unfold bzla_is_inv_srl_const
  rw [if_neg (by omega)]
  have hww : bv_uint64_to_bv w w = w := Nat.mod_eq_of_lt (Nat.lt_two_pow w)
  constructor
  · intro h
    rcases Bool.or_eq_true_iff.mp h with h1 | h1
    · obtain ⟨h2, h3⟩ := Bool.and_eq_true_iff.mp h1
      rw [hww] at h2
      have h2a : w ≤ hi := of_decide_eq_true h2
      have h3a : t = 0 := eq_of_beq h3
      refine ⟨hi, mem_dom_hi hval, hhi, ?_⟩
      show s / 2 ^ hi = t
      rw [h3a]
      apply Nat.div_eq_of_lt
      exact lt_of_lt_of_le hsw (Nat.pow_le_pow_right (by norm_num) h2a)
    · rw [List.any_eq_true] at h1
      obtain ⟨i, hir, hprop⟩ := h1
      rw [List.mem_range] at hir
      have hi2w : i < 2 ^ w := by
        have := Nat.lt_two_pow w
        omega
      have hiw : bv_uint64_to_bv w i = i := Nat.mod_eq_of_lt hi2w
      rw [hiw] at hprop
      obtain ⟨h4, h5⟩ := Bool.and_eq_true_iff.mp hprop
      obtain ⟨h6, h7⟩ := Bool.and_eq_true_iff.mp h4
      have hmem : mem_dom lo hi i :=
        mem_dom_iff_or_and.mpr ⟨eq_of_beq h6, eq_of_beq h7⟩
      exact ⟨i, hmem, hi2w, eq_of_beq h5⟩
  · rintro ⟨x, hx, hxw, hres⟩
    apply Bool.or_eq_true_iff.mpr
    by_cases hxge : w ≤ x
    · left
      apply Bool.and_eq_true_iff.mpr
      constructor
      · rw [hww]
        have := mem_dom_le_hi hx
        exact decide_eq_true (by omega)
      · apply beq_of_eq
        rw [← hres]
        show s / 2 ^ x = 0
        apply Nat.div_eq_of_lt
        exact lt_of_lt_of_le hsw (Nat.pow_le_pow_right (by norm_num) hxge)
    · right
      rw [List.any_eq_true]
      refine ⟨x, List.mem_range.mpr (by omega), ?_⟩
      have hxe : bv_uint64_to_bv w x = x := Nat.mod_eq_of_lt hxw
      rw [hxe]
      obtain ⟨h1, h2⟩ := mem_dom_iff_or_and.mp hx
      exact Bool.and_eq_true_iff.mpr ⟨Bool.and_eq_true_iff.mpr
        ⟨beq_of_eq h1, beq_of_eq h2⟩, beq_of_eq hres⟩

theorem find?_range_spec {p : Nat → Bool} :
    ∀ {w k : Nat}, (List.range w).find? p = some k →
      p k = true ∧ k < w ∧ ∀ i, i < k → p i = false := by
  intro w
  induction w with
  | zero =>
    intro k h
    simp at h
  | succ w ih =>
    intro k h
    rw [List.range_succ, List.find?_append] at h
    cases hfw : (List.range w).find? p with
    | some a =>
      rw [hfw] at h
      simp at h
      subst h
      obtain ⟨h1, h2, h3⟩ := ih hfw
      exact ⟨h1, by omega, h3⟩
    | none =>
      rw [hfw] at h
      simp at h
      obtain ⟨h1, h2⟩ := h
      subst h2
      refine ⟨h1, by omega, ?_⟩
      intro i hik
      have hall := List.find?_eq_none.mp hfw
      have := hall i (List.mem_range.mpr hik)
      simpa using this

theorem tz_spec {w s : Nat} (hs : s ≠ 0) (hsw : s < 2 ^ w) :
    mul_const_tz w s < w ∧ s.testBit (mul_const_tz w s) = true ∧
    ∀ i, i < mul_const_tz w s → s.testBit i = false := by
  unfold mul_const_tz bzla_bv_get_num_trailing_zeros
  cases hf : (List.range w).find? (fun i => s.testBit i) with
  | some k =>
    obtain ⟨h1, h2, h3⟩ := find?_range_spec hf
    exact ⟨h2, h1, h3⟩
  | none =>
    exfalso
    have hall := List.find?_eq_none.mp hf
    apply hs
    apply Nat.eq_of_testBit_eq
    intro i
    rw [Nat.zero_testBit]
    by_cases hiw : i < w
    · have := hall i (List.mem_range.mpr hiw)
      simpa using this
    · exact testBit_high hsw (le_of_not_lt hiw)

theorem s_decomp {w s : Nat} (hs : s ≠ 0) (hsw : s < 2 ^ w) :
    s = bv_srl s (mul_const_tz w s) * 2 ^ mul_const_tz w s ∧
    (bv_srl s (mul_const_tz w s)).testBit 0 = true := by
  obtain ⟨hk, hbit, hlow⟩ := tz_spec hs hsw
  constructor
  · show s = s / 2 ^ mul_const_tz w s * 2 ^ mul_const_tz w s
    have hmod : s % 2 ^ mul_const_tz w s = 0 :=
      mod_two_pow_eq_zero_of_testBit hlow
    have h6 := Nat.div_add_mod s (2 ^ mul_const_tz w s)
    have h7 : s / 2 ^ mul_const_tz w s * 2 ^ mul_const_tz w s =
        2 ^ mul_const_tz w s * (s / 2 ^ mul_const_tz w s) := by ring
    omega
  · rw [bv_srl_testBit, Nat.zero_add]
    exact hbit

theorem mask_lo_eq {w k : Nat} (hk : k ≤ w) :
    bv_srl (ones w) k = 2 ^ (w - k) - 1 := by
  show (2 ^ w - 1) / 2 ^ k = 2 ^ (w - k) - 1
  have h1 : (2 : Nat) ^ w = 2 ^ (w - k) * 2 ^ k := by
    rw [← pow_add]
    congr 1
    omega
  have h2 := Nat.two_pow_pos k
  have h3 := Nat.two_pow_pos (w - k)
  have h4 : ((2 : Nat) ^ (w - k) - 1) * 2 ^ k + 2 ^ k = 2 ^ (w - k) * 2 ^ k := by
    have h5 : ((2 : Nat) ^ (w - k) - 1) * 2 ^ k + 2 ^ k =
        ((2 ^ (w - k) - 1) + 1) * 2 ^ k := by ring
    rw [h5, Nat.sub_add_cancel h3]
  rw [show (2 : Nat) ^ w - 1 = 2 ^ k * (2 ^ (w - k) - 1) + (2 ^ k - 1) by
    have h6 : (2 : Nat) ^ k * (2 ^ (w - k) - 1) = (2 ^ (w - k) - 1) * 2 ^ k := by
      ring
    omega]
  rw [Nat.mul_add_div (Nat.two_pow_pos k), Nat.div_eq_of_lt (by omega)]
  omega

theorem mod_inverse_mul {w s : Nat} (hw : 0 < w) (hodd : s.testBit 0 = true) :
    bzla_bv_mod_inverse w s * s % 2 ^ w = 1 := by
  have hso : Odd s := by
    rw [Nat.testBit_zero] at hodd
    exact Nat.odd_iff.mpr (of_decide_eq_true hodd)
  have hcop : Nat.Coprime s (2 ^ w) :=
    Nat.Coprime.pow_right w (Nat.coprime_two_right.mpr hso)
  have htot := Nat.ModEq.pow_totient hcop
  have htval : (2 ^ w).totient = 2 ^ (w - 1) := by
    rw [Nat.totient_prime_pow Nat.prime_two hw]
    simp
  rw [htval] at htot
  unfold bzla_bv_mod_inverse
  rw [Nat.mod_mul_mod, ← pow_succ,
    show 2 ^ (w - 1) - 1 + 1 = 2 ^ (w - 1) by
      have := Nat.two_pow_pos (w - 1)
      omega]
  have h1 : (1 : Nat) % 2 ^ w = 1 :=
    Nat.mod_eq_of_lt (Nat.one_lt_two_pow (by omega))
  exact Eq.trans htot h1

theorem mul_shift_mod_iff {w k : Nat} (hk : k ≤ w) (a b : Nat) :
    a * 2 ^ k % 2 ^ w = b * 2 ^ k % 2 ^ w ↔
      a % 2 ^ (w - k) = b % 2 ^ (w - k) := by
  rw [show (2 : Nat) ^ w = 2 ^ (w - k) * 2 ^ k by rw [← pow_add]; congr 1; omega,
    Nat.mul_mod_mul_right, Nat.mul_mod_mul_right]
  constructor
  · intro h
    exact Nat.eq_of_mul_eq_mul_right (Nat.two_pow_pos k) h
  · intro h
    rw [h]

theorem neg_or_self_testBit {w s : Nat} (hs : s ≠ 0) (hsw : s < 2 ^ w)
    (i : Nat) :
    (bv_neg w s ||| s).testBit i =
      decide (mul_const_tz w s ≤ i ∧ i < w) := by
  obtain ⟨hk, hbit, hlow⟩ := tz_spec hs hsw
  obtain ⟨hdec, hodd⟩ := s_decomp hs hsw
  have hq0 : bv_srl s (mul_const_tz w s) ≠ 0 := by
    intro h
    apply hs
    rw [hdec, h, Nat.zero_mul]
  have hqpos : 0 < bv_srl s (mul_const_tz w s) := Nat.pos_of_ne_zero hq0
  have hqlt : bv_srl s (mul_const_tz w s) < 2 ^ (w - mul_const_tz w s) := by
    by_contra hcon
    push_neg at hcon
    have h1 : (2 : Nat) ^ (w - mul_const_tz w s) * 2 ^ mul_const_tz w s ≤
        bv_srl s (mul_const_tz w s) * 2 ^ mul_const_tz w s :=
      Nat.mul_le_mul_right _ hcon
    have h2 : (2 : Nat) ^ (w - mul_const_tz w s) * 2 ^ mul_const_tz w s =
        2 ^ w := by
      rw [← pow_add]
      congr 1
      omega
    rw [h2, ← hdec] at h1
    omega
  have hspos : 0 < s := Nat.pos_of_ne_zero hs
  have hneg : bv_neg w s = 2 ^ w - s := by
    unfold bv_neg
    rw [Nat.mod_eq_of_lt hsw, Nat.mod_eq_of_lt (by omega)]
  have hsub : 2 ^ w - s =
      2 ^ mul_const_tz w s *
        (2 ^ (w - mul_const_tz w s) - bv_srl s (mul_const_tz w s)) := by
    have e1 : (2 : Nat) ^ mul_const_tz w s *
          (2 ^ (w - mul_const_tz w s) - bv_srl s (mul_const_tz w s)) +
        2 ^ mul_const_tz w s * bv_srl s (mul_const_tz w s) =
          2 ^ mul_const_tz w s * 2 ^ (w - mul_const_tz w s) := by
      rw [← Nat.mul_add]
      congr 1
      omega
    have e2 : (2 : Nat) ^ mul_const_tz w s * 2 ^ (w - mul_const_tz w s) =
        2 ^ w := by
      rw [← pow_add]
      congr 1
      omega
    have e3 : bv_srl s (mul_const_tz w s) * 2 ^ mul_const_tz w s =
        2 ^ mul_const_tz w s * bv_srl s (mul_const_tz w s) := by ring
    omega
  have hsbit : s.testBit i =
      (decide (mul_const_tz w s ≤ i) &&
        (bv_srl s (mul_const_tz w s)).testBit (i - mul_const_tz w s)) := by
    have h1 : s = 2 ^ mul_const_tz w s * bv_srl s (mul_const_tz w s) := by
      conv_lhs => rw [hdec]
      ring
    conv_lhs => rw [h1]
    exact Nat.testBit_mul_pow_two
  have hq1 : bv_srl s (mul_const_tz w s) - 1 + 1 =
      bv_srl s (mul_const_tz w s) := by omega
  have hsubbit : ∀ j,
      (2 ^ (w - mul_const_tz w s) - bv_srl s (mul_const_tz w s)).testBit j =
        (decide (j < w - mul_const_tz w s) &&
          !(bv_srl s (mul_const_tz w s) - 1).testBit j) := by
    intro j
    conv_lhs => rw [← hq1]
    exact Nat.testBit_two_pow_sub_succ (by omega) j
  rw [Nat.testBit_or, hneg, hsub, Nat.testBit_mul_pow_two, hsubbit, hsbit]
  by_cases hik : mul_const_tz w s ≤ i
  · by_cases hiw : i < w
    · have hjlt : i - mul_const_tz w s < w - mul_const_tz w s := by omega
      have d1 : decide (mul_const_tz w s ≤ i) = true := decide_eq_true hik
      have d2 : decide (i - mul_const_tz w s < w - mul_const_tz w s) = true :=
        decide_eq_true hjlt
      have d3 : decide (mul_const_tz w s ≤ i ∧ i < w) = true :=
        decide_eq_true ⟨hik, hiw⟩
      simp only [d1, d2, d3, Bool.true_and]
      cases hq1bit : (bv_srl s (mul_const_tz w s) - 1).testBit
          (i - mul_const_tz w s)
      · simp
      · have hqmod : (bv_srl s (mul_const_tz w s) - 1) % 2 = 0 := by
          have h0 := hodd
          rw [Nat.testBit_zero] at h0
          have h1 := of_decide_eq_true h0
          omega
        cases hj : i - mul_const_tz w s with
        | zero =>
          rw [hj] at hq1bit
          rw [hodd]
          simp
        | succ j =>
          rw [hj] at hq1bit
          have heq : (bv_srl s (mul_const_tz w s)).testBit (j + 1) =
              (bv_srl s (mul_const_tz w s) - 1).testBit (j + 1) := by
            conv_lhs => rw [← hq1]
            rw [Nat.testBit_succ, Nat.testBit_succ]
            congr 1
            omega
          rw [heq, hq1bit]
          simp
    · have hjge : ¬(i - mul_const_tz w s < w - mul_const_tz w s) := by omega
      have hqb : (bv_srl s (mul_const_tz w s)).testBit
          (i - mul_const_tz w s) = false :=
        testBit_high hqlt (by omega)
      simp [hjge, hqb, hiw]
  · have hqb2 : ¬(mul_const_tz w s ≤ i) := hik
    simp [hqb2]

theorem inv_mul_iff_tz {w t s : Nat} (hs : s ≠ 0) (hsw : s < 2 ^ w)
    (ht : t < 2 ^ w) (pos_x : Nat) :
    bzla_is_inv_mul w t s pos_x = true ↔
      t % 2 ^ mul_const_tz w s = 0 := by
  unfold bzla_is_inv_mul
  rw [beq_iff_eq]
  constructor
  · intro h
    apply mod_two_pow_eq_zero_of_testBit
    intro i hik
    cases hbt : t.testBit i
    · rfl
    · exfalso
      have h2 := congrArg (fun n => n.testBit i) h
      simp only [Nat.testBit_and] at h2
      rw [neg_or_self_testBit hs hsw, hbt] at h2
      simp at h2
      omega
  · intro h
    apply Nat.eq_of_testBit_eq
    intro i
    rw [Nat.testBit_and, neg_or_self_testBit hs hsw]
    cases hbt : t.testBit i
    · simp
    · have hiw : i < w := by
        by_contra hc
        rw [testBit_high ht (le_of_not_lt hc)] at hbt
        exact absurd hbt (by simp)
      have hki : mul_const_tz w s ≤ i := by
        by_contra hc
        push_neg at hc
        have h5 : t.testBit i = (t % 2 ^ mul_const_tz w s).testBit i := by
          rw [Nat.testBit_mod_two_pow]
          simp [hc]
        rw [h, Nat.zero_testBit] at h5
        rw [h5] at hbt
        exact absurd hbt (by simp)
      simp [hki, hiw]

theorem mul_solution_iff_aux (w k q u x : Nat) (hw : 0 < w) (hkw : k ≤ w)
    (hodd : q.testBit 0 = true) :
    (x * q % 2 ^ (w - k) = u % 2 ^ (w - k) ↔
      x % 2 ^ (w - k) =
        bzla_bv_mod_inverse w q * u % 2 ^ w % 2 ^ (w - k)) := by
  have hm : (2 : Nat) ^ (w - k) ∣ 2 ^ w := pow_dvd_pow 2 (by omega)
  have hinvw : bzla_bv_mod_inverse w q * q % 2 ^ w = 1 := mod_inverse_mul hw hodd
  have hinv : bzla_bv_mod_inverse w q * q ≡ 1 [MOD 2 ^ (w - k)] := by
    apply Nat.ModEq.of_dvd hm
    show _ % _ = _ % _
    rw [hinvw, Nat.mod_eq_of_lt (Nat.one_lt_two_pow (by omega))]
  rw [Nat.mod_mod_of_dvd _ hm]
  constructor
  · intro h
    have h1 : x * q * bzla_bv_mod_inverse w q ≡
        u * bzla_bv_mod_inverse w q [MOD 2 ^ (w - k)] :=
      Nat.ModEq.mul_right _ h
    rw [show x * q * bzla_bv_mod_inverse w q =
        x * (bzla_bv_mod_inverse w q * q) by ring] at h1
    have h3 : x * (bzla_bv_mod_inverse w q * q) ≡
        x * 1 [MOD 2 ^ (w - k)] := Nat.ModEq.mul_left x hinv
    have h4 := h3.symm.trans h1
    rw [Nat.mul_one, Nat.mul_comm u] at h4
    exact h4
  · intro h
    have h0 : x ≡ bzla_bv_mod_inverse w q * u [MOD 2 ^ (w - k)] := h
    have h1 : x * q ≡
        bzla_bv_mod_inverse w q * u * q [MOD 2 ^ (w - k)] :=
      Nat.ModEq.mul_right q h0
    rw [show bzla_bv_mod_inverse w q * u * q =
        bzla_bv_mod_inverse w q * q * u by ring] at h1
    have h3 : bzla_bv_mod_inverse w q * q * u ≡
        1 * u [MOD 2 ^ (w - k)] := Nat.ModEq.mul_right u hinv
    have h4 := h1.trans h3
    rw [Nat.one_mul] at h4
    exact h4

theorem mul_solution_iff {w t s x : Nat} (hw : 0 < w) (hs : s ≠ 0)
    (hsw : s < 2 ^ w) (htw : t < 2 ^ w)
    (ht : t % 2 ^ mul_const_tz w s = 0) :
    (bv_mul w x s = t ↔
      x % 2 ^ (w - mul_const_tz w s) =
        mul_const_tmp_x w t s % 2 ^ (w - mul_const_tz w s)) := by
  obtain ⟨hk, -, -⟩ := tz_spec hs hsw
  obtain ⟨hdec, hodd⟩ := s_decomp hs hsw
  have hkw : mul_const_tz w s ≤ w := le_of_lt hk
  have hstep1 : bv_mul w x s = t ↔
      x * bv_srl s (mul_const_tz w s) % 2 ^ (w - mul_const_tz w s) =
        bv_srl t (mul_const_tz w s) % 2 ^ (w - mul_const_tz w s) := by
    have htdec : bv_srl t (mul_const_tz w s) * 2 ^ mul_const_tz w s = t := by
      show t / 2 ^ mul_const_tz w s * 2 ^ mul_const_tz w s = t
      have h6 := Nat.div_add_mod t (2 ^ mul_const_tz w s)
      have h7 : t / 2 ^ mul_const_tz w s * 2 ^ mul_const_tz w s =
          2 ^ mul_const_tz w s * (t / 2 ^ mul_const_tz w s) := by ring
      omega
    have hmul := mul_shift_mod_iff hkw
      (x * bv_srl s (mul_const_tz w s)) (bv_srl t (mul_const_tz w s))
    rw [← hmul]
    unfold bv_mul
    rw [Nat.mul_assoc, ← hdec, htdec, Nat.mod_eq_of_lt htw]
  rw [hstep1,
    mul_solution_iff_aux w (mul_const_tz w s) (bv_srl s (mul_const_tz w s))
      (bv_srl t (mul_const_tz w s)) x hw hkw hodd]
  exact Iff.rfl

theorem exists_mem_dom_mod_iff {w lo hi c P : Nat} (hval : ValidDom w lo hi)
    (hP : P ≤ w) :
    (∃ x, mem_dom lo hi x ∧ x < 2 ^ w ∧ x % 2 ^ P = c % 2 ^ P) ↔
      ∀ i, i < P → is_fixed_bit lo hi i = true →
        c.testBit i = lo.testBit i := by
  have hlo := hval.1
  have hhi := hval.2.1
  have hsub := (valid_dom_iff hlo hhi).mp hval
  have hmask : ∀ i, (ones w ^^^ ones P).testBit i =
      (decide (P ≤ i) && decide (i < w)) := by
    intro i
    have h0 := himask_testBit w (w - P) i
    rw [show w - (w - P) = P by omega] at h0
    exact h0
  constructor
  · rintro ⟨x, hx, hxw, hmod⟩
    intro i hiP hfix
    have hxi : x.testBit i = c.testBit i := by
      have h1 := congrArg (fun n => n.testBit i) hmod
      simp only [Nat.testBit_mod_two_pow] at h1
      rw [decide_eq_true hiP, Bool.true_and, Bool.true_and] at h1
      exact h1
    obtain ⟨hx1, hx2⟩ := mem_dom_iff.mp hx
    have hxlo : x.testBit i = lo.testBit i := by
      cases hli : lo.testBit i
      · cases hxi2 : x.testBit i
        · rfl
        · exfalso
          have h2 := hx2 i hxi2
          rw [← is_fixed_bit_eq hfix, hli] at h2
          exact absurd h2 (by simp)
      · exact hx1 i hli
    rw [← hxi, hxlo]
  · intro hcond
    refine ⟨c &&& ones P ||| (lo &&& (ones w ^^^ ones P)), ?_, ?_, ?_⟩
    · rw [mem_dom_iff]
      constructor
      · intro i hli
        rw [Nat.testBit_or, Nat.testBit_and, Nat.testBit_and, testBit_ones,
          hmask]
        by_cases hiP : i < P
        · have hfix : is_fixed_bit lo hi i = true := by
            unfold is_fixed_bit
            rw [hli, hsub i hli]
            rfl
          rw [hcond i hiP hfix, hli, decide_eq_true hiP]
          simp
        · have hiw : i < w := by
            by_contra hc2
            rw [testBit_high hlo (le_of_not_lt hc2)] at hli
            exact absurd hli (by simp)
          rw [hli, decide_eq_true (show P ≤ i by omega),
            decide_eq_true hiw]
          simp
      · intro i hXi
        rw [Nat.testBit_or, Nat.testBit_and, Nat.testBit_and, testBit_ones,
          hmask] at hXi
        by_cases hli : lo.testBit i = true
        · exact hsub i hli
        · have hlif : lo.testBit i = false := by
            cases h : lo.testBit i
            · rfl
            · exact absurd h hli
          rw [hlif] at hXi
          simp only [Bool.false_and, Bool.or_false] at hXi
          obtain ⟨hci, hiP⟩ := Bool.and_eq_true_iff.mp hXi
          have hiP2 : i < P := of_decide_eq_true hiP
          by_contra hhic
          have hhif : hi.testBit i = false := by
            cases h : hi.testBit i
            · rfl
            · exact absurd h hhic
          have hfix : is_fixed_bit lo hi i = true := by
            unfold is_fixed_bit
            rw [hlif, hhif]
            rfl
          have h3 := hcond i hiP2 hfix
          rw [hlif] at h3
          rw [h3] at hci
          exact absurd hci (by simp)
    · apply Nat.lt_pow_two_of_testBit
      intro i hwi
      rw [Nat.testBit_or, Nat.testBit_and, Nat.testBit_and, testBit_ones,
        hmask, decide_eq_false (show ¬(i < P) by omega),
        decide_eq_false (show ¬(i < w) by omega)]
      simp
    · apply Nat.eq_of_testBit_eq
      intro i
      rw [Nat.testBit_mod_two_pow, Nat.testBit_mod_two_pow, Nat.testBit_or,
        Nat.testBit_and, Nat.testBit_and, testBit_ones, hmask]
      by_cases hiP : i < P
      · rw [decide_eq_true hiP, decide_eq_false (show ¬(P ≤ i) by omega)]
        simp
      · rw [decide_eq_false hiP]
        simp

theorem check_const_domain_even_iff {w lo hi T P : Nat} (hlo : lo < 2 ^ w)
    (hhi : hi < 2 ^ w) (hT : T < 2 ^ w) (hP : P ≤ w) :
    (check_const_domain_bits w (ones P &&& T) (bv_not w (ones P) ||| T)
        lo hi = true ↔
      ∀ i, i < P → is_fixed_bit lo hi i = true →
        T.testBit i = lo.testBit i) := by
  have honesP : ones P < 2 ^ w := by
    have h1 : (2 : Nat) ^ P ≤ 2 ^ w := Nat.pow_le_pow_right (by omega) hP
    have h2 := Nat.two_pow_pos P
    unfold ones
    omega
  have hlo1 : ones P &&& T < 2 ^ w := lt_of_le_of_lt Nat.and_le_right hT
  have hhi1 : bv_not w (ones P) ||| T < 2 ^ w :=
    Nat.or_lt_two_pow (bv_not_lt honesP) hT
  have hA : ∀ i,
      (bv_xnor w (ones P &&& T) (bv_not w (ones P) ||| T)).testBit i =
        decide (i < P) := by
    intro i
    rw [bv_xnor_testBit hlo1 hhi1, Nat.testBit_and, Nat.testBit_or,
      bv_not_testBit, testBit_ones]
    by_cases h1 : i < P
    · have h2 : i < w := by omega
      simp [h1, h2]
    · by_cases h2 : i < w
      · simp [h1, h2]
      · simp [h1, h2]
  unfold check_const_domain_bits
  rw [beq_iff_eq]
  constructor
  · intro h i hiP hfix
    have h2 := congrArg (fun n => n.testBit i) h
    simp only [Nat.testBit_and] at h2
    have hfixb : (lo.testBit i == hi.testBit i) = true := by
      have h3 := hfix
      unfold is_fixed_bit at h3
      exact h3
    rw [hA i, bv_xnor_testBit hlo hhi, testBit_ones, decide_eq_true hiP,
      decide_eq_true (show i < w by omega), hfixb] at h2
    simp only [Bool.true_and] at h2
    exact h2
  · intro hcond
    apply Nat.eq_of_testBit_eq
    intro i
    simp only [Nat.testBit_and]
    rw [hA i, bv_xnor_testBit hlo hhi, testBit_ones]
    by_cases hiP : i < P
    · rw [decide_eq_true hiP, decide_eq_true (show i < w by omega)]
      simp only [Bool.true_and]
      cases hfix : (lo.testBit i == hi.testBit i)
      · simp
      · have hfix2 : is_fixed_bit lo hi i = true := by
          unfold is_fixed_bit
          exact hfix
        rw [hcond i hiP hfix2]
    · rw [decide_eq_false hiP]
      simp

theorem mul_sol_dvd {w t s x : Nat} (hs : s ≠ 0) (hsw : s < 2 ^ w)
    (hsol : bv_mul w x s = t) : t % 2 ^ mul_const_tz w s = 0 := by
  obtain ⟨hk, -, -⟩ := tz_spec hs hsw
  obtain ⟨hdec, -⟩ := s_decomp hs hsw
  have hdvd : (2 : Nat) ^ mul_const_tz w s ∣ x * s :=
    ⟨x * bv_srl s (mul_const_tz w s), by
      conv_lhs => rw [hdec]
      ring⟩
  have hdvd2 : (2 : Nat) ^ mul_const_tz w s ∣ 2 ^ w :=
    pow_dvd_pow 2 (le_of_lt hk)
  have h3 : (2 : Nat) ^ mul_const_tz w s ∣ t := by
    rw [← hsol]
    unfold bv_mul
    exact (Nat.dvd_mod_iff hdvd2).mpr hdvd
  obtain ⟨c, hc⟩ := h3
  rw [hc]
  exact Nat.mul_mod_right _ _

theorem no_fixed_bits_full {w lo hi : Nat} (hval : ValidDom w lo hi)
    (h : bzla_bvdomain_has_fixed_bits w lo hi = false) :
    lo = 0 ∧ hi = ones w := by
  obtain ⟨hlo, hhi, hv⟩ := hval
  have hsub := (valid_iff hlo hhi).mp hv
  unfold bzla_bvdomain_has_fixed_bits at h
  have h0 : bv_xnor w lo hi = 0 := by
    have h1 : (bv_xnor w lo hi == 0) = true := by
      cases h2 : (bv_xnor w lo hi == 0 : Bool)
      · rw [show (bv_xnor w lo hi != 0) = !(bv_xnor w lo hi == 0) from rfl,
          h2] at h
        exact absurd h (by simp)
      · rfl
    exact eq_of_beq h1
  have hne : ∀ i, i < w → lo.testBit i ≠ hi.testBit i := by
    intro i hiw hcontra
    have h1 := congrArg (fun n => n.testBit i) h0
    simp only at h1
    rw [bv_xnor_testBit hlo hhi, Nat.zero_testBit, decide_eq_true hiw,
      Bool.true_and] at h1
    rw [hcontra] at h1
    simp at h1
  constructor
  · apply Nat.eq_of_testBit_eq
    intro i
    rw [Nat.zero_testBit]
    by_cases hiw : i < w
    · cases hl : lo.testBit i
      · rfl
      · exfalso
        have h2 := hsub i hl
        exact hne i hiw (by rw [hl, h2])
    · exact testBit_high hlo (le_of_not_lt hiw)
  · apply Nat.eq_of_testBit_eq
    intro i
    rw [testBit_ones]
    by_cases hiw : i < w
    · rw [decide_eq_true hiw]
      cases hh : hi.testBit i
      · exfalso
        have hl : lo.testBit i = false := by
          cases hl2 : lo.testBit i
          · rfl
          · have h2 := hsub i hl2
            rw [hh] at h2
            exact absurd h2 (by simp)
        exact hne i hiw (by rw [hl, hh])
      · rfl
    · rw [decide_eq_false hiw]
      exact testBit_high hhi (le_of_not_lt hiw)

theorem inv_mul_const_iff {w lo hi t s : Nat} (hval : ValidDom w lo hi)
    (hw : 0 < w) (hsw : s < 2 ^ w) (ht : t < 2 ^ w) (pos_x : Nat) :
    bzla_is_inv_mul_const w lo hi t s pos_x = true ↔
      ∃ x, mem_dom lo hi x ∧ x < 2 ^ w ∧ bv_mul w x s = t := by
  have hlo := hval.1
  have hhi := hval.2.1
  unfold bzla_is_inv_mul_const
  by_cases hs : s = 0
  · subst hs
    have hneg0 : bv_neg w 0 = 0 := by
      unfold bv_neg
      simp
    by_cases ht0 : t = 0
    · subst ht0
      have hc : bzla_is_inv_mul w 0 0 pos_x = true := by
        unfold bzla_is_inv_mul
        rw [Nat.and_zero]
        rfl
      rw [hc, if_pos rfl, if_neg (by simp)]
      constructor
      · intro h
        refine ⟨lo, mem_dom_lo hval, hlo, ?_⟩
        unfold bv_mul
        rw [Nat.mul_zero, Nat.zero_mod]
      · intro h
        rfl
    · have hc : bzla_is_inv_mul w t 0 pos_x = false := by
        unfold bzla_is_inv_mul
        rw [hneg0]
        have h1 : (0 : Nat) ||| 0 = 0 := rfl
        rw [h1, Nat.zero_and]
        cases h2 : ((0 : Nat) == t)
        · rfl
        · exact absurd (eq_of_beq h2).symm ht0
      rw [hc, if_neg (by simp)]
      constructor
      · intro h
        exact absurd h (by simp)
      · rintro ⟨x, -, -, hx3⟩
        exfalso
        apply ht0
        rw [← hx3]
        unfold bv_mul
        rw [Nat.mul_zero, Nat.zero_mod]
  · obtain ⟨hk, hbit, hlow⟩ := tz_spec hs hsw
    have hobl := inv_mul_iff_tz hs hsw ht pos_x
    have htlt : mul_const_tmp_x w t s < 2 ^ w := by
      unfold mul_const_tmp_x bv_mul
      exact Nat.mod_lt _ (Nat.two_pow_pos w)
    have hex : (∃ x, mem_dom lo hi x ∧ x < 2 ^ w ∧ bv_mul w x s = t) ↔
        (t % 2 ^ mul_const_tz w s = 0 ∧
          ∀ i, i < w - mul_const_tz w s → is_fixed_bit lo hi i = true →
            (mul_const_tmp_x w t s).testBit i = lo.testBit i) := by
      constructor
      · rintro ⟨x, hx1, hx2, hx3⟩
        have ht0 : t % 2 ^ mul_const_tz w s = 0 := mul_sol_dvd hs hsw hx3
        refine ⟨ht0, ?_⟩
        rw [← exists_mem_dom_mod_iff hval
          (show w - mul_const_tz w s ≤ w by omega)]
        exact ⟨x, hx1, hx2, (mul_solution_iff hw hs hsw ht ht0).mp hx3⟩
      · rintro ⟨ht0, hcond⟩
        obtain ⟨x, hx1, hx2, hx3⟩ := (exists_mem_dom_mod_iff hval
          (show w - mul_const_tz w s ≤ w by omega)).mpr hcond
        exact ⟨x, hx1, hx2, (mul_solution_iff hw hs hsw ht ht0).mpr hx3⟩
    have hsne : (s == 0) = false := by
      cases h : (s == 0 : Bool)
      · rfl
      · exact absurd (eq_of_beq h) hs
    cases hmulb : bzla_is_inv_mul w t s pos_x with
    | false =>
      rw [if_neg (by simp)]
      constructor
      · intro h
        exact absurd h (by simp)
      · rintro ⟨x, hx1, hx2, hx3⟩
        exfalso
        have ht0 := mul_sol_dvd hs hsw hx3
        have h2 := hobl.mpr ht0
        rw [hmulb] at h2
        exact absurd h2 (by simp)
    | true =>
      rw [if_pos rfl]
      have ht0 : t % 2 ^ mul_const_tz w s = 0 := hobl.mp hmulb
      by_cases hfb : bzla_bvdomain_has_fixed_bits w lo hi = true
      · rw [if_pos (by rw [hsne, hfb]; rfl)]
        by_cases hfix : bzla_bvdomain_is_fixed lo hi = true
        · rw [if_pos hfix]
          rw [beq_iff_eq]
          have hhieq : lo = hi := by
            unfold bzla_bvdomain_is_fixed at hfix
            exact eq_of_beq hfix
          subst hhieq
          constructor
          · intro h
            exact ⟨lo, mem_dom_lo hval, hlo, h⟩
          · rintro ⟨x, hx1, -, hx3⟩
            have hxl := mem_dom_point hx1
            rw [← hxl]
            exact hx3
        · rw [if_neg hfix]
          by_cases hodd : s.testBit 0 = true
          · rw [if_pos hodd]
            have hk0 : mul_const_tz w s = 0 := by
              by_contra hc
              have h2 := hlow 0 (Nat.pos_of_ne_zero hc)
              rw [hodd] at h2
              exact absurd h2 (by simp)
            have htmp : mul_const_tmp_x w t s =
                bv_mul w (bzla_bv_mod_inverse w s) t := by
              unfold mul_const_tmp_x bv_srl
              rw [hk0, pow_zero, Nat.div_one, Nat.div_one]
            rw [check_fixed_bits_iff_mem hval, hex, ← htmp]
            constructor
            · intro hmem
              refine ⟨ht0, ?_⟩
              intro i hiw2 hfixi
              exact (exists_mem_dom_mod_iff hval
                (show w - mul_const_tz w s ≤ w by omega)).mp
                ⟨mul_const_tmp_x w t s, hmem, htlt, rfl⟩ i hiw2 hfixi
            · rintro ⟨-, hcond⟩
              obtain ⟨x, hx1, hx2, hx3⟩ := (exists_mem_dom_mod_iff hval
                (show w - mul_const_tz w s ≤ w by omega)).mpr hcond
              rw [hk0, Nat.sub_zero] at hx3
              rw [Nat.mod_eq_of_lt hx2, Nat.mod_eq_of_lt htlt] at hx3
              rw [← hx3]
              exact hx1
          · rw [if_neg hodd]
            have hkpos : mul_const_tz w s ≠ 0 := by
              intro hc
              rw [hc] at hbit
              exact hodd hbit
            have hmaskeq : mul_const_mask_lo w s =
                ones (w - mul_const_tz w s) := by
              unfold mul_const_mask_lo
              rw [mask_lo_eq (le_of_lt hk)]
              rfl
            rw [hmaskeq,
              check_const_domain_even_iff hlo hhi htlt
                (show w - mul_const_tz w s ≤ w by omega),
              hex]
            constructor
            · intro hc
              exact ⟨ht0, hc⟩
            · rintro ⟨-, hc⟩
              exact hc
      · have hfbf : bzla_bvdomain_has_fixed_bits w lo hi = false := by
          cases h : bzla_bvdomain_has_fixed_bits w lo hi
          · rfl
          · exact absurd h hfb
        rw [if_neg (by rw [hsne, hfbf]; simp)]
        rw [hex]
        constructor
        · intro h
          refine ⟨ht0, ?_⟩
          intro i hiP hfixi
          exfalso
          obtain ⟨hlo0, hhiones⟩ := no_fixed_bits_full hval hfbf
          rw [hlo0, hhiones] at hfixi
          unfold is_fixed_bit at hfixi
          rw [Nat.zero_testBit, testBit_ones,
            decide_eq_true (show i < w by omega)] at hfixi
          exact absurd hfixi (by simp)
        · intro h
          rfl

/-- C2 (amended): for every supported operator except `udiv` and `urem`,
with a valid domain, positive widths, width-bounded `s` and `t` and
`pos_x` in `{0, 1}`, the domain-aware oracle `bzla_is_inv_<op>_const`
returns `true` if and only if some `x` in `gamma(D)` satisfies
`op(x, s) = t` (respectively `op(s, x) = t` for `pos_x = 1`): it is both
sound and complete.  `udiv` (an unconditional `return true` stub) and
`urem` (the inverted emptiness check of C1) are excluded. -/
theorem inv_const_iff_exists (op : BvOp) {w ws lo hi t s pos_x fuel : Nat}
    (hop : op ≠ BvOp.udiv ∧ op ≠ BvOp.urem)
    (hpos : pos_x = 0 ∨ pos_x = 1)
    (hval : ValidDom w lo hi) (hw : 0 < w) (hws : 0 < ws)
    (hs : s < 2 ^ op_s_width op w ws) (ht : t < 2 ^ op_t_width op w ws) :
    (is_inv_const op w ws lo hi t s pos_x fuel = true ↔
      ∃ x, mem_dom lo hi x ∧ x < 2 ^ w ∧ op_result op w ws x s pos_x = t) := by
  cases op with
  | add => exact inv_add_const_iff hval ht pos_x
  | and => exact inv_and_const_iff hval ht pos_x
  | concat => exact inv_concat_const_iff hval hw hws hs ht pos_x
  | eq => exact inv_eq_const_iff hval hs ht pos_x
  | mul => exact inv_mul_const_iff hval hw hs ht pos_x
  | sll =>
    rcases hpos with rfl | rfl
    · exact inv_sll_const_pos0_iff hval ht
    · exact inv_sll_const_pos1_iff hval
  | srl =>
    rcases hpos with rfl | rfl
    · exact inv_srl_const_pos0_iff hval ht
    · exact inv_srl_const_pos1_iff hval hs
  | udiv => exact absurd rfl hop.1
  | urem => exact absurd rfl hop.2
  | ult => exact inv_ult_const_iff hval hs ht pos_x

/-- Counterexample to the unrestricted C2: for `urem` with `pos_x = 1` on
the full width-2 domain with `s = 3`, `t = 0`, the const oracle answers
`false` although `x = 1` lies in `gamma(D)` and `3 % 1 = 0 = t` — the
oracle is not complete for `urem`. -/
theorem inv_const_not_complete_for_urem :
    is_inv_const BvOp.urem 2 2 0 3 0 3 1 8 = false ∧
      mem_dom 0 3 1 ∧ 1 < 2 ^ 2 ∧ op_result BvOp.urem 2 2 1 3 1 = 0 :=
  ⟨by decide, by decide, by decide, by decide⟩

/-- Closed instance of C2's theorem: `and` on a width-2 domain. -/
theorem inv_const_iff_exists_witness :
    (is_inv_const BvOp.and 2 1 1 3 1 3 0 0 = true ↔
      ∃ x, mem_dom 1 3 x ∧ x < 2 ^ 2 ∧ op_result BvOp.and 2 1 x 3 0 = 1) :=
  inv_const_iff_exists BvOp.and ⟨by decide, by decide⟩ (Or.inl rfl)
    ⟨by decide, by decide, by decide⟩ (by decide) (by decide) (by decide)
    (by decide)

end Bzla
